import Mathlib

/-!
# go-redis-demo: the cache-aside lookup `getData`

A shallow embedding of `main.go`.  Go strings are byte sequences, so a string
is a list of bytes.  The library calls that `getData` makes (`url.PathEscape`,
`encoding/json`, the Redis client, `http.Get`) are embedded next to it: the
pure ones as functions, the stateful ones as operations on an explicit `World`.
-/

namespace GeoCache

/-! ## Bytes and strings -/

/-- A Go `byte`. -/
abbrev Byte := Fin 256

/-- A Go `string` or `[]byte`: a sequence of bytes, not necessarily UTF-8. -/
abbrev Bytes := List Byte

/-- A Go slice: `none` is the nil slice, `some xs` a non-nil slice. -/
abbrev Slice (α : Type) := Option (List α)

/-- The bytes of an ASCII string constant of the source. -/
def ascii (s : String) : Bytes := s.data.map (fun c => Fin.ofNat c.toNat)

/-! ## net/url: `PathEscape` -/

/-- The `upperhex` table of net/url. -/
def upperhex : Bytes := ascii "0123456789ABCDEF"

/-- Letters and digits: the first test of `shouldEscape`. -/
def isAlnum (c : Byte) : Bool :=
  (97 ≤ c.val && c.val ≤ 122) || (65 ≤ c.val && c.val ≤ 90) || (48 ≤ c.val && c.val ≤ 57)

/-- The function `shouldEscape(c, encodePathSegment)` of net/url. -/
def shouldEscape (c : Byte) : Bool :=
  if isAlnum c then false
  -- '-', '_', '.', '~'
  else if c = 45 ∨ c = 95 ∨ c = 46 ∨ c = 126 then false
  -- '$', '&', '+', ',', '/', ':', ';', '=', '?', '@'
  else if c = 36 ∨ c = 38 ∨ c = 43 ∨ c = 44 ∨ c = 47 ∨ c = 58 ∨ c = 59 ∨ c = 61 ∨ c = 63 ∨ c = 64 then
    -- in a path segment: '/', ';', ',', '?'
    c = 47 || c = 59 || c = 44 || c = 63
  else true

/-- The function `url.PathEscape`: `escape(s, encodePathSegment)`. -/
def PathEscape : Bytes → Bytes
  | [] => []
  | c :: s =>
    if shouldEscape c then
      37 :: upperhex.getD (c.val / 16) 0 :: upperhex.getD (c.val % 16) 0 :: PathEscape s
    else c :: PathEscape s

/-! ## unicode/utf8 -/

/-- The constant `utf8.RuneError`, U+FFFD.  A Go `rune` is an `int32`; every
rune that occurs here is non-negative, so runes are natural numbers. -/
def RuneError : Nat := 0xFFFD

/-- The constant `utf8.MaxRune`. -/
def MaxRune : Nat := 0x10FFFF

/-- The conversion `byte(x)` of a non-negative integer: truncation to 8 bits. -/
def toByte (n : Nat) : Byte := Fin.ofNat n

/-- The width that the table `first` of unicode/utf8 gives a leading byte
(`x & 7`); 0 stands for the entries `xx` (invalid) and is not used for ASCII. -/
def firstSize (p0 : Byte) : Nat :=
  if 0xC2 ≤ p0.val ∧ p0.val ≤ 0xDF then 2
  else if 0xE0 ≤ p0.val ∧ p0.val ≤ 0xEF then 3
  else if 0xF0 ≤ p0.val ∧ p0.val ≤ 0xF4 then 4
  else 0

/-- The lower bound of `acceptRanges[first[p0] >> 4]` for the second byte. -/
def acceptLo (p0 : Byte) : Nat :=
  if p0.val = 0xE0 then 0xA0 else if p0.val = 0xF0 then 0x90 else 0x80

/-- The upper bound of `acceptRanges[first[p0] >> 4]` for the second byte. -/
def acceptHi (p0 : Byte) : Nat :=
  if p0.val = 0xED then 0x9F else if p0.val = 0xF4 then 0x8F else 0xBF

/-- A continuation byte: `locb <= b && b <= hicb`. -/
def isCont (b : Byte) : Bool := 0x80 ≤ b.val && b.val ≤ 0xBF

/-- The function `utf8.DecodeRune` (and `DecodeRuneInString`): the rune at the
head of `p` and its width in bytes.  The masks `p0&mask2`, `b&maskx` are
remainders and the shifts are products; the bit fields do not overlap, so
their `|` is a sum. -/
def DecodeRune (p : Bytes) : Nat × Nat :=
  match p with
  | [] => (RuneError, 0)
  | p0 :: rest =>
    if p0.val < 0x80 then (p0.val, 1)
    else if firstSize p0 = 0 then (RuneError, 1)
    else if rest.length + 1 < firstSize p0 then (RuneError, 1)
    else
      match rest with
      | [] => (RuneError, 1)
      | b1 :: rest1 =>
        if b1.val < acceptLo p0 ∨ acceptHi p0 < b1.val then (RuneError, 1)
        else if firstSize p0 ≤ 2 then ((p0.val % 32) * 64 + b1.val % 64, 2)
        else
          match rest1 with
          | [] => (RuneError, 1)
          | b2 :: rest2 =>
            if !isCont b2 then (RuneError, 1)
            else if firstSize p0 ≤ 3 then
              ((p0.val % 16) * 4096 + (b1.val % 64) * 64 + b2.val % 64, 3)
            else
              match rest2 with
              | [] => (RuneError, 1)
              | b3 :: _ =>
                if !isCont b3 then (RuneError, 1)
                else ((p0.val % 8) * 262144 + (b1.val % 64) * 4096 + (b2.val % 64) * 64
                        + b3.val % 64, 4)

/-- The function `utf8.EncodeRune` (the bytes it writes). -/
def EncodeRune (r : Nat) : Bytes :=
  if r ≤ 0x7F then [toByte r]
  else if r ≤ 0x7FF then [toByte (0xC0 + r / 64), toByte (0x80 + r % 64)]
  else if r > MaxRune ∨ (0xD800 ≤ r ∧ r ≤ 0xDFFF) then
    -- `r = RuneError; fallthrough`
    [toByte (0xE0 + RuneError / 4096), toByte (0x80 + RuneError / 64 % 64),
      toByte (0x80 + RuneError % 64)]
  else if r ≤ 0xFFFF then
    [toByte (0xE0 + r / 4096), toByte (0x80 + r / 64 % 64), toByte (0x80 + r % 64)]
  else
    [toByte (0xF0 + r / 262144), toByte (0x80 + r / 4096 % 64), toByte (0x80 + r / 64 % 64),
      toByte (0x80 + r % 64)]

/-- The loop of `utf8.Valid`, with `fuel` bounding the number of runes. -/
def validAux : Nat → Bytes → Bool
  | 0, s => s.isEmpty
  | fuel + 1, s =>
    match s with
    | [] => true
    | p0 :: rest =>
      if (DecodeRune (p0 :: rest)).1 = RuneError ∧ (DecodeRune (p0 :: rest)).2 = 1 then false
      else validAux fuel ((p0 :: rest).drop (DecodeRune (p0 :: rest)).2)

/-- The function `utf8.Valid`: `s` consists of well-formed UTF-8 only. -/
def utf8Valid (s : Bytes) : Bool := validAux s.length s

/-! ## strconv -/

/-- A Go `int` on a 64-bit platform. -/
abbrev Int64 := { n : Int // -(2 : Int) ^ 63 ≤ n ∧ n < (2 : Int) ^ 63 }

/-- The decimal digits of `n`, most significant first, in front of `acc`; `fuel`
bounds the number of digits. -/
def formatBits : Nat → Nat → Bytes → Bytes
  | 0, _, acc => acc
  | fuel + 1, n, acc =>
    if n < 10 then toByte (48 + n) :: acc
    else formatBits fuel (n / 10) (toByte (48 + n % 10) :: acc)

/-- The function `strconv.AppendInt(nil, i, 10)`. -/
def FormatInt (i : Int) : Bytes :=
  if i < 0 then 45 :: formatBits (i.natAbs + 1) i.natAbs []
  else formatBits (i.natAbs + 1) i.natAbs []

/-- The digit loop of `strconv.ParseUint(s, 10, 64)` on a non-empty `s`, without
the overflow test (the caller makes the range test on the exact value). -/
def parseDigits : Nat → Bytes → Option Nat
  | acc, [] => some acc
  | acc, c :: s =>
    if 48 ≤ c.val ∧ c.val ≤ 57 then parseDigits (acc * 10 + (c.val - 48)) s else none

/-- The function `strconv.ParseUint(s, 10, 64)` without the overflow test. -/
def ParseUint (s : Bytes) : Option Nat :=
  match s with
  | [] => none
  | _ :: _ => parseDigits 0 s

/-- The function `strconv.ParseInt(s, 10, 64)`; `none` is a syntax or a range
error. -/
def ParseInt (s : Bytes) : Option Int64 :=
  match s with
  | [] => none
  | c :: rest =>
    let neg := decide (c = 45)
    let digits := if c = 43 ∨ c = 45 then rest else c :: rest
    match ParseUint digits with
    | none => none
    | some un =>
      let n : Int := if neg then -(un : Int) else (un : Int)
      if h : -(2 : Int) ^ 63 ≤ n ∧ n < (2 : Int) ^ 63 then some ⟨n, h⟩ else none

/-- What encoding/json needs of `float64` and strconv.  `F` is the type of the
finite `float64` values.  `FormatFloat x` is `strconv.AppendFloat(b, x, fmt, -1,
64)` with the format that `floatEncoder` chooses (and its clean-up of the
exponent); `ParseFloat` is `strconv.ParseFloat(s, 64)`, `none` when it reports
an error.  The instance of Go is `float64` below; what does not depend on the
arithmetic of `float64` is stated for every instance. -/
structure Strconv (F : Type) where
  /-- The zero value of `float64`. -/
  zero : F
  /-- The text that `floatEncoder` writes for a finite value. -/
  FormatFloat : F → Bytes
  /-- The value of a number literal, `none` on `ErrRange`. -/
  ParseFloat : Bytes → Option F

/-- A Go `float64`: a finite value, an infinity or a NaN. -/
inductive Float64 (F : Type) where
  | finite (x : F)
  | inf (neg : Bool)
  | nan
  deriving DecidableEq, Repr

/-! ## The records -/

/-- An error value.  `getData` and its caller only test `err != nil`; the
constructors tell the library that returned the error. -/
inductive GoError where
  /-- An error of the JSON decoder: a `*json.SyntaxError`, `io.EOF`,
  `io.ErrUnexpectedEOF`, or the error of the reader that it passes on. -/
  | syntaxError
  /-- A `*json.UnmarshalTypeError`. -/
  | unmarshalTypeError
  /-- A `*json.UnsupportedValueError` of the encoder. -/
  | unsupportedValue
  /-- An error of `http.Get`. -/
  | http
  /-- A transport error of the Redis client. -/
  | redis
  deriving DecidableEq, Repr

/-- The struct `NominatimResponse` of `main.go`. -/
structure NominatimResponse (F : Type) where
  PlaceID : Int64
  Licence : Bytes
  OsmType : Bytes
  OsmID : Int64
  Boundingbox : Slice Bytes
  Lat : Bytes
  Lon : Bytes
  DisplayName : Bytes
  Class : Bytes
  Type_ : Bytes
  Importance : Float64 F
  Icon : Bytes
  deriving DecidableEq

/-- The zero value of `int`. -/
def Int64.zero : Int64 := ⟨0, by decide⟩

/-- The zero value of `NominatimResponse`. -/
def NominatimResponse.zero {F : Type} (sc : Strconv F) : NominatimResponse F where
  PlaceID := Int64.zero
  Licence := []
  OsmType := []
  OsmID := Int64.zero
  Boundingbox := none
  Lat := []
  Lon := []
  DisplayName := []
  Class := []
  Type_ := []
  Importance := .finite sc.zero
  Icon := []

/-! ## encoding/json: `Marshal` -/

/-- The table `hex` of encoding/json. -/
def hexLower : Bytes := ascii "0123456789abcdef"

/-- The table `htmlSafeSet`: the ASCII bytes that a string keeps unescaped when
`escapeHTML` is set: all from the space on except the double quote, '&', '<',
'>' and the backslash. -/
def htmlSafeSet (b : Byte) : Bool :=
  0x20 ≤ b.val && b.val < 0x80 && b != 34 && b != 38 && b != 60 && b != 62 && b != 92

/-- The escape that `appendString` writes for an ASCII byte outside
`htmlSafeSet`. -/
def escapeByte (b : Byte) : Bytes :=
  if b = 92 ∨ b = 34 then [92, b]
  else if b = 8 then [92, 98]
  else if b = 12 then [92, 102]
  else if b = 10 then [92, 110]
  else if b = 13 then [92, 114]
  else if b = 9 then [92, 116]
  else [92, 117, 48, 48, hexLower.getD (b.val / 16) 0, hexLower.getD (b.val % 16) 0]

/-- One iteration of the loop of `appendString(dst, src, escapeHTML = true)` at
the byte `b`, `rest` being the text after it: the bytes written and the number
of bytes of `src` consumed. -/
def appendStep (b : Byte) (rest : Bytes) : Bytes × Nat :=
  if b.val < 0x80 then
    if htmlSafeSet b then ([b], 1)
    else (escapeByte b, 1)
  else if (DecodeRune (b :: rest)).1 = RuneError ∧ (DecodeRune (b :: rest)).2 = 1 then
    (ascii "\\ufffd", 1)
  else if (DecodeRune (b :: rest)).1 = 0x2028 ∨ (DecodeRune (b :: rest)).1 = 0x2029 then
    (ascii "\\u202" ++ [hexLower.getD ((DecodeRune (b :: rest)).1 % 16) 0],
      (DecodeRune (b :: rest)).2)
  else ((b :: rest).take (DecodeRune (b :: rest)).2, (DecodeRune (b :: rest)).2)

/-- The loop of `appendString`; `fuel` bounds the number of iterations. -/
def appendStringAux : Nat → Bytes → Bytes
  | 0, _ => []
  | fuel + 1, src =>
    match src with
    | [] => []
    | b :: rest =>
      (appendStep b rest).1 ++ appendStringAux fuel ((b :: rest).drop (appendStep b rest).2)

/-- The function `appendString(dst, src, true)`: the JSON string literal for
`src`, between double quotes. -/
def appendString (src : Bytes) : Bytes :=
  34 :: (appendStringAux src.length src ++ [34])

/-- The function `floatEncoder.encode` for a `float64`. -/
def floatEncoder {F : Type} (sc : Strconv F) : Float64 F → Except GoError Bytes
  | .finite x => .ok (sc.FormatFloat x)
  | .inf _ => .error .unsupportedValue
  | .nan => .error .unsupportedValue

/-- The elements of a `[]string`, each followed by its separator. -/
def encodeStrings : List Bytes → Bytes
  | [] => []
  | [x] => appendString x
  | x :: y :: rest => appendString x ++ 44 :: encodeStrings (y :: rest)

/-- The slice encoder for a `[]string`: `null` for the nil slice. -/
def encodeStringSlice : Slice Bytes → Bytes
  | none => ascii "null"
  | some xs => 91 :: (encodeStrings xs ++ [93])

/-- The struct encoder for `NominatimResponse`: the fields in declaration
order under their `json` names. -/
def encodeStruct {F : Type} (sc : Strconv F) (r : NominatimResponse F) : Except GoError Bytes :=
  match floatEncoder sc r.Importance with
  | .error e => .error e
  | .ok importance =>
    .ok (ascii "\x7b\"place_id\":" ++ FormatInt r.PlaceID.val
      ++ ascii ",\"licence\":" ++ appendString r.Licence
      ++ ascii ",\"osm_type\":" ++ appendString r.OsmType
      ++ ascii ",\"osm_id\":" ++ FormatInt r.OsmID.val
      ++ ascii ",\"boundingbox\":" ++ encodeStringSlice r.Boundingbox
      ++ ascii ",\"lat\":" ++ appendString r.Lat
      ++ ascii ",\"lon\":" ++ appendString r.Lon
      ++ ascii ",\"display_name\":" ++ appendString r.DisplayName
      ++ ascii ",\"class\":" ++ appendString r.Class
      ++ ascii ",\"type\":" ++ appendString r.Type_
      ++ ascii ",\"importance\":" ++ importance
      ++ ascii ",\"icon\":" ++ appendString r.Icon
      ++ ascii "\x7d")

/-- The elements of a `[]NominatimResponse`, separated by commas. -/
def encodeStructs {F : Type} (sc : Strconv F) : List (NominatimResponse F) → Except GoError Bytes
  | [] => .ok []
  | [r] => encodeStruct sc r
  | r :: r2 :: rest =>
    match encodeStruct sc r with
    | .error e => .error e
    | .ok b =>
      match encodeStructs sc (r2 :: rest) with
      | .error e => .error e
      | .ok bs => .ok (b ++ 44 :: bs)

/-- The function `json.Marshal` on a `[]NominatimResponse`. -/
def Marshal {F : Type} (sc : Strconv F) : Slice (NominatimResponse F) → Except GoError Bytes
  | none => .ok (ascii "null")
  | some rs =>
    match encodeStructs sc rs with
    | .error e => .error e
    | .ok bs => .ok (91 :: (bs ++ [93]))

/-! ## encoding/json: the scanner

The scanner of encoding/json accepts the JSON grammar.  It is embedded as a
recursive-descent reader that returns the value read, as a tree, and the input
after it.  String and number literals are kept as their text; the decoder
converts them when it stores them. -/

/-- A JSON value as the scanner delimits it. -/
inductive JSON where
  | null
  | bool (b : Bool)
  /-- A number literal, as written. -/
  | number (lit : Bytes)
  /-- A string literal, as written between its quotes. -/
  | string (raw : Bytes)
  | array (elems : List JSON)
  | object (members : List (Bytes × JSON))

/-- The constant `maxNestingDepth` of the scanner. -/
def maxNestingDepth : Nat := 10000

/-- The function `isSpace` of the scanner. -/
def isSpace (c : Byte) : Bool := c = 32 || c = 9 || c = 13 || c = 10

/-- Skip the white space at the head of the input. -/
def skipSpace : Bytes → Bytes
  | [] => []
  | c :: s => if isSpace c then skipSpace s else c :: s

/-- A hexadecimal digit, as `stateInStringEscU` accepts it. -/
def isHex (c : Byte) : Bool :=
  (48 ≤ c.val && c.val ≤ 57) || (97 ≤ c.val && c.val ≤ 102) || (65 ≤ c.val && c.val ≤ 70)

/-- The states `stateInString`, `stateInStringEsc` and `stateInStringEscU...`:
read a string literal after its opening quote.  The result is the text before
the closing quote and the input after it. -/
def scanString : Bytes → Option (Bytes × Bytes)
  | [] => none
  | c :: rest =>
    if c = 34 then some ([], rest)
    else if c = 92 then
      match rest with
      | [] => none
      | e :: rest1 =>
        if e = 98 ∨ e = 102 ∨ e = 110 ∨ e = 114 ∨ e = 116 ∨ e = 92 ∨ e = 47 ∨ e = 34 then
          (scanString rest1).map (fun p => (c :: e :: p.1, p.2))
        else if e = 117 then
          match rest1 with
          | h1 :: h2 :: h3 :: h4 :: rest2 =>
            if isHex h1 && isHex h2 && isHex h3 && isHex h4 then
              (scanString rest2).map (fun p => (c :: e :: h1 :: h2 :: h3 :: h4 :: p.1, p.2))
            else none
          | _ => none
        else none
    else if c.val < 0x20 then none
    else (scanString rest).map (fun p => (c :: p.1, p.2))

/-- The states of the scanner inside a number literal. -/
inductive NumState where
  /-- Before the literal (`stateBeginValue` on '-' or a digit). -/
  | begin
  /-- After the minus sign: `stateNeg`. -/
  | neg
  /-- After a leading zero: `state0`. -/
  | zero
  /-- In the integer part: `state1`. -/
  | int
  /-- After the decimal point: `stateDot`. -/
  | dot
  /-- In the fraction: `stateDot0`. -/
  | frac
  /-- After the 'e': `stateE`. -/
  | e
  /-- After the sign of the exponent: `stateESign`. -/
  | esign
  /-- In the exponent: `stateE0`. -/
  | exp
  deriving DecidableEq, Repr

/-- A decimal digit. -/
def isDigit (c : Byte) : Bool := 48 ≤ c.val && c.val ≤ 57

/-- One step of the scanner inside a number: the next state, or `none` when
`c` does not continue the literal. -/
def numStep (st : NumState) (c : Byte) : Option NumState :=
  match st with
  | .begin => if c = 45 then some .neg else if c = 48 then some .zero
              else if isDigit c then some .int else none
  | .neg => if c = 48 then some .zero else if isDigit c then some .int else none
  | .zero => if c = 46 then some .dot else if c = 101 ∨ c = 69 then some .e else none
  | .int => if isDigit c then some .int else if c = 46 then some .dot
            else if c = 101 ∨ c = 69 then some .e else none
  | .dot => if isDigit c then some .frac else none
  | .frac => if isDigit c then some .frac else if c = 101 ∨ c = 69 then some .e else none
  | .e => if c = 43 ∨ c = 45 then some .esign else if isDigit c then some .exp else none
  | .esign => if isDigit c then some .exp else none
  | .exp => if isDigit c then some .exp else none

/-- The states in which a number literal may end. -/
def numFinal (st : NumState) : Bool :=
  match st with
  | .zero | .int | .frac | .exp => true
  | _ => false

/-- Read a number literal from state `st`: the literal and the input after it. -/
def scanNumber : NumState → Bytes → Option (Bytes × Bytes)
  | st, [] => if numFinal st then some ([], []) else none
  | st, c :: rest =>
    match numStep st c with
    | some st2 => (scanNumber st2 rest).map (fun p => (c :: p.1, p.2))
    | none => if numFinal st then some ([], c :: rest) else none

/-- Read the rest `lit` of a literal name (`true`, `false`, `null`). -/
def scanLiteral (lit : Bytes) (s : Bytes) : Option Bytes :=
  if s.take lit.length = lit then some (s.drop lit.length) else none

mutual
/-- Read one value; the input starts at its first byte.  `depth` is the number
of arrays and objects that are open. -/
def parseValue : Nat → Nat → Bytes → Option (JSON × Bytes)
  | 0, _, _ => none
  | _ + 1, _, [] => none
  | fuel + 1, depth, c :: rest =>
    if c = 123 then
      if depth < maxNestingDepth then
        match skipSpace rest with
        | [] => none
        | c2 :: rest2 =>
          if c2 = 125 then some (.object [], rest2)
          else (parseMembers fuel (depth + 1) (c2 :: rest2)).map (fun p => (.object p.1, p.2))
      else none
    else if c = 91 then
      if depth < maxNestingDepth then
        match skipSpace rest with
        | [] => none
        | c2 :: rest2 =>
          if c2 = 93 then some (.array [], rest2)
          else (parseElems fuel (depth + 1) (c2 :: rest2)).map (fun p => (.array p.1, p.2))
      else none
    else if c = 34 then (scanString rest).map (fun p => (.string p.1, p.2))
    else if c = 45 ∨ isDigit c then (scanNumber .begin (c :: rest)).map (fun p => (.number p.1, p.2))
    else if c = 116 then (scanLiteral (ascii "rue") rest).map (fun r => (.bool true, r))
    else if c = 102 then (scanLiteral (ascii "alse") rest).map (fun r => (.bool false, r))
    else if c = 110 then (scanLiteral (ascii "ull") rest).map (fun r => (.null, r))
    else none
/-- Read the elements of an array up to its closing bracket; the input starts
at the first byte of an element. -/
def parseElems : Nat → Nat → Bytes → Option (List JSON × Bytes)
  | 0, _, _ => none
  | fuel + 1, depth, s =>
    match parseValue fuel depth s with
    | none => none
    | some (v, rest) =>
      match skipSpace rest with
      | [] => none
      | c :: rest2 =>
        if c = 44 then (parseElems fuel depth (skipSpace rest2)).map (fun p => (v :: p.1, p.2))
        else if c = 93 then some ([v], rest2)
        else none
/-- Read the members of an object up to its closing brace; the input starts at
the first byte of a key. -/
def parseMembers : Nat → Nat → Bytes → Option (List (Bytes × JSON) × Bytes)
  | 0, _, _ => none
  | _ + 1, _, [] => none
  | fuel + 1, depth, c :: rest =>
    if c = 34 then
      match scanString rest with
      | none => none
      | some (key, rest1) =>
        match skipSpace rest1 with
        | [] => none
        | c2 :: rest2 =>
          if c2 = 58 then
            match parseValue fuel depth (skipSpace rest2) with
            | none => none
            | some (v, rest3) =>
              match skipSpace rest3 with
              | [] => none
              | c3 :: rest4 =>
                if c3 = 44 then
                  (parseMembers fuel depth (skipSpace rest4)).map (fun p => ((key, v) :: p.1, p.2))
                else if c3 = 125 then some ([(key, v)], rest4)
                else none
          else none
    else none
end

/-- Read the value at the head of the input, after white space.  Each call of
the reader consumes a byte or follows a call that did, so twice the length of
the input is fuel enough. -/
def scanValue (s : Bytes) : Option (JSON × Bytes) :=
  parseValue (2 * s.length + 2) 0 (skipSpace s)

/-! ## encoding/json: the decoder -/

/-- The value of a hexadecimal digit in `getu4`. -/
def hexVal (c : Byte) : Option Nat :=
  if 48 ≤ c.val ∧ c.val ≤ 57 then some (c.val - 48)
  else if 97 ≤ c.val ∧ c.val ≤ 102 then some (c.val - 97 + 10)
  else if 65 ≤ c.val ∧ c.val ≤ 70 then some (c.val - 65 + 10)
  else none

/-- The function `getu4`: the code unit of the escape `\uXXXX` at the head of
`s`; `none` is its result -1. -/
def getu4 (s : Bytes) : Option Nat :=
  match s with
  | c :: e :: h1 :: h2 :: h3 :: h4 :: _ =>
    if c = 92 ∧ e = 117 then
      match hexVal h1, hexVal h2, hexVal h3, hexVal h4 with
      | some a, some b, some c, some d => some (((a * 16 + b) * 16 + c) * 16 + d)
      | _, _, _, _ => none
    else none
  | _ => none

/-- The function `utf16.IsSurrogate`. -/
def isSurrogate (r : Nat) : Bool := 0xD800 ≤ r && r < 0xE000

/-- The function `utf16.DecodeRune`, its second argument being the result of
`getu4`: U+FFFD unless the two code units are a surrogate pair. -/
def utf16DecodeRune (r1 : Nat) (r2 : Option Nat) : Nat :=
  match r2 with
  | none => 0xFFFD
  | some r2 =>
    if 0xD800 ≤ r1 ∧ r1 < 0xDC00 ∧ 0xDC00 ≤ r2 ∧ r2 < 0xE000 then
      (r1 - 0xD800) * 1024 + (r2 - 0xDC00) + 0x10000
    else 0xFFFD

/-- One iteration of the main loop of `unquoteBytes` at the byte `c`, `rest`
being the text after it: the bytes written and the number of bytes consumed;
`none` is `ok = false`. -/
def unquoteStep (c : Byte) (rest : Bytes) : Option (Bytes × Nat) :=
  if c = 92 then
    if rest = [] then none
    else if rest.headD 0 = 34 ∨ rest.headD 0 = 92 ∨ rest.headD 0 = 47 ∨ rest.headD 0 = 39 then
      some ([rest.headD 0], 2)
    else if rest.headD 0 = 98 then some ([8], 2)
    else if rest.headD 0 = 102 then some ([12], 2)
    else if rest.headD 0 = 110 then some ([10], 2)
    else if rest.headD 0 = 114 then some ([13], 2)
    else if rest.headD 0 = 116 then some ([9], 2)
    else if rest.headD 0 = 117 then
      match getu4 (c :: rest) with
      | none => none
      | some rr =>
        if isSurrogate rr then
          if utf16DecodeRune rr (getu4 (rest.drop 5)) ≠ 0xFFFD then
            -- a valid pair: both escapes are consumed
            some (EncodeRune (utf16DecodeRune rr (getu4 (rest.drop 5))), 12)
          else
            -- an invalid surrogate: the replacement rune
            some (EncodeRune 0xFFFD, 6)
        else some (EncodeRune rr, 6)
    else none
  else if c = 34 ∨ c.val < 0x20 then none
  else if c.val < 0x80 then some ([c], 1)
  else
    -- coerce to well-formed UTF-8
    some (EncodeRune (DecodeRune (c :: rest)).1, (DecodeRune (c :: rest)).2)

/-- The main loop of `unquoteBytes` on the text of a string literal between
its quotes (its first loop only spares a copy when nothing is to be changed);
`none` is `ok = false`.  `fuel` bounds the number of iterations. -/
def unquoteAux : Nat → Bytes → Option Bytes
  | 0, s => if s = [] then some [] else none
  | fuel + 1, s =>
    match s with
    | [] => some []
    | c :: rest =>
      match unquoteStep c rest with
      | none => none
      | some (out, n) => (unquoteAux fuel ((c :: rest).drop n)).map (fun t => out ++ t)

/-- The function `unquoteBytes`, on the text between the quotes. -/
def unquote (raw : Bytes) : Option Bytes := unquoteAux raw.length raw

/-- The fields of `NominatimResponse`, in declaration order. -/
inductive Field where
  | PlaceID | Licence | OsmType | OsmID | Boundingbox | Lat | Lon | DisplayName | Class | Type_
  | Importance | Icon
  deriving DecidableEq, Repr

/-- The `json` name of a field. -/
def Field.name : Field → Bytes
  | .PlaceID => ascii "place_id"
  | .Licence => ascii "licence"
  | .OsmType => ascii "osm_type"
  | .OsmID => ascii "osm_id"
  | .Boundingbox => ascii "boundingbox"
  | .Lat => ascii "lat"
  | .Lon => ascii "lon"
  | .DisplayName => ascii "display_name"
  | .Class => ascii "class"
  | .Type_ => ascii "type"
  | .Importance => ascii "importance"
  | .Icon => ascii "icon"

/-- The list `fields.list` of the struct. -/
def fields : List Field :=
  [.PlaceID, .Licence, .OsmType, .OsmID, .Boundingbox, .Lat, .Lon, .DisplayName, .Class, .Type_,
    .Importance, .Icon]

/-- The value `b & caseMask`: bit 5 cleared. -/
def caseMasked (b : Byte) : Nat := b.val - 32 * (b.val / 32 % 2)

/-- The case-insensitive comparison of a field name `s`, which is ASCII, with a
key `t`: `bytes.EqualFold`.  Besides the letters of the other case, U+017F
(long s) matches an `s` and U+212A (the Kelvin sign) a `k`. -/
def equalFold : Bytes → Bytes → Bool
  | [], t => t.isEmpty
  | sb :: s, t =>
    match t with
    | [] => false
    | tb :: t1 =>
      if tb.val < 0x80 then
        if sb = tb then equalFold s t1
        else if 65 ≤ caseMasked sb ∧ caseMasked sb ≤ 90 ∧ caseMasked sb = caseMasked tb then
          equalFold s t1
        else false
      else if (sb = 115 ∨ sb = 83) ∧ (DecodeRune t).1 = 0x17F then
        equalFold s (t.drop (DecodeRune t).2)
      else if (sb = 107 ∨ sb = 75) ∧ (DecodeRune t).1 = 0x212A then
        equalFold s (t.drop (DecodeRune t).2)
      else false

/-- The field that `object` selects for a key: the one of that name, else the
first whose name matches when case is ignored. -/
def findField (key : Bytes) : Option Field :=
  match fields.find? (fun f => decide (f.name = key)) with
  | some f => some f
  | none => fields.find? (fun f => equalFold f.name key)

/-- The function `literalStore` and its siblings for a target of kind `string`
that holds `cur`. -/
def decodeString (v : JSON) (cur : Bytes) : Except GoError Bytes :=
  match v with
  | .null => .ok cur
  | .string raw =>
    match unquote raw with
    | some s => .ok s
    | none => .error .syntaxError
  | _ => .error .unmarshalTypeError

/-- The same for a target of kind `int`. -/
def decodeInt (v : JSON) (cur : Int64) : Except GoError Int64 :=
  match v with
  | .null => .ok cur
  | .number lit =>
    match ParseInt lit with
    | some n => .ok n
    | none => .error .unmarshalTypeError
  | _ => .error .unmarshalTypeError

/-- The same for a target of kind `float64`. -/
def decodeFloat {F : Type} (sc : Strconv F) (v : JSON) (cur : Float64 F) :
    Except GoError (Float64 F) :=
  match v with
  | .null => .ok cur
  | .number lit =>
    match sc.ParseFloat lit with
    | some x => .ok (.finite x)
    | none => .error .unmarshalTypeError
  | _ => .error .unmarshalTypeError

/-- The loop of `array` for a `[]string`: element `i` is decoded into the string
that the backing array holds at `i` (the zero value beyond it).  The result is
the elements and what is left of the backing array. -/
def decodeStringElems : List JSON → List Bytes → Except GoError (List Bytes × List Bytes)
  | [], backing => .ok ([], backing)
  | v :: vs, backing =>
    match decodeString v (backing.headD []) with
    | .error e => .error e
    | .ok x =>
      match decodeStringElems vs backing.tail with
      | .error e => .error e
      | .ok (xs, left) => .ok (x :: xs, left)

/-- A `[]string` while its struct is decoded: the slice, and the part of its
backing array beyond its length. -/
structure StringSlice where
  elems : Slice Bytes
  spare : List Bytes

/-- Decoding a value into a `[]string`: `null` makes it nil, an empty array makes
it a new empty slice, another array is decoded into the backing array. -/
def decodeStringSlice (v : JSON) (cur : StringSlice) : Except GoError StringSlice :=
  match v with
  | .null => .ok ⟨none, []⟩
  | .array [] => .ok ⟨some [], []⟩
  | .array (e :: es) =>
    match decodeStringElems (e :: es) (cur.elems.getD [] ++ cur.spare) with
    | .error err => .error err
    | .ok (xs, left) => .ok ⟨some xs, left⟩
  | _ => .error .unmarshalTypeError

/-- A `NominatimResponse` while it is decoded. -/
structure StructState (F : Type) where
  val : NominatimResponse F
  spare : List Bytes

/-- Decoding the value of a member into the field that its key selects. -/
def decodeField {F : Type} (sc : Strconv F) (f : Field) (v : JSON) (st : StructState F) :
    Except GoError (StructState F) :=
  match f with
  | .PlaceID => (decodeInt v st.val.PlaceID).map (fun x => { st with val := { st.val with PlaceID := x } })
  | .Licence => (decodeString v st.val.Licence).map (fun x => { st with val := { st.val with Licence := x } })
  | .OsmType => (decodeString v st.val.OsmType).map (fun x => { st with val := { st.val with OsmType := x } })
  | .OsmID => (decodeInt v st.val.OsmID).map (fun x => { st with val := { st.val with OsmID := x } })
  | .Boundingbox =>
    (decodeStringSlice v ⟨st.val.Boundingbox, st.spare⟩).map
      (fun x => { val := { st.val with Boundingbox := x.elems }, spare := x.spare })
  | .Lat => (decodeString v st.val.Lat).map (fun x => { st with val := { st.val with Lat := x } })
  | .Lon => (decodeString v st.val.Lon).map (fun x => { st with val := { st.val with Lon := x } })
  | .DisplayName =>
    (decodeString v st.val.DisplayName).map (fun x => { st with val := { st.val with DisplayName := x } })
  | .Class => (decodeString v st.val.Class).map (fun x => { st with val := { st.val with Class := x } })
  | .Type_ => (decodeString v st.val.Type_).map (fun x => { st with val := { st.val with Type_ := x } })
  | .Importance =>
    (decodeFloat sc v st.val.Importance).map (fun x => { st with val := { st.val with Importance := x } })
  | .Icon => (decodeString v st.val.Icon).map (fun x => { st with val := { st.val with Icon := x } })

/-- The loop of `object` for a struct: every member whose key selects a field is
decoded into that field, in the order of the input; the others are skipped. -/
def decodeMembers {F : Type} (sc : Strconv F) :
    List (Bytes × JSON) → StructState F → Except GoError (StructState F)
  | [], st => .ok st
  | (rawKey, v) :: ms, st =>
    match unquote rawKey with
    | none => .error .syntaxError
    | some key =>
      match findField key with
      | none => decodeMembers sc ms st
      | some f =>
        match decodeField sc f v st with
        | .error e => .error e
        | .ok st2 => decodeMembers sc ms st2

/-- Decoding a value into a new element of the `[]NominatimResponse`, which
holds the zero value. -/
def decodeStruct {F : Type} (sc : Strconv F) (v : JSON) : Except GoError (NominatimResponse F) :=
  match v with
  | .null => .ok (NominatimResponse.zero sc)
  | .object ms => (decodeMembers sc ms ⟨NominatimResponse.zero sc, []⟩).map (fun st => st.val)
  | _ => .error .unmarshalTypeError

/-- The loop of `array` for the `[]NominatimResponse`. -/
def decodeStructs {F : Type} (sc : Strconv F) : List JSON → Except GoError (List (NominatimResponse F))
  | [] => .ok []
  | v :: vs =>
    match decodeStruct sc v with
    | .error e => .error e
    | .ok r =>
      match decodeStructs sc vs with
      | .error e => .error e
      | .ok rs => .ok (r :: rs)

/-- Decoding a value into `data`, the nil `[]NominatimResponse` of `getData`. -/
def decodeData {F : Type} (sc : Strconv F) (v : JSON) : Except GoError (Slice (NominatimResponse F)) :=
  match v with
  | .null => .ok none
  | .array vs => (decodeStructs sc vs).map some
  | _ => .error .unmarshalTypeError

/-- The call `json.Unmarshal(data, &v)` with `v` a nil `[]NominatimResponse`:
`checkValid` demands one value and white space only around it. -/
def Unmarshal {F : Type} (sc : Strconv F) (data : Bytes) : Except GoError (Slice (NominatimResponse F)) :=
  match scanValue data with
  | none => .error .syntaxError
  | some (v, rest) => if skipSpace rest = [] then decodeData sc v else .error .syntaxError

/-- The body of an HTTP response as the decoder reads it: the bytes that arrive,
and whether the stream then ends with a read error instead of the end of the
file. -/
structure Body where
  bytes : Bytes
  readErr : Bool
  deriving DecidableEq

/-- The call `json.NewDecoder(body).Decode(&v)` with `v` a nil
`[]NominatimResponse`: the first value of the stream is decoded and what follows
it is left unread.  An array or an object ends with its closing bracket; a
literal, a number or a string ends at the byte after it or at the end of the
file, so a read error right after it fails the call. -/
def Decode {F : Type} (sc : Strconv F) (body : Body) : Except GoError (Slice (NominatimResponse F)) :=
  match scanValue body.bytes with
  | none => .error .syntaxError
  | some (v, rest) =>
    match v with
    | .array _ => decodeData sc v
    | .object _ => decodeData sc v
    | _ => if rest = [] ∧ body.readErr then .error .syntaxError else decodeData sc v

/-! ## The outside world: Redis and the provider -/

/-- An instant or a duration, in nanoseconds (`time.Duration` counts them). -/
abbrev Nanos := Nat

/-- The constant `time.Second`. -/
def Second : Nanos := 1000000000

/-- A key of the Redis server: its value and the instant at which it expires,
if it does. -/
structure Entry where
  value : Bytes
  expiresAt : Option Nanos
  deriving DecidableEq

/-- What `getData` acts on.  A call of `getData` is taken at the instant `now`;
time passes between calls (`World.advance`). -/
structure World where
  /-- The clock. -/
  now : Nanos
  /-- The keys of the Redis server. -/
  store : Bytes → Option Entry
  /-- A `GET` meets a transport error. -/
  getFails : Bool
  /-- A `SET` meets a transport error. -/
  setFails : Bool
  /-- The provider: what `http.Get` returns for an address. -/
  upstream : Bytes → Except GoError Body

/-- The result of `a.cache.Get(ctx, key).Result()`. -/
inductive GetResult where
  /-- The pair `(val, nil)`. -/
  | val (v : Bytes)
  /-- The error `redis.Nil`: the key does not exist. -/
  | nil
  /-- Another error. -/
  | err
  deriving DecidableEq

/-- An entry that has not expired. -/
def Entry.alive (e : Entry) (now : Nanos) : Bool :=
  match e.expiresAt with
  | none => true
  | some t => now < t

/-- The call `a.cache.Get(ctx, key).Result()`. -/
def World.Get (w : World) (key : Bytes) : GetResult :=
  if w.getFails then .err
  else
    match w.store key with
    | none => .nil
    | some e => if e.alive w.now then .val e.value else .nil

/-- The call `a.cache.Set(ctx, key, value, ttl).Err()`: the world after it, or
the error.  A zero `ttl` means no expiry. -/
def World.Set (w : World) (key value : Bytes) (ttl : Nanos) : Except GoError World :=
  if w.setFails then .error .redis
  else
    .ok { w with
      store := fun k =>
        if k = key then some ⟨value, if ttl = 0 then none else some (w.now + ttl)⟩
        else w.store k }

/-- The world `dt` nanoseconds later. -/
def World.advance (w : World) (dt : Nanos) : World := { w with now := w.now + dt }

/-- A call that `getData` makes out of the process. -/
inductive Call where
  | cacheGet (key : Bytes)
  | httpGet (address : Bytes)
  | cacheSet (key value : Bytes) (ttl : Nanos)
  deriving DecidableEq

/-! ## main.go -/

/-- The method `GetCachedData`: the value of the key, and the empty string both
when the key does not exist and when the lookup fails. -/
def GetCachedData (w : World) (key : Bytes) : Bytes :=
  match w.Get key with
  | .nil => []
  | .err => []
  | .val v => v

/-- What a call of `getData` returns and does. -/
structure Outcome (F : Type) where
  /-- The first result. -/
  data : Slice (NominatimResponse F)
  /-- The second result. -/
  isCached : Bool
  /-- The third result; `none` is the nil error. -/
  err : Option GoError
  /-- The world after the call. -/
  world : World
  /-- The calls made, in order. -/
  calls : List Call

/-- The address that `getData` requests for an escaped query. -/
def address (escapedQ : Bytes) : Bytes :=
  ascii "https://nominatim.openstreetmap.org/search?q=" ++ escapedQ ++ ascii "&format=json"

/-- The method `getData`. -/
def getData {F : Type} (sc : Strconv F) (w : World) (q : Bytes) : Outcome F :=
  let escapedQ := PathEscape q
  let cachedData := GetCachedData w escapedQ
  if cachedData ≠ [] then
    match Unmarshal sc cachedData with
    | .error e => ⟨none, false, some e, w, [.cacheGet escapedQ]⟩
    | .ok data => ⟨data, true, none, w, [.cacheGet escapedQ]⟩
  else
    match w.upstream (address escapedQ) with
    | .error e => ⟨none, false, some e, w, [.cacheGet escapedQ, .httpGet (address escapedQ)]⟩
    | .ok body =>
      match Decode sc body with
      | .error e => ⟨none, false, some e, w, [.cacheGet escapedQ, .httpGet (address escapedQ)]⟩
      | .ok data =>
        match Marshal sc data with
        | .error e => ⟨none, false, some e, w, [.cacheGet escapedQ, .httpGet (address escapedQ)]⟩
        | .ok b =>
          match w.Set escapedQ b (Second * 15) with
          | .error e =>
            ⟨none, false, some e, w,
              [.cacheGet escapedQ, .httpGet (address escapedQ), .cacheSet escapedQ b (Second * 15)]⟩
          | .ok w2 =>
            ⟨data, false, none, w2,
              [.cacheGet escapedQ, .httpGet (address escapedQ), .cacheSet escapedQ b (Second * 15)]⟩

/-! ## Auxiliary notions of the statements -/

/-- The contract of strconv that encoding/json relies on: the text written for
a finite `float64` is a JSON number literal, and `ParseFloat` reads it back as
the same value. -/
structure Strconv.Lawful {F : Type} (sc : Strconv F) : Prop where
  format_valid : ∀ x, scanNumber .begin (sc.FormatFloat x) = some (sc.FormatFloat x, [])
  parse_format : ∀ x, sc.ParseFloat (sc.FormatFloat x) = some x

/-- Every string of the record is well-formed UTF-8. -/
def NominatimResponse.utf8 {F : Type} (r : NominatimResponse F) : Bool :=
  utf8Valid r.Licence && utf8Valid r.OsmType && (r.Boundingbox.getD []).all utf8Valid
    && utf8Valid r.Lat && utf8Valid r.Lon && utf8Valid r.DisplayName && utf8Valid r.Class
    && utf8Valid r.Type_ && utf8Valid r.Icon

/-- The importance of the record is a finite number. -/
def NominatimResponse.finite {F : Type} (r : NominatimResponse F) : Bool :=
  match r.Importance with
  | .finite _ => true
  | _ => false

/-- Every string of every record is well-formed UTF-8. -/
def allUTF8 {F : Type} (rs : Slice (NominatimResponse F)) : Bool :=
  (rs.getD []).all (fun r => r.utf8)

/-- Every importance is a finite number. -/
def allFinite {F : Type} (rs : Slice (NominatimResponse F)) : Bool :=
  (rs.getD []).all (fun r => r.finite)

/-- The inverse of the percent-encoding, `unescape` of net/url: `%XX` is the byte
XX; in a query component (`plus`) a '+' is a space.  `none` is an error. -/
def unescape (plus : Bool) : Bytes → Option Bytes
  | [] => some []
  | c :: s =>
    if c = 37 then
      match s with
      | h :: l :: rest =>
        match hexVal h, hexVal l with
        | some a, some b => (unescape plus rest).map (fun t => toByte (a * 16 + b) :: t)
        | _, _ => none
      | _ => none
    else if c = 43 ∧ plus then (unescape plus s).map (fun t => 32 :: t)
    else (unescape plus s).map (fun t => c :: t)

/-- The parts of a string between the occurrences of `sep`. -/
def splitOn (sep : Byte) : Bytes → List Bytes
  | [] => [[]]
  | c :: s =>
    if c = sep then [] :: splitOn sep s
    else
      match splitOn sep s with
      | [] => [[c]]
      | x :: xs => (c :: x) :: xs

/-- The text before the first `sep` and the text after it (`strings.Cut`). -/
def cut (sep : Byte) : Bytes → Bytes × Bytes
  | [] => ([], [])
  | c :: s => if c = sep then ([], s) else (c :: (cut sep s).1, (cut sep s).2)

/-- The parameters of a query string, read the way the provider reads it: the
string is split on '&', each part on its first '=', and name and value are
percent-decoded, a '+' being a space. -/
def queryParams (query : Bytes) : Option (List (Bytes × Bytes)) :=
  ((splitOn 38 query).filter (fun p => p ≠ [])).mapM
    (fun p =>
      match unescape true (cut 61 p).1, unescape true (cut 61 p).2 with
      | some k, some v => some (k, v)
      | _, _ => none)

/-- The query string of an address: what follows its first '?'. -/
def rawQuery (addr : Bytes) : Bytes := (cut 63 addr).2

/-- A record under decoding whose strings, those of the spare part of the
backing array included, are well-formed and whose importance is finite. -/
def StructState.Clean {F : Type} (st : StructState F) : Prop :=
  st.val.utf8 = true ∧ st.val.finite = true ∧ ∀ s ∈ st.spare, utf8Valid s = true

/-- The input after a number literal does not continue it. -/
def Stops (X : Bytes) : Prop := X = [] ∨ ∃ c Y, X = c :: Y ∧ ∀ st, numStep st c = none

/-- The scanner reads `venc` as the value `v`: with fuel `f0` or more and room
for `h` more levels of nesting, in front of the end of the input or of a byte
that does not continue a number, `v` is the value read and what follows `venc`
is the input left. -/
def Enc (venc : Bytes) (v : JSON) (f0 h : Nat) : Prop :=
  (∃ c0 t, venc = c0 :: t ∧ isSpace c0 = false ∧ c0 ≠ 93)
  ∧ ∀ (f d : Nat) (X : Bytes), f0 ≤ f → d + h ≤ 100 → Stops X →
      parseValue f d (venc ++ X) = some (v, X)

/-- Texts separated by commas. -/
def joinComma : List Bytes → Bytes
  | [] => []
  | [x] => x
  | x :: y :: rest => x ++ 44 :: joinComma (y :: rest)

/-- The text of a string literal that `appendString` writes between the quotes. -/
def rawString (s : Bytes) : Bytes := appendStringAux s.length s

/-- The tree that the scanner reads from the encoding of a `[]string`. -/
def astStringSlice : Slice Bytes → JSON
  | none => .null
  | some xs => .array (xs.map (fun s => .string (rawString s)))

/-- The tree that the scanner reads from the encoding of a `float64`. -/
def astFloat {F : Type} (sc : Strconv F) : Float64 F → JSON
  | .finite x => .number (sc.FormatFloat x)
  | _ => .null

/-- The members that the scanner reads from the encoding of a record. -/
def astMembers {F : Type} (sc : Strconv F) (r : NominatimResponse F) : List (Bytes × JSON) :=
  [(ascii "place_id", .number (FormatInt r.PlaceID.val)),
   (ascii "licence", .string (rawString r.Licence)),
   (ascii "osm_type", .string (rawString r.OsmType)),
   (ascii "osm_id", .number (FormatInt r.OsmID.val)),
   (ascii "boundingbox", astStringSlice r.Boundingbox),
   (ascii "lat", .string (rawString r.Lat)),
   (ascii "lon", .string (rawString r.Lon)),
   (ascii "display_name", .string (rawString r.DisplayName)),
   (ascii "class", .string (rawString r.Class)),
   (ascii "type", .string (rawString r.Type_)),
   (ascii "importance", astFloat sc r.Importance),
   (ascii "icon", .string (rawString r.Icon))]

/-- The text of a member of an object in front of `tail`. -/
def memberText (key venc tail : Bytes) : Bytes := 34 :: (key ++ 34 :: 58 :: (venc ++ tail))

/-- The text of a record, member by member. -/
def structText {F : Type} (sc : Strconv F) (r : NominatimResponse F) (x : F) (X : Bytes) : Bytes :=
  123 :: memberText (ascii "place_id") (FormatInt r.PlaceID.val)
    (44 :: memberText (ascii "licence") (appendString r.Licence)
    (44 :: memberText (ascii "osm_type") (appendString r.OsmType)
    (44 :: memberText (ascii "osm_id") (FormatInt r.OsmID.val)
    (44 :: memberText (ascii "boundingbox") (encodeStringSlice r.Boundingbox)
    (44 :: memberText (ascii "lat") (appendString r.Lat)
    (44 :: memberText (ascii "lon") (appendString r.Lon)
    (44 :: memberText (ascii "display_name") (appendString r.DisplayName)
    (44 :: memberText (ascii "class") (appendString r.Class)
    (44 :: memberText (ascii "type") (appendString r.Type_)
    (44 :: memberText (ascii "importance") (sc.FormatFloat x)
    (44 :: memberText (ascii "icon") (appendString r.Icon) (125 :: X))))))))))))

/-- The text that `encodeStruct` writes (empty when it fails). -/
def encStruct {F : Type} (sc : Strconv F) (r : NominatimResponse F) : Bytes :=
  match encodeStruct sc r with
  | .ok b => b
  | .error _ => []

/-! ## float64 and strconv -/

/-- A finite `float64` by the fields of its IEEE 754 representation: the sign
bit, the 11 bits of the biased exponent (2047 belongs to the infinities and the
NaNs) and the 52 bits of the fraction. -/
structure Finite64 where
  neg : Bool
  expo : Nat
  frac : Nat
  expo_lt : expo < 2047
  frac_lt : frac < 2 ^ 52
  deriving DecidableEq, Repr

/-- The mantissa as strconv takes it from the bits: with the implicit leading
bit unless the value is denormal. -/
def Finite64.mant (x : Finite64) : Nat := if x.expo = 0 then x.frac else 2 ^ 52 + x.frac

/-- The binary exponent above the least one: the absolute value of `x` is
`x.mant * 2 ^ x.shift / 2 ^ 1074`. -/
def Finite64.shift (x : Finite64) : Nat := x.expo - 1

/-- The loop of `bits.Len` for a number below `2 ^ fuel`. -/
def bitLen : Nat → Nat → Nat
  | 0, _ => 0
  | fuel + 1, n => if n = 0 then 0 else bitLen fuel (n / 2) + 1

/-- The number of bits of `n`, counted 64 at a time; `fuel` bounds the number
of words. -/
def lenWords : Nat → Nat → Nat
  | 0, n => bitLen 64 n
  | fuel + 1, n => if n < 2 ^ 64 then bitLen 64 n else lenWords fuel (n / 2 ^ 64) + 64

/-- The number of bits of `n`: the least `k` with `n < 2 ^ k`. -/
def Len (n : Nat) : Nat := lenWords n n

/-- The integer nearest to `a / b`, the even one of two that are equally near. -/
def roundHalfEven (a b : Nat) : Nat :=
  if 2 * (a % b) < b then a / b
  else if b < 2 * (a % b) then a / b + 1
  else if a / b % 2 = 0 then a / b
  else a / b + 1

/-- The `float64` nearest to `N / M` (ties to the even mantissa), with the sign
`neg`: what `strconv.ParseFloat` computes from the decimal that it has read.
`none` is the range error of a value that rounds beyond the largest `float64`. -/
def floatBits (neg : Bool) (N M : Nat) : Option Finite64 :=
  let shift := Len (N * 2 ^ 1074 / M) - 53
  let m := roundHalfEven (N * 2 ^ 1074) (M * 2 ^ shift)
  let mant := if m = 2 ^ 53 then 2 ^ 52 else m
  let shift2 := if m = 2 ^ 53 then shift + 1 else shift
  if h : mant < 2 ^ 52 then some ⟨neg, 0, mant, by decide, h⟩
  else if h2 : shift2 + 1 < 2047 ∧ mant - 2 ^ 52 < 2 ^ 52 then
    some ⟨neg, shift2 + 1, mant - 2 ^ 52, h2.1, h2.2⟩
  else none

/-- The decimal digits at the head of the input: their value on top of `acc`,
their number on top of `n`, and the input after them. -/
def readDigits : Nat → Nat → Bytes → Nat × Nat × Bytes
  | acc, n, [] => (acc, n, [])
  | acc, n, c :: s =>
    if isDigit c then readDigits (acc * 10 + (c.val - 48)) (n + 1) s else (acc, n, c :: s)

/-- The digits of the exponent as `readFloat` adds them up: a digit counts only
while the sum is below 10000. -/
def readExp : Nat → Bytes → Nat × Bytes
  | e, [] => (e, [])
  | e, c :: s =>
    if isDigit c then readExp (if e < 10000 then e * 10 + (c.val - 48) else e) s
    else (e, c :: s)

/-- An optional sign: whether it is a minus, and the input after it. -/
def readSign (s : Bytes) : Bool × Bytes :=
  match s with
  | c :: r => if c = 43 then (false, r) else if c = 45 then (true, r) else (false, s)
  | [] => (false, s)

/-- The mantissa in `readFloat`: digits with at most one decimal point among
them.  The result is the digits as a number, their count, the count of those
after the point, and the input after the mantissa. -/
def readMantissa (s : Bytes) : Nat × Nat × Nat × Bytes :=
  match (readDigits 0 0 s).2.2 with
  | c :: r =>
    if c = 46 then
      ((readDigits (readDigits 0 0 s).1 (readDigits 0 0 s).2.1 r).1,
        (readDigits (readDigits 0 0 s).1 (readDigits 0 0 s).2.1 r).2.1,
        (readDigits (readDigits 0 0 s).1 (readDigits 0 0 s).2.1 r).2.1 - (readDigits 0 0 s).2.1,
        (readDigits (readDigits 0 0 s).1 (readDigits 0 0 s).2.1 r).2.2)
    else ((readDigits 0 0 s).1, (readDigits 0 0 s).2.1, 0, c :: r)
  | [] => ((readDigits 0 0 s).1, (readDigits 0 0 s).2.1, 0, [])

/-- The optional exponent in `readFloat`, which ends the text: its value, 0
without one.  `none` is the syntax error of an exponent without digits or of
other bytes after the number. -/
def readExponent (s : Bytes) : Option Int :=
  match s with
  | [] => some 0
  | c :: r =>
    if c = 101 ∨ c = 69 then
      match (readSign r).2 with
      | [] => none
      | c2 :: r2 =>
        if isDigit c2 then
          if (readExp 0 (c2 :: r2)).2 = [] then
            some (if (readSign r).1 then -((readExp 0 (c2 :: r2)).1 : Int)
              else ((readExp 0 (c2 :: r2)).1 : Int))
          else none
        else none
    else none

/-- The function `readFloat` of strconv on a decimal text (no underscores, no
hexadecimal mantissa, no `inf` or `nan`, none of which the JSON scanner lets
through): the sign, the digits of the mantissa as a number `D` and the decimal
exponent `E`, so that the text denotes `D * 10 ^ E`.  `none` is the syntax
error, also for a text with bytes after the number. -/
def readFloat (s : Bytes) : Option (Bool × Nat × Int) :=
  if (readMantissa (readSign s).2).2.1 = 0 then none
  else
    match readExponent (readMantissa (readSign s).2).2.2.2 with
    | none => none
    | some e =>
      some ((readSign s).1, (readMantissa (readSign s).2).1,
        e - ((readMantissa (readSign s).2).2.2.1 : Int))

/-- The function `strconv.ParseFloat(s, 64)` on a decimal text; `none` when it
returns an error (of syntax or of range). -/
def ParseFloat64 (s : Bytes) : Option Finite64 :=
  match readFloat s with
  | none => none
  | some (neg, D, E) =>
    if 0 ≤ E then floatBits neg (D * 10 ^ E.toNat) 1 else floatBits neg D (10 ^ (-E).toNat)

/-- The number of decimal digits of `n`. -/
def decimalLen (n : Nat) : Nat := (formatBits (n + 1) n []).length

/-- Remove the trailing zeros of the decimal `k`: what is left of it and their
number.  `fuel` bounds the number of zeros. -/
def trimZeros : Nat → Nat → Nat × Nat
  | 0, k => (k, 0)
  | fuel + 1, k =>
    if k ≠ 0 ∧ k % 10 = 0 then ((trimZeros fuel (k / 10)).1, (trimZeros fuel (k / 10)).2 + 1)
    else (k, 0)

/-- The loop of `roundShortest` in strconv.  The value `d` and the bounds
`lower < d < upper` of the decimals that round to it are integers in a common
unit; position `j` stands for the decimals that are multiples of `10 ^ j`.
From the leading digit down, the loop stops at the first position where `d`
rounded down or rounded up stays within the bounds (a bound itself counts
when `inclusive`); when both do, `d` is rounded to nearest, ties to even.
The result is `(k, j)` for the decimal `k * 10 ^ j`.  The loop may start at
any position above the leading digit of `upper`: there `d` rounds down to zero
and up to a power of ten beyond `upper`, neither of them within the bounds. -/
def roundShortest (lower d upper : Nat) (inclusive : Bool) : Nat → Nat × Nat
  | 0 => (d, 0)
  | j + 1 =>
    let okdown := lower < d / 10 ^ (j + 1) * 10 ^ (j + 1)
      ∨ (inclusive = true ∧ lower = d / 10 ^ (j + 1) * 10 ^ (j + 1))
    let okup := (d / 10 ^ (j + 1) + 1) * 10 ^ (j + 1) < upper
      ∨ (inclusive = true ∧ (d / 10 ^ (j + 1) + 1) * 10 ^ (j + 1) = upper)
    if okdown ∧ okup then (roundHalfEven d (10 ^ (j + 1)), j + 1)
    else if okdown then (d / 10 ^ (j + 1), j + 1)
    else if okup then (d / 10 ^ (j + 1) + 1, j + 1)
    else roundShortest lower d upper inclusive j

/-- The absolute value of `x` in units of `10 ^ (-1075)`. -/
def Finite64.scaled (x : Finite64) : Nat := 2 * x.mant * 2 ^ x.shift * 5 ^ 1075

/-- Halfway from `x` to the next `float64` above it, in the same unit. -/
def Finite64.upper (x : Finite64) : Nat := (2 * x.mant + 1) * 2 ^ x.shift * 5 ^ 1075

/-- Halfway from `x` to the next `float64` below it, in the same unit: the
step below is half as long where the mantissa is the least of its exponent. -/
def Finite64.lower (x : Finite64) : Nat :=
  if 2 ^ 52 < x.mant ∨ x.shift = 0 then (2 * x.mant - 1) * 2 ^ x.shift * 5 ^ 1075
  else (4 * x.mant - 1) * 2 ^ (x.shift - 1) * 5 ^ 1075

/-- The shortest decimal that rounds to `x`, as `strconv.FormatFloat` with
precision -1 computes it: the digits (none for zero) and the position `dp` of
the decimal point, so that the decimal is `0.digits * 10 ^ dp`.  The loop
starts at position `Len x.upper / 3 + 1`, which is above the leading digit of
`x.upper` because `10 ^ j` is more than `2 ^ (3 * j)`. -/
def shortest (x : Finite64) : Bytes × Int :=
  if x.mant = 0 then ([], 0)
  else
    let r := roundShortest x.lower x.scaled x.upper (x.mant % 2 = 0) (Len x.upper / 3 + 1)
    let t := trimZeros r.1 r.1
    let digs := formatBits (t.1 + 1) t.1 []
    (digs, ((digs.length + t.2 + r.2 : Nat) : Int) - 1075)

/-- The function `fmtF` of strconv with the precision `max(nd - dp, 0)` of the
shortest representation. -/
def fmtF (neg : Bool) (digs : Bytes) (dp : Int) : Bytes :=
  (if neg then [45] else [])
    ++ (if 0 < dp then digs.take dp.toNat ++ List.replicate (dp.toNat - digs.length) 48 else [48])
    ++ (if 0 < (digs.length : Int) - dp then
          46 :: (List.replicate (-dp).toNat 48 ++ digs.drop dp.toNat)
        else [])

/-- The two or three digits of the exponent in `fmtE`. -/
def expDigits (e : Nat) : Bytes :=
  if e < 10 then [48, toByte (e + 48)]
  else if e < 100 then [toByte (e / 10 + 48), toByte (e % 10 + 48)]
  else [toByte (e / 100 + 48), toByte ((toByte (e / 10)).val % 10 + 48), toByte (e % 10 + 48)]

/-- The function `fmtE` of strconv with the precision `nd - 1` of the shortest
representation. -/
def fmtE (neg : Bool) (digs : Bytes) (dp : Int) : Bytes :=
  (if neg then [45] else [])
    ++ [digs.headD 48]
    ++ (if 0 < digs.length - 1 then 46 :: digs.drop 1 else [])
    ++ [101]
    ++ (if (if digs = [] then 0 else dp - 1) < 0 then [45] else [43])
    ++ expDigits (if digs = [] then 0 else dp - 1).natAbs

/-- The clean-up of `floatEncoder.encode`: `e-09` becomes `e-9`. -/
def cleanExp (b : Bytes) : Bytes :=
  match b.reverse with
  | d :: z :: s :: e :: pre =>
    if e = 101 ∧ (s = 45 ∨ s = 43) ∧ z = 48 then (d :: s :: e :: pre).reverse else b
  | _ => b

/-- The `float64` constant `1e-6`. -/
def float1e_6 : Finite64 := ⟨false, 1003, 218766855499149, by decide, by decide⟩

/-- The `float64` constant `1e21`. -/
def float1e21 : Finite64 := ⟨false, 1092, 3125794903879504, by decide, by decide⟩

/-- The comparison `math.Abs(x) < math.Abs(y)` of finite values. -/
def absLt (x y : Finite64) : Bool :=
  x.expo < y.expo || (x.expo = y.expo && x.frac < y.frac)

/-- The text that `floatEncoder.encode` writes for a finite `float64`: the
shortest decimal that rounds to it, in the format `e` below 1e-6 and from 1e21
on, and in the format `f` otherwise. -/
def FormatFloat64 (x : Finite64) : Bytes :=
  if x.mant ≠ 0 ∧ (absLt x float1e_6 ∨ ¬ absLt x float1e21) then
    cleanExp (fmtE x.neg (shortest x).1 (shortest x).2)
  else fmtF x.neg (shortest x).1 (shortest x).2

/-- The `float64` of Go with strconv. -/
def float64 : Strconv Finite64 where
  zero := ⟨false, 0, 0, by decide, by decide⟩
  FormatFloat := FormatFloat64
  ParseFloat := ParseFloat64

/-- The number that the decimal digits `ds` denote on top of `acc`. -/
def digitsVal (ds : Bytes) (acc : Nat) : Nat :=
  ds.foldl (fun a c => a * 10 + (c.val - 48)) acc

/-- The text does not start with a decimal digit. -/
def NoDigit (s : Bytes) : Prop := ∀ c ∈ s.head?, isDigit c = false

/-- The exponent of a number literal: the `e`, the sign and the digits. -/
def expPart (e : Option (Bool × Bytes)) : Bytes :=
  match e with
  | none => []
  | some (neg, X) => 101 :: (if neg then 45 else 43) :: X

/-- The fraction of a number literal: the point and the digits, if any. -/
def fracPart (F : Bytes) : Bytes := if F = [] then [] else 46 :: F

/-- A number literal from its parts. -/
def numText (neg : Bool) (I F : Bytes) (e : Option (Bool × Bytes)) : Bytes :=
  (if neg then [45] else []) ++ (I ++ (fracPart F ++ expPart e))

/-- The exponent of a literal is well formed: digits follow the sign, and
`readExp` reads them as `v`. -/
def ExpOK (e : Option (Bool × Bytes)) (ev : Int) : Prop :=
  match e with
  | none => ev = 0
  | some (neg, X) => X ≠ [] ∧ (∀ c ∈ X, isDigit c = true)
      ∧ ∃ v : Nat, readExp 0 X = (v, []) ∧ ev = if neg then -(v : Int) else (v : Int)

/-- The digits of the exponent after the clean-up of `floatEncoder.encode`. -/
def expClean (e : Nat) : Bytes := if e < 10 then [toByte (e + 48)] else expDigits e

/-- The decimal that `readFloat` has read is the decimal `k * 10 ^ w` in units
of `10 ^ (-1075)`: with the exponent `w - 1075`, or written out as an integer. -/
def Reads (D : Nat) (E : Int) (k w : Nat) : Prop :=
  (E = (w : Int) - 1075 ∧ D = k) ∨ (E = 0 ∧ 1075 ≤ w ∧ D = k * 10 ^ (w - 1075))

/-- A record with the display name "Paris, France" and zero values elsewhere. -/
def parisRecord : NominatimResponse Finite64 :=
  { NominatimResponse.zero float64 with DisplayName := ascii "Paris, France" }

/-- A response body with that one record. -/
def parisBody : Body := ⟨ascii "[\x7b\"display_name\":\"Paris, France\"\x7d]", false⟩

/-- The `float64` 0.8317101715588673. -/
def importance083 : Finite64 := ⟨false, 1022, 2987779610055036, by decide, by decide⟩

/-- A record with a value in every field; the display name has a letter
outside ASCII. -/
def louvreRecord : NominatimResponse Finite64 where
  PlaceID := ⟨88715548, by decide⟩
  Licence := ascii "Data OpenStreetMap contributors, ODbL 1.0."
  OsmType := ascii "relation"
  OsmID := ⟨7444, by decide⟩
  Boundingbox := some [ascii "48.8155755", ascii "48.902156", ascii "2.224122", ascii "2.4697602"]
  Lat := ascii "48.8588897"
  Lon := ascii "2.3200410217200766"
  DisplayName := ascii "Paris, " ++ [0xC3, 0x8E] ++ ascii "le-de-France, France"
  Class := ascii "boundary"
  Type_ := ascii "administrative"
  Importance := .finite importance083
  Icon := ascii "https://nominatim.openstreetmap.org/ui/mapicons/poi_boundary_administrative.p.20.png"

/-- A response body with that record, as the provider writes it. -/
def louvreBody : Body :=
  ⟨ascii "[\x7b\"place_id\":88715548,\"licence\":\"Data OpenStreetMap contributors, ODbL 1.0.\",\"osm_type\":\"relation\",\"osm_id\":7444,\"boundingbox\":[\"48.8155755\",\"48.902156\",\"2.224122\",\"2.4697602\"],\"lat\":\"48.8588897\",\"lon\":\"2.3200410217200766\",\"display_name\":\"Paris, "
    ++ [0xC3, 0x8E] ++ ascii "le-de-France, France\",\"class\":\"boundary\",\"type\":\"administrative\",\"importance\":0.8317101715588673,\"icon\":\"https://nominatim.openstreetmap.org/ui/mapicons/poi_boundary_administrative.p.20.png\"\x7d]",
    false⟩

/-- A world with an empty, reachable Redis server and a provider that answers
every request with `body`. -/
def emptyWorld (body : Except GoError Body) : World where
  now := 0
  store := fun _ => none
  getFails := false
  setFails := false
  upstream := fun _ => body

/-- The world in which the Redis server holds `value` under `key`, without
expiry. -/
def World.holding (w : World) (key value : Bytes) : World :=
  { w with store := fun k => if k = key then some ⟨value, none⟩ else w.store k }

/-- The world in which every `GET` meets a transport error. -/
def World.getError (w : World) : World := { w with getFails := true }

/-- The world in which the Redis server is reachable for `GET` and does not hold
`key`. -/
def World.without (w : World) (key : Bytes) : World :=
  { w with getFails := false, store := fun k => if k = key then none else w.store k }

/-- The world in which every `SET` meets a transport error. -/
def World.setError (w : World) : World := { w with setFails := true }

/-- A record whose latitude is the single byte 0xFF, which is not UTF-8. -/
def badLatRecord : NominatimResponse Finite64 :=
  { NominatimResponse.zero float64 with Lat := [0xFF] }

/-- A record whose importance is a NaN. -/
def nanRecord : NominatimResponse Finite64 :=
  { NominatimResponse.zero float64 with Importance := .nan }

/-- The text that `Marshal` writes, empty when it fails. -/
def marshalled {F : Type} (sc : Strconv F) (rs : Slice (NominatimResponse F)) : Bytes :=
  match Marshal sc rs with
  | .ok b => b
  | .error _ => []

/-- The keys of the cache calls in a trace. -/
def cacheKeys : List Call → List Bytes
  | [] => []
  | .cacheGet k :: cs => k :: cacheKeys cs
  | .cacheSet k _ _ :: cs => k :: cacheKeys cs
  | .httpGet _ :: cs => cacheKeys cs

/-- The addresses of the provider calls in a trace. -/
def httpCalls : List Call → List Bytes
  | [] => []
  | .httpGet a :: cs => a :: httpCalls cs
  | _ :: cs => httpCalls cs

/-- The cache writes in a trace. -/
def cacheWrites : List Call → List (Bytes × Bytes × Nanos)
  | [] => []
  | .cacheSet k v t :: cs => (k, v, t) :: cacheWrites cs
  | _ :: cs => cacheWrites cs

/-- The record that comes back for `badLatRecord`: its latitude is U+FFFD. -/
def coercedLatRecord : NominatimResponse Finite64 :=
  { NominatimResponse.zero float64 with Lat := [0xEF, 0xBF, 0xBD] }

/-- The world of the counterexamples: the server holds the encoding of
`badLatRecord` under the key `x`. -/
def badLatWorld : World :=
  (emptyWorld (.error .http)).holding (PathEscape (ascii "x"))
    (marshalled float64 (some [badLatRecord]))

/-- The texts that the scanner accepts between the quotes of a string literal:
sequences of bytes from 0x20 on other than the quote and the backslash, of
two-byte escapes and of `\u` escapes with four hexadecimal digits. -/
inductive RawOK : Bytes → Prop where
  | nil : RawOK []
  | plain (c : Byte) (t : Bytes) : c ≠ 34 → c ≠ 92 → ¬ c.val < 0x20 → RawOK t → RawOK (c :: t)
  | esc (e : Byte) (t : Bytes) :
      (e = 98 ∨ e = 102 ∨ e = 110 ∨ e = 114 ∨ e = 116 ∨ e = 92 ∨ e = 47 ∨ e = 34) →
      RawOK t → RawOK (92 :: e :: t)
  | u (h1 h2 h3 h4 : Byte) (t : Bytes) :
      isHex h1 = true → isHex h2 = true → isHex h3 = true → isHex h4 = true →
      RawOK t → RawOK (92 :: 117 :: h1 :: h2 :: h3 :: h4 :: t)

/-! # Theorems -/

/-! ## Facts about `PathEscape` -/

set_option maxRecDepth 100000 in
theorem hexVal_upperhex_hi : ∀ c : Byte, hexVal (upperhex.getD (c.val / 16) 0) = some (c.val / 16) := by
  decide

set_option maxRecDepth 100000 in
theorem hexVal_upperhex_lo : ∀ c : Byte, hexVal (upperhex.getD (c.val % 16) 0) = some (c.val % 16) := by
  decide

set_option maxRecDepth 100000 in
theorem toByte_hi_lo : ∀ c : Byte, toByte (c.val / 16 * 16 + c.val % 16) = c := by
  decide

set_option maxRecDepth 100000 in
theorem percent_escaped : ∀ c : Byte, shouldEscape c = false → c ≠ 37 := by
  decide

theorem unescape_percent (plus : Bool) (h l : Byte) (rest : Bytes) (a b : Nat)
    (ha : hexVal h = some a) (hb : hexVal l = some b) :
    unescape plus (37 :: h :: l :: rest)
      = (unescape plus rest).map (fun t => toByte (a * 16 + b) :: t) := by
  simp only [unescape, if_true, ha, hb]

theorem unescape_plain (c : Byte) (s : Bytes) (h : c ≠ 37) :
    unescape false (c :: s) = (unescape false s).map (fun t => c :: t) := by
  rw [unescape.eq_def]
  simp only [h, if_false, Bool.false_eq_true, and_false]

/-- The function `PathUnescape` undoes `PathEscape`. -/
theorem unescape_PathEscape (s : Bytes) : unescape false (PathEscape s) = some s := by
  induction s with
  | nil => rfl
  | cons c s ih =>
    by_cases h : shouldEscape c = true
    · simp only [PathEscape, h, if_true]
      rw [unescape_percent false _ _ _ _ _ (hexVal_upperhex_hi c) (hexVal_upperhex_lo c), ih,
        toByte_hi_lo]
      rfl
    · have h2 : shouldEscape c = false := by simpa using h
      have h3 := percent_escaped c h2
      simp only [PathEscape, h2, Bool.false_eq_true, if_false]
      rw [unescape_plain c _ h3, ih]
      rfl

theorem PathEscape_injective : Function.Injective PathEscape := by
  intro a b hab
  have ha := unescape_PathEscape a
  rw [hab, unescape_PathEscape b] at ha
  exact (Option.some.inj ha).symm

/-! ## Facts about unicode/utf8 -/

theorem toByte_val (n : Nat) : (toByte n).val = n % 256 := rfl

theorem toByte_eq_of_val (n : Nat) (b : Byte) (h : n = b.val) : toByte n = b := by
  apply Fin.ext
  rw [toByte_val, h]
  exact Nat.mod_eq_of_lt b.isLt

set_option maxRecDepth 100000 in
theorem firstSize_table : ∀ p0 : Byte,
    firstSize p0 = 0
    ∨ (firstSize p0 = 2 ∧ 0xC2 ≤ p0.val ∧ p0.val ≤ 0xDF ∧ acceptLo p0 = 0x80 ∧ acceptHi p0 = 0xBF)
    ∨ (firstSize p0 = 3 ∧ 0xE0 ≤ p0.val ∧ p0.val ≤ 0xEF
        ∧ acceptLo p0 = (if p0.val = 0xE0 then 0xA0 else 0x80)
        ∧ acceptHi p0 = (if p0.val = 0xED then 0x9F else 0xBF))
    ∨ (firstSize p0 = 4 ∧ 0xF0 ≤ p0.val ∧ p0.val ≤ 0xF4
        ∧ acceptLo p0 = (if p0.val = 0xF0 then 0x90 else 0x80)
        ∧ acceptHi p0 = (if p0.val = 0xF4 then 0x8F else 0xBF)) := by
  decide

/-- What `DecodeRune` returns on a non-empty input: an ASCII byte, an error of
width 1, or a rune of width 2 to 4 whose encoding is the bytes read. -/
theorem DecodeRune_cases (p0 : Byte) (rest : Bytes) :
    (p0.val < 0x80 ∧ DecodeRune (p0 :: rest) = (p0.val, 1))
    ∨ (0x80 ≤ p0.val ∧ DecodeRune (p0 :: rest) = (RuneError, 1))
    ∨ (0x80 ≤ p0.val ∧ ∃ (b1 : Byte) (rest1 : Bytes) (r : Nat), rest = b1 :: rest1 ∧ 0x80 ≤ b1.val
        ∧ DecodeRune (p0 :: rest) = (r, 2)
        ∧ EncodeRune r = [p0, b1] ∧ 0x80 ≤ r ∧ r ≤ 0x7FF)
    ∨ (0x80 ≤ p0.val ∧ ∃ (b1 b2 : Byte) (rest2 : Bytes) (r : Nat), rest = b1 :: b2 :: rest2 ∧ 0x80 ≤ b1.val ∧ 0x80 ≤ b2.val
        ∧ DecodeRune (p0 :: rest) = (r, 3)
        ∧ EncodeRune r = [p0, b1, b2] ∧ 0x800 ≤ r ∧ r ≤ 0xFFFF ∧ ¬ (0xD800 ≤ r ∧ r ≤ 0xDFFF))
    ∨ (0x80 ≤ p0.val ∧ ∃ (b1 b2 b3 : Byte) (rest3 : Bytes) (r : Nat), rest = b1 :: b2 :: b3 :: rest3 ∧ 0x80 ≤ b1.val
        ∧ 0x80 ≤ b2.val ∧ 0x80 ≤ b3.val
        ∧ DecodeRune (p0 :: rest) = (r, 4)
        ∧ EncodeRune r = [p0, b1, b2, b3] ∧ 0x10000 ≤ r ∧ r ≤ 0x10FFFF) := by
  by_cases h0 : p0.val < 0x80
  · left; exact ⟨h0, by simp [DecodeRune, h0]⟩
  right
  have h0' : 0x80 ≤ p0.val := by omega
  have hp0 := p0.isLt
  rcases firstSize_table p0 with hs | ⟨hs, hr1, hr2, hlo, hhi⟩ | ⟨hs, hr1, hr2, hlo, hhi⟩
      | ⟨hs, hr1, hr2, hlo, hhi⟩
  · left; exact ⟨h0', by simp [DecodeRune, h0, hs]⟩
  · -- width 2
    cases rest with
    | nil => left; exact ⟨h0', by simp [DecodeRune, h0, hs]⟩
    | cons b1 rest1 =>
      have hb1lt := b1.isLt
      by_cases hb1 : b1.val < 0x80 ∨ 0xBF < b1.val
      · left; exact ⟨h0', by simp [DecodeRune, h0, hs, hlo, hhi, hb1]⟩
      right; left
      refine ⟨h0', b1, rest1, (p0.val % 32) * 64 + b1.val % 64, rfl, by omega, ?_, ?_, by omega,
        by omega⟩
      · simp [DecodeRune, h0, hs, hlo, hhi, hb1]
      · have e1 : ¬ (p0.val % 32 * 64 + b1.val % 64 ≤ 0x7F) := by omega
        have e2 : p0.val % 32 * 64 + b1.val % 64 ≤ 0x7FF := by omega
        simp only [EncodeRune, e1, e2, if_true, if_false]
        rw [toByte_eq_of_val _ p0 (by omega), toByte_eq_of_val _ b1 (by omega)]
  · -- width 3
    cases rest with
    | nil => left; exact ⟨h0', by simp [DecodeRune, h0, hs]⟩
    | cons b1 rest1 =>
      have hb1lt := b1.isLt
      by_cases hb1 : b1.val < acceptLo p0 ∨ acceptHi p0 < b1.val
      · left; exact ⟨h0', by simp [DecodeRune, h0, hs, hb1]⟩
      cases rest1 with
      | nil => left; exact ⟨h0', by simp [DecodeRune, h0, hs]⟩
      | cons b2 rest2 =>
        have hb2lt := b2.isLt
        by_cases hb2 : isCont b2 = true
        · right; right; left
          have hb2' : 0x80 ≤ b2.val ∧ b2.val ≤ 0xBF := by simpa [isCont] using hb2
          have hb1' : (if p0.val = 0xE0 then 0xA0 else 0x80) ≤ b1.val
              ∧ b1.val ≤ (if p0.val = 0xED then 0x9F else 0xBF) := by
            rw [hlo, hhi] at hb1; omega
          have hb1a : 0x80 ≤ b1.val := by
            have := hb1'.1; split at this <;> omega
          have hb1b : b1.val ≤ 0xBF := by
            have := hb1'.2; split at this <;> omega
          have hE0 : p0.val = 0xE0 → 0xA0 ≤ b1.val := by
            intro h; have := hb1'.1; rw [if_pos h] at this; exact this
          have hED : p0.val = 0xED → b1.val ≤ 0x9F := by
            intro h; have := hb1'.2; rw [if_pos h] at this; exact this
          clear hb1' hlo hhi
          refine ⟨h0', b1, b2, rest2, (p0.val % 16) * 4096 + (b1.val % 64) * 64 + b2.val % 64, rfl,
            hb1a, hb2'.1, ?_, ?_, ?_, by omega, ?_⟩
          · simp [DecodeRune, h0, hs, hb1, hb2]
          · have e1 : ¬ (p0.val % 16 * 4096 + b1.val % 64 * 64 + b2.val % 64 ≤ 0x7F) := by
              by_cases h : p0.val = 0xE0
              · have := hE0 h; omega
              · omega
            have e2 : ¬ (p0.val % 16 * 4096 + b1.val % 64 * 64 + b2.val % 64 ≤ 0x7FF) := by
              by_cases h : p0.val = 0xE0
              · have := hE0 h; omega
              · omega
            have e3 : ¬ (p0.val % 16 * 4096 + b1.val % 64 * 64 + b2.val % 64 > MaxRune
                ∨ (0xD800 ≤ p0.val % 16 * 4096 + b1.val % 64 * 64 + b2.val % 64
                  ∧ p0.val % 16 * 4096 + b1.val % 64 * 64 + b2.val % 64 ≤ 0xDFFF)) := by
              unfold MaxRune
              by_cases h : p0.val = 0xED
              · have := hED h; omega
              · omega
            have e4 : p0.val % 16 * 4096 + b1.val % 64 * 64 + b2.val % 64 ≤ 0xFFFF := by omega
            simp only [EncodeRune, e1, e2, e3, e4, if_true, if_false]
            rw [toByte_eq_of_val _ p0 (by omega), toByte_eq_of_val _ b1 (by omega),
              toByte_eq_of_val _ b2 (by omega)]
          · by_cases h : p0.val = 0xE0
            · have := hE0 h; omega
            · omega
          · by_cases h : p0.val = 0xED
            · have := hED h; omega
            · omega
        · left; exact ⟨h0', by simp [DecodeRune, h0, hs, hb1, hb2]⟩
  · -- width 4
    cases rest with
    | nil => left; exact ⟨h0', by simp [DecodeRune, h0, hs]⟩
    | cons b1 rest1 =>
      have hb1lt := b1.isLt
      by_cases hb1 : b1.val < acceptLo p0 ∨ acceptHi p0 < b1.val
      · left; exact ⟨h0', by simp [DecodeRune, h0, hs, hb1]⟩
      cases rest1 with
      | nil => left; exact ⟨h0', by simp [DecodeRune, h0, hs]⟩
      | cons b2 rest2 =>
        have hb2lt := b2.isLt
        cases rest2 with
        | nil => left; exact ⟨h0', by simp [DecodeRune, h0, hs]⟩
        | cons b3 rest3 =>
          have hb3lt := b3.isLt
          by_cases hb2 : isCont b2 = true
          · by_cases hb3 : isCont b3 = true
            · right; right; right
              have hb2' : 0x80 ≤ b2.val ∧ b2.val ≤ 0xBF := by simpa [isCont] using hb2
              have hb3' : 0x80 ≤ b3.val ∧ b3.val ≤ 0xBF := by simpa [isCont] using hb3
              have hb1' : (if p0.val = 0xF0 then 0x90 else 0x80) ≤ b1.val
                  ∧ b1.val ≤ (if p0.val = 0xF4 then 0x8F else 0xBF) := by
                rw [hlo, hhi] at hb1; omega
              have hb1a : 0x80 ≤ b1.val := by
                have := hb1'.1; split at this <;> omega
              have hb1b : b1.val ≤ 0xBF := by
                have := hb1'.2; split at this <;> omega
              have hF0 : p0.val = 0xF0 → 0x90 ≤ b1.val := by
                intro h; have := hb1'.1; rw [if_pos h] at this; exact this
              have hF4 : p0.val = 0xF4 → b1.val ≤ 0x8F := by
                intro h; have := hb1'.2; rw [if_pos h] at this; exact this
              clear hb1' hlo hhi
              have lo : 0x10000 ≤ p0.val % 8 * 262144 + b1.val % 64 * 4096 + b2.val % 64 * 64
                  + b3.val % 64 := by
                by_cases h : p0.val = 0xF0
                · have := hF0 h; omega
                · omega
              have hi : p0.val % 8 * 262144 + b1.val % 64 * 4096 + b2.val % 64 * 64
                  + b3.val % 64 ≤ 0x10FFFF := by
                by_cases h : p0.val = 0xF4
                · have := hF4 h; omega
                · omega
              refine ⟨h0', b1, b2, b3, rest3,
                p0.val % 8 * 262144 + b1.val % 64 * 4096 + b2.val % 64 * 64 + b3.val % 64, rfl,
                hb1a, hb2'.1, hb3'.1, ?_, ?_, lo, hi⟩
              · simp [DecodeRune, h0, hs, hb1, hb2, hb3]
              · have e1 : ¬ (p0.val % 8 * 262144 + b1.val % 64 * 4096 + b2.val % 64 * 64
                    + b3.val % 64 ≤ 0x7F) := by omega
                have e2 : ¬ (p0.val % 8 * 262144 + b1.val % 64 * 4096 + b2.val % 64 * 64
                    + b3.val % 64 ≤ 0x7FF) := by omega
                have e3 : ¬ (p0.val % 8 * 262144 + b1.val % 64 * 4096 + b2.val % 64 * 64
                    + b3.val % 64 > MaxRune
                    ∨ (0xD800 ≤ p0.val % 8 * 262144 + b1.val % 64 * 4096 + b2.val % 64 * 64
                        + b3.val % 64
                      ∧ p0.val % 8 * 262144 + b1.val % 64 * 4096 + b2.val % 64 * 64
                        + b3.val % 64 ≤ 0xDFFF)) := by
                  unfold MaxRune; omega
                have e4 : ¬ (p0.val % 8 * 262144 + b1.val % 64 * 4096 + b2.val % 64 * 64
                    + b3.val % 64 ≤ 0xFFFF) := by omega
                simp only [EncodeRune, e1, e2, e3, e4, if_true, if_false]
                rw [toByte_eq_of_val _ p0 (by omega), toByte_eq_of_val _ b1 (by omega),
                  toByte_eq_of_val _ b2 (by omega), toByte_eq_of_val _ b3 (by omega)]
            · left; exact ⟨h0', by simp [DecodeRune, h0, hs, hb1, hb2, hb3]⟩
          · left; exact ⟨h0', by simp [DecodeRune, h0, hs, hb1, hb2]⟩

theorem DecodeRune_size_pos (p0 : Byte) (rest : Bytes) :
    1 ≤ (DecodeRune (p0 :: rest)).2 := by
  rcases DecodeRune_cases p0 rest with ⟨_, h⟩ | ⟨_, h⟩ | ⟨_, _, _, _, _, _, h, _⟩
    | ⟨_, _, _, _, _, _, _, _, h, _⟩ | ⟨_, _, _, _, _, _, _, _, _, _, h, _⟩ <;> rw [h] <;> simp

theorem toByte_val_of_lt (n : Nat) (h : n < 256) : (toByte n).val = n := by
  rw [toByte_val]; exact Nat.mod_eq_of_lt h

set_option maxRecDepth 100000 in
theorem firstSize_two : ∀ b : Byte, 0xC2 ≤ b.val → b.val ≤ 0xDF →
    firstSize b = 2 ∧ acceptLo b = 0x80 ∧ acceptHi b = 0xBF := by
  decide

set_option maxRecDepth 100000 in
theorem firstSize_three : ∀ b : Byte, 0xE0 ≤ b.val → b.val ≤ 0xEF →
    firstSize b = 3 ∧ acceptLo b = (if b.val = 0xE0 then 0xA0 else 0x80)
      ∧ acceptHi b = (if b.val = 0xED then 0x9F else 0xBF) := by
  decide

set_option maxRecDepth 100000 in
theorem firstSize_four : ∀ b : Byte, 0xF0 ≤ b.val → b.val ≤ 0xF4 →
    firstSize b = 4 ∧ acceptLo b = (if b.val = 0xF0 then 0x90 else 0x80)
      ∧ acceptHi b = (if b.val = 0xF4 then 0x8F else 0xBF) := by
  decide

theorem DecodeRune_one (p0 : Byte) (t : Bytes) (h : p0.val < 0x80) :
    DecodeRune (p0 :: t) = (p0.val, 1) := by
  simp [DecodeRune, h]

theorem DecodeRune_two (p0 b1 : Byte) (t : Bytes) (h0 : 0xC2 ≤ p0.val) (h0' : p0.val ≤ 0xDF)
    (h1 : 0x80 ≤ b1.val) (h1' : b1.val ≤ 0xBF) :
    DecodeRune (p0 :: b1 :: t) = (p0.val % 32 * 64 + b1.val % 64, 2) := by
  obtain ⟨hs, hlo, hhi⟩ := firstSize_two p0 h0 h0'
  have e0 : ¬ p0.val < 0x80 := by omega
  have e1 : ¬ (b1.val < 0x80 ∨ 0xBF < b1.val) := by omega
  simp [DecodeRune, e0, hs, hlo, hhi, e1]

theorem DecodeRune_three (p0 b1 b2 : Byte) (t : Bytes) (h0 : 0xE0 ≤ p0.val) (h0' : p0.val ≤ 0xEF)
    (h1 : 0x80 ≤ b1.val) (h1' : b1.val ≤ 0xBF) (hE0 : p0.val = 0xE0 → 0xA0 ≤ b1.val)
    (hED : p0.val = 0xED → b1.val ≤ 0x9F) (h2 : 0x80 ≤ b2.val) (h2' : b2.val ≤ 0xBF) :
    DecodeRune (p0 :: b1 :: b2 :: t)
      = (p0.val % 16 * 4096 + b1.val % 64 * 64 + b2.val % 64, 3) := by
  obtain ⟨hs, hlo, hhi⟩ := firstSize_three p0 h0 h0'
  have e0 : ¬ p0.val < 0x80 := by omega
  have e1 : ¬ (b1.val < acceptLo p0 ∨ acceptHi p0 < b1.val) := by
    rw [hlo, hhi]
    by_cases a : p0.val = 0xE0
    · have := hE0 a
      have a' : ¬ p0.val = 0xED := by omega
      rw [if_pos a, if_neg a']; omega
    · by_cases b : p0.val = 0xED
      · have := hED b
        rw [if_neg a, if_pos b]; omega
      · rw [if_neg a, if_neg b]; omega
  have e2 : isCont b2 = true := by simp [isCont, h2, h2']
  simp [DecodeRune, e0, hs, e1, e2]

theorem DecodeRune_four (p0 b1 b2 b3 : Byte) (t : Bytes) (h0 : 0xF0 ≤ p0.val)
    (h0' : p0.val ≤ 0xF4) (h1 : 0x80 ≤ b1.val) (h1' : b1.val ≤ 0xBF)
    (hF0 : p0.val = 0xF0 → 0x90 ≤ b1.val) (hF4 : p0.val = 0xF4 → b1.val ≤ 0x8F)
    (h2 : 0x80 ≤ b2.val) (h2' : b2.val ≤ 0xBF) (h3 : 0x80 ≤ b3.val) (h3' : b3.val ≤ 0xBF) :
    DecodeRune (p0 :: b1 :: b2 :: b3 :: t)
      = (p0.val % 8 * 262144 + b1.val % 64 * 4096 + b2.val % 64 * 64 + b3.val % 64, 4) := by
  obtain ⟨hs, hlo, hhi⟩ := firstSize_four p0 h0 h0'
  have e0 : ¬ p0.val < 0x80 := by omega
  have e1 : ¬ (b1.val < acceptLo p0 ∨ acceptHi p0 < b1.val) := by
    rw [hlo, hhi]
    by_cases a : p0.val = 0xF0
    · have := hF0 a
      have a' : ¬ p0.val = 0xF4 := by omega
      rw [if_pos a, if_neg a']; omega
    · by_cases b : p0.val = 0xF4
      · have := hF4 b
        rw [if_neg a, if_pos b]; omega
      · rw [if_neg a, if_neg b]; omega
  have e2 : isCont b2 = true := by simp [isCont, h2, h2']
  have e3 : isCont b3 = true := by simp [isCont, h3, h3']
  simp [DecodeRune, e0, hs, e1, e2, e3]

/-- Decoding the encoding of any rune reads exactly the bytes written and
returns the rune, U+FFFD for a rune that is not encodable. -/
theorem DecodeRune_EncodeRune (r : Nat) (t : Bytes) :
    DecodeRune (EncodeRune r ++ t)
      = ((if r > MaxRune ∨ (0xD800 ≤ r ∧ r ≤ 0xDFFF) then RuneError else r),
          (EncodeRune r).length)
      ∧ 1 ≤ (EncodeRune r).length ∧ ((EncodeRune r).length = 1 → r ≤ 0x7F) := by
  by_cases c1 : r ≤ 0x7F
  · have c0 : ¬ (r > MaxRune ∨ (0xD800 ≤ r ∧ r ≤ 0xDFFF)) := by unfold MaxRune; omega
    refine ⟨?_, ?_, ?_⟩
    · simp only [EncodeRune, c1, if_true, List.singleton_append, List.length_singleton]
      rw [DecodeRune_one _ _ (by rw [toByte_val_of_lt _ (by omega)]; omega),
        toByte_val_of_lt _ (by omega), if_neg c0]
    · simp [EncodeRune, c1]
    · intro _; exact c1
  by_cases c2 : r ≤ 0x7FF
  · have c0 : ¬ (r > MaxRune ∨ (0xD800 ≤ r ∧ r ≤ 0xDFFF)) := by unfold MaxRune; omega
    refine ⟨?_, ?_, ?_⟩
    · simp only [EncodeRune, c1, c2, if_true, if_false, List.cons_append, List.nil_append,
        List.length_cons, List.length_nil]
      rw [DecodeRune_two _ _ _ (by rw [toByte_val_of_lt _ (by omega)]; omega)
        (by rw [toByte_val_of_lt _ (by omega)]; omega)
        (by rw [toByte_val_of_lt _ (by omega)]; omega)
        (by rw [toByte_val_of_lt _ (by omega)]; omega),
        toByte_val_of_lt _ (by omega), toByte_val_of_lt _ (by omega), if_neg c0]
      congr 1
      show (_ : Nat) = _
      omega
    · simp [EncodeRune, c1, c2]
    · simp [EncodeRune, c1, c2]
  by_cases c3 : r > MaxRune ∨ (0xD800 ≤ r ∧ r ≤ 0xDFFF)
  · refine ⟨?_, ?_, ?_⟩
    · simp only [EncodeRune, c1, c2, c3, if_true, if_false]
      rfl
    · simp [EncodeRune, c1, c2, c3]
    · simp [EncodeRune, c1, c2, c3]
  have c3a : r ≤ 0x10FFFF := by unfold MaxRune at c3; omega
  have c3b : ¬ (0xD800 ≤ r ∧ r ≤ 0xDFFF) := by omega
  by_cases c4 : r ≤ 0xFFFF
  · refine ⟨?_, ?_, ?_⟩
    · simp only [EncodeRune, c1, c2, c3, c4, if_true, if_false, List.cons_append,
        List.nil_append, List.length_cons, List.length_nil]
      rw [DecodeRune_three _ _ _ _ (by rw [toByte_val_of_lt _ (by omega)]; omega)
        (by rw [toByte_val_of_lt _ (by omega)]; omega)
        (by rw [toByte_val_of_lt _ (by omega)]; omega)
        (by rw [toByte_val_of_lt _ (by omega)]; omega)
        (by rw [toByte_val_of_lt _ (by omega), toByte_val_of_lt _ (by omega)]; omega)
        (by rw [toByte_val_of_lt _ (by omega), toByte_val_of_lt _ (by omega)]; omega)
        (by rw [toByte_val_of_lt _ (by omega)]; omega)
        (by rw [toByte_val_of_lt _ (by omega)]; omega),
        toByte_val_of_lt _ (by omega), toByte_val_of_lt _ (by omega),
        toByte_val_of_lt _ (by omega)]
      congr 1
      show (_ : Nat) = _
      omega
    · simp [EncodeRune, c1, c2, c3, c4]
    · simp [EncodeRune, c1, c2, c3, c4]
  · refine ⟨?_, ?_, ?_⟩
    · simp only [EncodeRune, c1, c2, c3, c4, if_true, if_false, List.cons_append,
        List.nil_append, List.length_cons, List.length_nil]
      rw [DecodeRune_four _ _ _ _ _ (by rw [toByte_val_of_lt _ (by omega)]; omega)
        (by rw [toByte_val_of_lt _ (by omega)]; omega)
        (by rw [toByte_val_of_lt _ (by omega)]; omega)
        (by rw [toByte_val_of_lt _ (by omega)]; omega)
        (by rw [toByte_val_of_lt _ (by omega), toByte_val_of_lt _ (by omega)]; omega)
        (by rw [toByte_val_of_lt _ (by omega), toByte_val_of_lt _ (by omega)]; omega)
        (by rw [toByte_val_of_lt _ (by omega)]; omega)
        (by rw [toByte_val_of_lt _ (by omega)]; omega)
        (by rw [toByte_val_of_lt _ (by omega)]; omega)
        (by rw [toByte_val_of_lt _ (by omega)]; omega),
        toByte_val_of_lt _ (by omega), toByte_val_of_lt _ (by omega),
        toByte_val_of_lt _ (by omega), toByte_val_of_lt _ (by omega)]
      congr 1
      show (_ : Nat) = _
      omega
    · simp [EncodeRune, c1, c2, c3, c4]
    · simp [EncodeRune, c1, c2, c3, c4]

theorem validAux_fuel (n : Nat) : ∀ (m : Nat) (s : Bytes), s.length ≤ n → s.length ≤ m →
    validAux n s = validAux m s := by
  induction n with
  | zero =>
    intro m s h _
    have : s = [] := List.length_eq_zero.mp (by omega)
    subst this
    cases m <;> rfl
  | succ n ih =>
    intro m s h hm
    cases s with
    | nil => cases m <;> rfl
    | cons p0 rest =>
      cases m with
      | zero => simp at hm
      | succ m =>
        simp only [validAux]
        split
        · rfl
        · have hpos := DecodeRune_size_pos p0 rest
          simp only [List.length_cons] at h hm
          apply ih
          · simp only [List.length_drop, List.length_cons]; omega
          · simp only [List.length_drop, List.length_cons]; omega

/-- One step of `utf8.Valid`. -/
theorem utf8Valid_cons (p0 : Byte) (rest : Bytes) :
    utf8Valid (p0 :: rest)
      = (if (DecodeRune (p0 :: rest)).1 = RuneError ∧ (DecodeRune (p0 :: rest)).2 = 1 then false
         else utf8Valid ((p0 :: rest).drop (DecodeRune (p0 :: rest)).2)) := by
  unfold utf8Valid
  simp only [List.length_cons, validAux]
  split
  · rfl
  · have hpos := DecodeRune_size_pos p0 rest
    apply validAux_fuel
    · simp only [List.length_drop, List.length_cons]; omega
    · exact le_refl _

theorem utf8Valid_nil : utf8Valid [] = true := rfl

theorem utf8Valid_cons_ascii (c : Byte) (t : Bytes) (h : c.val < 0x80) :
    utf8Valid (c :: t) = utf8Valid t := by
  rw [utf8Valid_cons, DecodeRune_one c t h]
  have : ¬ (c.val = RuneError) := by
    unfold RuneError; omega
  simp only [this, false_and, if_false, List.drop_succ_cons, List.drop_zero]

theorem utf8Valid_EncodeRune_append (r : Nat) (t : Bytes) :
    utf8Valid (EncodeRune r ++ t) = utf8Valid t := by
  obtain ⟨hD, hpos, hone⟩ := DecodeRune_EncodeRune r t
  cases hE : EncodeRune r with
  | nil => rw [hE] at hpos; simp at hpos
  | cons p0 e =>
    rw [hE] at hD hpos hone
    rw [List.cons_append, utf8Valid_cons, ← List.cons_append, hD]
    have : ¬ ((if r > MaxRune ∨ (0xD800 ≤ r ∧ r ≤ 0xDFFF) then RuneError else r) = RuneError
        ∧ (p0 :: e).length = 1) := by
      intro h
      have h1 := hone h.2
      have h2 := h.1
      have c0 : ¬ (r > MaxRune ∨ (0xD800 ≤ r ∧ r ≤ 0xDFFF)) := by unfold MaxRune; omega
      rw [if_neg c0] at h2
      have h3 : r = 0xFFFD := h2
      omega
    simp only [this, if_false, List.drop_left]

/-! ## The decoder returns well-formed records -/

/-- What one iteration of `unquoteBytes` writes is an ASCII byte or the encoding
of a rune. -/
theorem unquoteStep_out (c : Byte) (rest : Bytes) (out : Bytes) (n : Nat)
    (h : unquoteStep c rest = some (out, n)) :
    (∃ b : Byte, b.val < 0x80 ∧ out = [b]) ∨ (∃ r : Nat, out = EncodeRune r) := by
  rw [unquoteStep] at h
  have fin1 : ∀ (x : Byte), x.val < 0x80 → some ([x], 2) = some (out, n) →
      (∃ b : Byte, b.val < 0x80 ∧ out = [b]) ∨ (∃ r : Nat, out = EncodeRune r) := by
    intro x hx hh
    simp only [Option.some.injEq, Prod.mk.injEq] at hh
    exact Or.inl ⟨x, hx, hh.1.symm⟩
  have fin2 : ∀ (r : Nat) (k : Nat), some (EncodeRune r, k) = some (out, n) →
      (∃ b : Byte, b.val < 0x80 ∧ out = [b]) ∨ (∃ r : Nat, out = EncodeRune r) := by
    intro r k hh
    simp only [Option.some.injEq, Prod.mk.injEq] at hh
    exact Or.inr ⟨r, hh.1.symm⟩
  by_cases hc : c = 92
  · rw [if_pos hc] at h
    by_cases h1 : rest = []
    · rw [if_pos h1] at h; simp at h
    rw [if_neg h1] at h
    by_cases h2 : rest.headD 0 = 34 ∨ rest.headD 0 = 92 ∨ rest.headD 0 = 47 ∨ rest.headD 0 = 39
    · rw [if_pos h2] at h
      refine fin1 _ ?_ h
      rcases h2 with he | he | he | he <;> rw [he] <;> decide
    rw [if_neg h2] at h
    by_cases h3 : rest.headD 0 = 98
    · rw [if_pos h3] at h; exact fin1 _ (by decide) h
    rw [if_neg h3] at h
    by_cases h4 : rest.headD 0 = 102
    · rw [if_pos h4] at h; exact fin1 _ (by decide) h
    rw [if_neg h4] at h
    by_cases h5 : rest.headD 0 = 110
    · rw [if_pos h5] at h; exact fin1 _ (by decide) h
    rw [if_neg h5] at h
    by_cases h6 : rest.headD 0 = 114
    · rw [if_pos h6] at h; exact fin1 _ (by decide) h
    rw [if_neg h6] at h
    by_cases h7 : rest.headD 0 = 116
    · rw [if_pos h7] at h; exact fin1 _ (by decide) h
    rw [if_neg h7] at h
    by_cases h8 : rest.headD 0 = 117
    · rw [if_pos h8] at h
      cases hg : getu4 (c :: rest) with
      | none => rw [hg] at h; simp at h
      | some rr =>
        rw [hg] at h
        simp only at h
        by_cases h9 : isSurrogate rr = true
        · rw [if_pos h9] at h
          by_cases h10 : utf16DecodeRune rr (getu4 (rest.drop 5)) ≠ 0xFFFD
          · rw [if_pos h10] at h; exact fin2 _ _ h
          · rw [if_neg h10] at h; exact fin2 _ _ h
        · rw [if_neg h9] at h; exact fin2 _ _ h
    · rw [if_neg h8] at h; simp at h
  · rw [if_neg hc] at h
    by_cases h1 : c = 34 ∨ c.val < 0x20
    · rw [if_pos h1] at h; simp at h
    rw [if_neg h1] at h
    by_cases h2 : c.val < 0x80
    · rw [if_pos h2] at h
      simp only [Option.some.injEq, Prod.mk.injEq] at h
      exact Or.inl ⟨c, h2, h.1.symm⟩
    · rw [if_neg h2] at h; exact fin2 _ _ h

/-- The text that `unquoteBytes` returns is well-formed UTF-8. -/
theorem unquoteAux_valid (fuel : Nat) : ∀ (raw s : Bytes), unquoteAux fuel raw = some s →
    utf8Valid s = true := by
  induction fuel with
  | zero =>
    intro raw s h
    simp only [unquoteAux] at h
    split at h
    · simp only [Option.some.injEq] at h; rw [← h]; rfl
    · simp at h
  | succ fuel ih =>
    intro raw s h
    cases raw with
    | nil => simp only [unquoteAux, Option.some.injEq] at h; rw [← h]; rfl
    | cons c rest =>
      simp only [unquoteAux] at h
      cases hstep : unquoteStep c rest with
      | none => rw [hstep] at h; simp at h
      | some p =>
        obtain ⟨out, n⟩ := p
        rw [hstep] at h
        simp only at h
        cases hrec : unquoteAux fuel ((c :: rest).drop n) with
        | none => rw [hrec] at h; simp at h
        | some t =>
          rw [hrec] at h
          simp only [Option.map_some', Option.some.injEq] at h
          have ht := ih _ t hrec
          rw [← h]
          rcases unquoteStep_out c rest out n hstep with ⟨b, hb, rfl⟩ | ⟨r, rfl⟩
          · rw [List.singleton_append, utf8Valid_cons_ascii b t hb]; exact ht
          · rw [utf8Valid_EncodeRune_append]; exact ht

theorem unquote_valid (raw s : Bytes) (h : unquote raw = some s) : utf8Valid s = true :=
  unquoteAux_valid _ raw s h

theorem decodeString_valid (v : JSON) (cur s : Bytes) (h : decodeString v cur = .ok s)
    (hc : utf8Valid cur = true) : utf8Valid s = true := by
  cases v with
  | null => simp only [decodeString, Except.ok.injEq] at h; rw [← h]; exact hc
  | string raw =>
    simp only [decodeString] at h
    cases hu : unquote raw with
    | none => rw [hu] at h; simp at h
    | some t =>
      rw [hu] at h
      simp only [Except.ok.injEq] at h
      rw [← h]; exact unquote_valid raw t hu
  | bool b => simp [decodeString] at h
  | number l => simp [decodeString] at h
  | array l => simp [decodeString] at h
  | object l => simp [decodeString] at h

theorem decodeStringElems_valid (vs : List JSON) : ∀ (backing xs left : List Bytes),
    decodeStringElems vs backing = .ok (xs, left) →
    (∀ s ∈ backing, utf8Valid s = true) →
    (∀ s ∈ xs, utf8Valid s = true) ∧ (∀ s ∈ left, utf8Valid s = true) := by
  induction vs with
  | nil =>
    intro backing xs left h hb
    simp only [decodeStringElems, Except.ok.injEq, Prod.mk.injEq] at h
    obtain ⟨rfl, rfl⟩ := h
    exact ⟨by simp, hb⟩
  | cons v vs ih =>
    intro backing xs left h hb
    simp only [decodeStringElems] at h
    cases h1 : decodeString v (backing.headD []) with
    | error e => rw [h1] at h; simp at h
    | ok x =>
      rw [h1] at h
      simp only at h
      cases h2 : decodeStringElems vs backing.tail with
      | error e => rw [h2] at h; simp at h
      | ok p =>
        obtain ⟨ys, l2⟩ := p
        rw [h2] at h
        simp only [Except.ok.injEq, Prod.mk.injEq] at h
        obtain ⟨rfl, rfl⟩ := h
        have hhead : utf8Valid (backing.headD []) = true := by
          cases backing with
          | nil => rfl
          | cons b bs => exact hb b (by simp)
        have htail : ∀ s ∈ backing.tail, utf8Valid s = true :=
          fun s hs => hb s (List.mem_of_mem_tail hs)
        obtain ⟨a1, a2⟩ := ih _ _ _ h2 htail
        refine ⟨?_, a2⟩
        intro s hs
        rcases List.mem_cons.mp hs with rfl | hs
        · exact decodeString_valid v _ _ h1 hhead
        · exact a1 s hs

theorem decodeStringSlice_valid (v : JSON) (cur out : StringSlice)
    (h : decodeStringSlice v cur = .ok out)
    (h1 : ∀ s ∈ cur.elems.getD [], utf8Valid s = true)
    (h2 : ∀ s ∈ cur.spare, utf8Valid s = true) :
    (∀ s ∈ out.elems.getD [], utf8Valid s = true) ∧ (∀ s ∈ out.spare, utf8Valid s = true) := by
  cases v with
  | null =>
    simp only [decodeStringSlice, Except.ok.injEq] at h; rw [← h]; simp
  | array l =>
    cases l with
    | nil => simp only [decodeStringSlice, Except.ok.injEq] at h; rw [← h]; simp
    | cons e es =>
      simp only [decodeStringSlice] at h
      cases h3 : decodeStringElems (e :: es) (cur.elems.getD [] ++ cur.spare) with
      | error err => rw [h3] at h; simp at h
      | ok p =>
        obtain ⟨xs, left⟩ := p
        rw [h3] at h
        simp only [Except.ok.injEq] at h
        rw [← h]
        have := decodeStringElems_valid _ _ _ _ h3 (by
          intro s hs
          rcases List.mem_append.mp hs with hs | hs
          · exact h1 s hs
          · exact h2 s hs)
        simpa using this
  | bool b => simp [decodeStringSlice] at h
  | number l => simp [decodeStringSlice] at h
  | string l => simp [decodeStringSlice] at h
  | object l => simp [decodeStringSlice] at h

theorem decodeFloat_finite {F : Type} (sc : Strconv F) (v : JSON) (cur x : Float64 F)
    (h : decodeFloat sc v cur = .ok x) (hc : ∃ y, cur = .finite y) : ∃ y, x = .finite y := by
  cases v with
  | null => simp only [decodeFloat, Except.ok.injEq] at h; rw [← h]; exact hc
  | number lit =>
    simp only [decodeFloat] at h
    cases hp : sc.ParseFloat lit with
    | none => rw [hp] at h; simp at h
    | some y => rw [hp] at h; simp only [Except.ok.injEq] at h; exact ⟨y, h.symm⟩
  | bool b => simp [decodeFloat] at h
  | string l => simp [decodeFloat] at h
  | array l => simp [decodeFloat] at h
  | object l => simp [decodeFloat] at h

theorem except_map_ok {ε α β : Type} {f : α → β} {x : Except ε α} {y : β}
    (h : x.map f = .ok y) : ∃ a, x = .ok a ∧ y = f a := by
  cases x with
  | error e => simp [Except.map] at h
  | ok a => simp only [Except.map, Except.ok.injEq] at h; exact ⟨a, rfl, h.symm⟩

theorem finite_iff {F : Type} (r : NominatimResponse F) :
    r.finite = true ↔ ∃ y, r.Importance = .finite y := by
  unfold NominatimResponse.finite
  cases r.Importance <;> simp

theorem utf8_iff {F : Type} (r : NominatimResponse F) :
    r.utf8 = true ↔
      utf8Valid r.Licence = true ∧ utf8Valid r.OsmType = true
      ∧ (∀ s ∈ r.Boundingbox.getD [], utf8Valid s = true)
      ∧ utf8Valid r.Lat = true ∧ utf8Valid r.Lon = true ∧ utf8Valid r.DisplayName = true
      ∧ utf8Valid r.Class = true ∧ utf8Valid r.Type_ = true ∧ utf8Valid r.Icon = true := by
  simp only [NominatimResponse.utf8, Bool.and_eq_true, List.all_eq_true, and_assoc]

theorem decodeField_clean {F : Type} (sc : Strconv F) (f : Field) (v : JSON)
    (st st2 : StructState F) (h : decodeField sc f v st = .ok st2) (hc : st.Clean) :
    st2.Clean := by
  obtain ⟨hu, hf, hs⟩ := hc
  obtain ⟨u1, u2, u3, u4, u5, u6, u7, u8, u9⟩ := (utf8_iff _).mp hu
  cases f with
  | PlaceID =>
    simp only [decodeField] at h; obtain ⟨x, hx, rfl⟩ := except_map_ok h
    exact ⟨(utf8_iff _).mpr ⟨u1, u2, u3, u4, u5, u6, u7, u8, u9⟩, hf, hs⟩
  | OsmID =>
    simp only [decodeField] at h; obtain ⟨x, hx, rfl⟩ := except_map_ok h
    exact ⟨(utf8_iff _).mpr ⟨u1, u2, u3, u4, u5, u6, u7, u8, u9⟩, hf, hs⟩
  | Importance =>
    simp only [decodeField] at h; obtain ⟨x, hx, rfl⟩ := except_map_ok h
    refine ⟨(utf8_iff _).mpr ⟨u1, u2, u3, u4, u5, u6, u7, u8, u9⟩, ?_, hs⟩
    exact (finite_iff _).mpr (decodeFloat_finite sc v _ x hx ((finite_iff _).mp hf))
  | Boundingbox =>
    simp only [decodeField] at h; obtain ⟨x, hx, rfl⟩ := except_map_ok h
    obtain ⟨a1, a2⟩ := decodeStringSlice_valid v _ x hx u3 hs
    exact ⟨(utf8_iff _).mpr ⟨u1, u2, a1, u4, u5, u6, u7, u8, u9⟩, hf, a2⟩
  | Licence =>
    simp only [decodeField] at h; obtain ⟨x, hx, rfl⟩ := except_map_ok h
    have hx2 := decodeString_valid v _ x hx u1
    exact ⟨(utf8_iff _).mpr ⟨hx2, u2, u3, u4, u5, u6, u7, u8, u9⟩, hf, hs⟩
  | OsmType =>
    simp only [decodeField] at h; obtain ⟨x, hx, rfl⟩ := except_map_ok h
    have hx2 := decodeString_valid v _ x hx u2
    exact ⟨(utf8_iff _).mpr ⟨u1, hx2, u3, u4, u5, u6, u7, u8, u9⟩, hf, hs⟩
  | Lat =>
    simp only [decodeField] at h; obtain ⟨x, hx, rfl⟩ := except_map_ok h
    have hx2 := decodeString_valid v _ x hx u4
    exact ⟨(utf8_iff _).mpr ⟨u1, u2, u3, hx2, u5, u6, u7, u8, u9⟩, hf, hs⟩
  | Lon =>
    simp only [decodeField] at h; obtain ⟨x, hx, rfl⟩ := except_map_ok h
    have hx2 := decodeString_valid v _ x hx u5
    exact ⟨(utf8_iff _).mpr ⟨u1, u2, u3, u4, hx2, u6, u7, u8, u9⟩, hf, hs⟩
  | DisplayName =>
    simp only [decodeField] at h; obtain ⟨x, hx, rfl⟩ := except_map_ok h
    have hx2 := decodeString_valid v _ x hx u6
    exact ⟨(utf8_iff _).mpr ⟨u1, u2, u3, u4, u5, hx2, u7, u8, u9⟩, hf, hs⟩
  | Class =>
    simp only [decodeField] at h; obtain ⟨x, hx, rfl⟩ := except_map_ok h
    have hx2 := decodeString_valid v _ x hx u7
    exact ⟨(utf8_iff _).mpr ⟨u1, u2, u3, u4, u5, u6, hx2, u8, u9⟩, hf, hs⟩
  | Type_ =>
    simp only [decodeField] at h; obtain ⟨x, hx, rfl⟩ := except_map_ok h
    have hx2 := decodeString_valid v _ x hx u8
    exact ⟨(utf8_iff _).mpr ⟨u1, u2, u3, u4, u5, u6, u7, hx2, u9⟩, hf, hs⟩
  | Icon =>
    simp only [decodeField] at h; obtain ⟨x, hx, rfl⟩ := except_map_ok h
    have hx2 := decodeString_valid v _ x hx u9
    exact ⟨(utf8_iff _).mpr ⟨u1, u2, u3, u4, u5, u6, u7, u8, hx2⟩, hf, hs⟩

theorem decodeMembers_clean {F : Type} (sc : Strconv F) (ms : List (Bytes × JSON)) :
    ∀ (st st2 : StructState F), decodeMembers sc ms st = .ok st2 → st.Clean → st2.Clean := by
  induction ms with
  | nil =>
    intro st st2 h hc
    simp only [decodeMembers, Except.ok.injEq] at h
    rw [← h]; exact hc
  | cons m ms ih =>
    intro st st2 h hc
    obtain ⟨rawKey, v⟩ := m
    simp only [decodeMembers] at h
    cases hk : unquote rawKey with
    | none => rw [hk] at h; simp at h
    | some key =>
      rw [hk] at h
      simp only at h
      cases hf : findField key with
      | none => rw [hf] at h; exact ih _ _ h hc
      | some f =>
        rw [hf] at h
        simp only at h
        cases hd : decodeField sc f v st with
        | error e => rw [hd] at h; simp at h
        | ok st3 =>
          rw [hd] at h
          exact ih _ _ h (decodeField_clean sc f v st st3 hd hc)

theorem zero_clean {F : Type} (sc : Strconv F) :
    (⟨NominatimResponse.zero sc, []⟩ : StructState F).Clean := by
  refine ⟨?_, rfl, by simp⟩
  simp [NominatimResponse.utf8, NominatimResponse.zero, utf8Valid, validAux]

theorem decodeStruct_clean {F : Type} (sc : Strconv F) (v : JSON) (r : NominatimResponse F)
    (h : decodeStruct sc v = .ok r) : r.utf8 = true ∧ r.finite = true := by
  cases v with
  | null =>
    simp only [decodeStruct, Except.ok.injEq] at h
    rw [← h]; exact ⟨(zero_clean sc).1, (zero_clean sc).2.1⟩
  | object ms =>
    simp only [decodeStruct] at h
    obtain ⟨st, hst, rfl⟩ := except_map_ok h
    have := decodeMembers_clean sc ms _ st hst (zero_clean sc)
    exact ⟨this.1, this.2.1⟩
  | bool b => simp [decodeStruct] at h
  | number l => simp [decodeStruct] at h
  | string l => simp [decodeStruct] at h
  | array l => simp [decodeStruct] at h

theorem decodeStructs_clean {F : Type} (sc : Strconv F) (vs : List JSON) :
    ∀ rs : List (NominatimResponse F), decodeStructs sc vs = .ok rs →
      ∀ r ∈ rs, r.utf8 = true ∧ r.finite = true := by
  induction vs with
  | nil =>
    intro rs h
    simp only [decodeStructs, Except.ok.injEq] at h
    rw [← h]; simp
  | cons v vs ih =>
    intro rs h
    simp only [decodeStructs] at h
    cases h1 : decodeStruct sc v with
    | error e => rw [h1] at h; simp at h
    | ok r =>
      rw [h1] at h
      simp only at h
      cases h2 : decodeStructs sc vs with
      | error e => rw [h2] at h; simp at h
      | ok rs2 =>
        rw [h2] at h
        simp only [Except.ok.injEq] at h
        rw [← h]
        intro x hx
        rcases List.mem_cons.mp hx with rfl | hx
        · exact decodeStruct_clean sc v _ h1
        · exact ih rs2 h2 x hx

/-- Whatever the decoder stores in `data` has well-formed strings and finite
importances. -/
theorem decodeData_clean {F : Type} (sc : Strconv F) (v : JSON)
    (rs : Slice (NominatimResponse F)) (h : decodeData sc v = .ok rs) :
    allUTF8 rs = true ∧ allFinite rs = true := by
  cases v with
  | null =>
    simp only [decodeData, Except.ok.injEq] at h
    rw [← h]; exact ⟨rfl, rfl⟩
  | array vs =>
    simp only [decodeData] at h
    obtain ⟨l, hl, rfl⟩ := except_map_ok h
    have := decodeStructs_clean sc vs l hl
    simp only [allUTF8, allFinite, Option.getD_some, List.all_eq_true]
    exact ⟨fun r hr => (this r hr).1, fun r hr => (this r hr).2⟩
  | bool b => simp [decodeData] at h
  | number l => simp [decodeData] at h
  | string l => simp [decodeData] at h
  | object l => simp [decodeData] at h

theorem Decode_clean {F : Type} (sc : Strconv F) (body : Body)
    (rs : Slice (NominatimResponse F)) (h : Decode sc body = .ok rs) :
    allUTF8 rs = true ∧ allFinite rs = true := by
  unfold Decode at h
  split at h
  · simp at h
  · split at h
    · exact decodeData_clean sc _ rs h
    · exact decodeData_clean sc _ rs h
    · split at h
      · simp at h
      · exact decodeData_clean sc _ rs h

theorem Unmarshal_clean {F : Type} (sc : Strconv F) (data : Bytes)
    (rs : Slice (NominatimResponse F)) (h : Unmarshal sc data = .ok rs) :
    allUTF8 rs = true ∧ allFinite rs = true := by
  unfold Unmarshal at h
  split at h
  · simp at h
  · split at h
    · exact decodeData_clean sc _ rs h
    · simp at h

/-! ## Strings: the scanner and `unquoteBytes` on the output of `appendString` -/

theorem scanString_quote (X : Bytes) : scanString (34 :: X) = some ([], X) := by
  rw [scanString.eq_def]; simp

theorem scanString_plain (c : Byte) (X : Bytes) (h1 : c ≠ 34) (h2 : c ≠ 92)
    (h3 : ¬ c.val < 0x20) :
    scanString (c :: X) = (scanString X).map (fun p => (c :: p.1, p.2)) := by
  rw [scanString.eq_def]; simp [h1, h2, h3]

theorem scanString_esc (e : Byte) (X : Bytes)
    (h : e = 98 ∨ e = 102 ∨ e = 110 ∨ e = 114 ∨ e = 116 ∨ e = 92 ∨ e = 47 ∨ e = 34) :
    scanString (92 :: e :: X) = (scanString X).map (fun p => (92 :: e :: p.1, p.2)) := by
  rw [scanString.eq_def]; simp [h]

theorem scanString_u (h1 h2 h3 h4 : Byte) (X : Bytes) (a1 : isHex h1 = true)
    (a2 : isHex h2 = true) (a3 : isHex h3 = true) (a4 : isHex h4 = true) :
    scanString (92 :: 117 :: h1 :: h2 :: h3 :: h4 :: X)
      = (scanString X).map (fun p => (92 :: 117 :: h1 :: h2 :: h3 :: h4 :: p.1, p.2)) := by
  rw [scanString.eq_def]; simp [a1, a2, a3, a4]

set_option maxRecDepth 100000 in
theorem htmlSafe_table : ∀ b : Byte, htmlSafeSet b = true →
    b ≠ 34 ∧ b ≠ 92 ∧ ¬ b.val < 0x20 ∧ b.val < 0x80 := by
  decide

set_option maxRecDepth 100000 in
theorem escapeByte_table : ∀ b : Byte, b.val < 0x80 → htmlSafeSet b = false →
    (escapeByte b = [92, b] ∧ (b = 34 ∨ b = 92))
    ∨ (escapeByte b = [92, 98] ∧ b = 8)
    ∨ (escapeByte b = [92, 102] ∧ b = 12)
    ∨ (escapeByte b = [92, 110] ∧ b = 10)
    ∨ (escapeByte b = [92, 114] ∧ b = 13)
    ∨ (escapeByte b = [92, 116] ∧ b = 9)
    ∨ (escapeByte b
          = [92, 117, 48, 48, hexLower.getD (b.val / 16) 0, hexLower.getD (b.val % 16) 0]
        ∧ isHex (hexLower.getD (b.val / 16) 0) = true
        ∧ isHex (hexLower.getD (b.val % 16) 0) = true
        ∧ hexVal (hexLower.getD (b.val / 16) 0) = some (b.val / 16)
        ∧ hexVal (hexLower.getD (b.val % 16) 0) = some (b.val % 16)) := by
  decide

theorem unquoteStep_plain (c : Byte) (X : Bytes) (h1 : c ≠ 34) (h2 : c ≠ 92)
    (h3 : ¬ c.val < 0x20) (h4 : c.val < 0x80) : unquoteStep c X = some ([c], 1) := by
  rw [unquoteStep]; simp [h1, h2, h3, h4]

theorem unquoteStep_multi (c : Byte) (X : Bytes) (h : 0x80 ≤ c.val) :
    unquoteStep c X = some (EncodeRune (DecodeRune (c :: X)).1, (DecodeRune (c :: X)).2) := by
  have h1 : c ≠ 92 := by intro e; rw [e] at h; exact absurd h (by decide)
  have h2 : c ≠ 34 := by intro e; rw [e] at h; exact absurd h (by decide)
  have h3 : ¬ c.val < 0x20 := by omega
  have h4 : ¬ c.val < 0x80 := by omega
  rw [unquoteStep]; simp [h1, h2, h3, h4]

theorem unquoteStep_esc_self (e : Byte) (X : Bytes) (h : e = 34 ∨ e = 92) :
    unquoteStep 92 (e :: X) = some ([e], 2) := by
  rw [unquoteStep]; rcases h with h | h <;> simp [h]

theorem unquoteStep_esc_b (X : Bytes) : unquoteStep 92 (98 :: X) = some ([8], 2) := by
  rw [unquoteStep]; simp

theorem unquoteStep_esc_f (X : Bytes) : unquoteStep 92 (102 :: X) = some ([12], 2) := by
  rw [unquoteStep]; simp

theorem unquoteStep_esc_n (X : Bytes) : unquoteStep 92 (110 :: X) = some ([10], 2) := by
  rw [unquoteStep]; simp

theorem unquoteStep_esc_r (X : Bytes) : unquoteStep 92 (114 :: X) = some ([13], 2) := by
  rw [unquoteStep]; simp

theorem unquoteStep_esc_t (X : Bytes) : unquoteStep 92 (116 :: X) = some ([9], 2) := by
  rw [unquoteStep]; simp

theorem unquoteStep_u (h1 h2 h3 h4 : Byte) (a b c d : Nat) (X : Bytes)
    (e1 : hexVal h1 = some a) (e2 : hexVal h2 = some b) (e3 : hexVal h3 = some c)
    (e4 : hexVal h4 = some d) (hs : isSurrogate (((a * 16 + b) * 16 + c) * 16 + d) = false) :
    unquoteStep 92 (117 :: h1 :: h2 :: h3 :: h4 :: X)
      = some (EncodeRune (((a * 16 + b) * 16 + c) * 16 + d), 6) := by
  rw [unquoteStep]; simp [getu4, e1, e2, e3, e4, hs]

theorem unquoteAux_cons (fuel : Nat) (c : Byte) (Y out : Bytes) (n : Nat)
    (h : unquoteStep c Y = some (out, n)) :
    unquoteAux (fuel + 1) (c :: Y)
      = (unquoteAux fuel ((c :: Y).drop n)).map (fun t => out ++ t) := by
  simp only [unquoteAux, h]

theorem scanString_high (l : Bytes) (X : Bytes) (h : ∀ x ∈ l, 0x80 ≤ x.val) :
    scanString (l ++ X) = (scanString X).map (fun p => (l ++ p.1, p.2)) := by
  induction l with
  | nil => simp
  | cons c l ih =>
    have hc : 0x80 ≤ c.val := h c (by simp)
    have h1 : c ≠ 34 := by intro e; rw [e] at hc; exact absurd hc (by decide)
    have h2 : c ≠ 92 := by intro e; rw [e] at hc; exact absurd hc (by decide)
    rw [List.cons_append, scanString_plain c _ h1 h2 (by omega),
      ih (fun x hx => h x (List.mem_cons_of_mem _ hx))]
    cases scanString X <;> simp

/-- A well-formed rune of two to four bytes at the head of the input. -/
theorem DecodeRune_multi (b : Byte) (rest : Bytes) (hb : 0x80 ≤ b.val)
    (hv : ¬ ((DecodeRune (b :: rest)).1 = RuneError ∧ (DecodeRune (b :: rest)).2 = 1)) :
    ∃ (r : Nat) (t : Bytes) (rest2 : Bytes), DecodeRune (b :: rest) = (r, (b :: t).length)
      ∧ rest = t ++ rest2 ∧ EncodeRune r = b :: t ∧ (∀ x ∈ b :: t, 0x80 ≤ x.val)
      ∧ ¬ (r > MaxRune ∨ (0xD800 ≤ r ∧ r ≤ 0xDFFF)) ∧ 0x80 ≤ r := by
  rcases DecodeRune_cases b rest with ⟨h, _⟩ | ⟨_, h⟩ | ⟨_, b1, rest1, r, e, h1, hD, hE, lo, hi⟩
    | ⟨_, b1, b2, rest2, r, e, h1, h2, hD, hE, lo, hi, ns⟩
    | ⟨_, b1, b2, b3, rest3, r, e, h1, h2, h3, hD, hE, lo, hi⟩
  · omega
  · rw [h] at hv; exact absurd ⟨rfl, rfl⟩ hv
  · refine ⟨r, [b1], rest1, hD, e, hE, ?_, ?_, lo⟩
    · intro x hx
      simp only [List.mem_cons, List.mem_singleton, List.not_mem_nil, or_false] at hx
      rcases hx with rfl | rfl <;> assumption
    · unfold MaxRune; omega
  · refine ⟨r, [b1, b2], rest2, hD, e, hE, ?_, ?_, by omega⟩
    · intro x hx
      simp only [List.mem_cons, List.mem_singleton, List.not_mem_nil, or_false] at hx
      rcases hx with rfl | rfl | rfl <;> assumption
    · unfold MaxRune; omega
  · refine ⟨r, [b1, b2, b3], rest3, hD, e, hE, ?_, ?_, by omega⟩
    · intro x hx
      simp only [List.mem_cons, List.mem_singleton, List.not_mem_nil, or_false] at hx
      rcases hx with rfl | rfl | rfl | rfl <;> assumption
    · unfold MaxRune; omega

/-- One iteration of `appendString` on well-formed text: the scanner passes over
what it writes, and one iteration of `unquoteBytes` turns it back into the bytes
consumed. -/
theorem appendStep_roundtrip (b : Byte) (rest : Bytes) (hv : utf8Valid (b :: rest) = true) :
    1 ≤ (appendStep b rest).2 ∧ (appendStep b rest).2 ≤ (b :: rest).length
    ∧ (appendStep b rest).2 ≤ (appendStep b rest).1.length
    ∧ utf8Valid ((b :: rest).drop (appendStep b rest).2) = true
    ∧ (∀ X, scanString ((appendStep b rest).1 ++ X)
        = (scanString X).map (fun p => ((appendStep b rest).1 ++ p.1, p.2)))
    ∧ (∀ X fuel, unquoteAux (fuel + 1) ((appendStep b rest).1 ++ X)
        = (unquoteAux fuel X).map (fun t => (b :: rest).take (appendStep b rest).2 ++ t)) := by
  by_cases hb : b.val < 0x80
  · have hrest : utf8Valid rest = true := by rw [← utf8Valid_cons_ascii b rest hb]; exact hv
    by_cases hs : htmlSafeSet b = true
    · have hA : appendStep b rest = ([b], 1) := by simp [appendStep, hb, hs]
      obtain ⟨h1, h2, h3, h4⟩ := htmlSafe_table b hs
      rw [hA]
      refine ⟨le_refl _, by simp, by simp, by simpa using hrest, ?_, ?_⟩
      · intro X; rw [List.singleton_append, scanString_plain b X h1 h2 h3]; rfl
      · intro X fuel
        rw [List.singleton_append, unquoteAux_cons fuel b X _ _ (unquoteStep_plain b X h1 h2 h3 h4)]
        simp
    · have hs' : htmlSafeSet b = false := by simpa using hs
      have hA : appendStep b rest = (escapeByte b, 1) := by simp [appendStep, hb, hs']
      rw [hA]
      rcases escapeByte_table b hb hs' with ⟨e, hq⟩ | ⟨e, rfl⟩ | ⟨e, rfl⟩ | ⟨e, rfl⟩ | ⟨e, rfl⟩
        | ⟨e, rfl⟩ | ⟨e, x1, x2, x3, x4⟩
      · rw [e]
        refine ⟨le_refl _, by simp, by simp, by simpa using hrest, ?_, ?_⟩
        · intro X
          rw [List.cons_append, List.cons_append, List.nil_append,
            scanString_esc b X (by rcases hq with h | h <;> simp [h])]
          cases scanString X <;> simp
        · intro X fuel
          rw [List.cons_append, List.cons_append, List.nil_append,
            unquoteAux_cons fuel 92 _ _ _ (unquoteStep_esc_self b X hq)]
          simp
      · rw [e]
        refine ⟨le_refl _, by simp, by simp, by simpa using hrest, ?_, ?_⟩
        · intro X
          rw [List.cons_append, List.cons_append, List.nil_append, scanString_esc _ X (by simp)]
          cases scanString X <;> simp
        · intro X fuel
          rw [List.cons_append, List.cons_append, List.nil_append,
            unquoteAux_cons fuel 92 _ _ _ (unquoteStep_esc_b X)]
          simp
      · rw [e]
        refine ⟨le_refl _, by simp, by simp, by simpa using hrest, ?_, ?_⟩
        · intro X
          rw [List.cons_append, List.cons_append, List.nil_append, scanString_esc _ X (by simp)]
          cases scanString X <;> simp
        · intro X fuel
          rw [List.cons_append, List.cons_append, List.nil_append,
            unquoteAux_cons fuel 92 _ _ _ (unquoteStep_esc_f X)]
          simp
      · rw [e]
        refine ⟨le_refl _, by simp, by simp, by simpa using hrest, ?_, ?_⟩
        · intro X
          rw [List.cons_append, List.cons_append, List.nil_append, scanString_esc _ X (by simp)]
          cases scanString X <;> simp
        · intro X fuel
          rw [List.cons_append, List.cons_append, List.nil_append,
            unquoteAux_cons fuel 92 _ _ _ (unquoteStep_esc_n X)]
          simp
      · rw [e]
        refine ⟨le_refl _, by simp, by simp, by simpa using hrest, ?_, ?_⟩
        · intro X
          rw [List.cons_append, List.cons_append, List.nil_append, scanString_esc _ X (by simp)]
          cases scanString X <;> simp
        · intro X fuel
          rw [List.cons_append, List.cons_append, List.nil_append,
            unquoteAux_cons fuel 92 _ _ _ (unquoteStep_esc_r X)]
          simp
      · rw [e]
        refine ⟨le_refl _, by simp, by simp, by simpa using hrest, ?_, ?_⟩
        · intro X
          rw [List.cons_append, List.cons_append, List.nil_append, scanString_esc _ X (by simp)]
          cases scanString X <;> simp
        · intro X fuel
          rw [List.cons_append, List.cons_append, List.nil_append,
            unquoteAux_cons fuel 92 _ _ _ (unquoteStep_esc_t X)]
          simp
      · rw [e]
        refine ⟨le_refl _, by simp, by simp, by simpa using hrest, ?_, ?_⟩
        · intro X
          simp only [List.cons_append, List.nil_append]
          rw [scanString_u _ _ _ _ X (by decide) (by decide) x1 x2]
        · intro X fuel
          simp only [List.cons_append, List.nil_append]
          have h0 : hexVal 48 = some 0 := by decide
          have hsur : isSurrogate (((0 * 16 + 0) * 16 + b.val / 16) * 16 + b.val % 16) = false := by
            have := b.isLt
            simp only [isSurrogate, Bool.and_eq_false_imp, decide_eq_true_eq,
              decide_eq_false_iff_not]
            intro hh
            omega
          rw [unquoteAux_cons fuel 92 _ _ _ (unquoteStep_u 48 48 _ _ 0 0 _ _ X h0 h0 x3 x4 hsur)]
          have hE : EncodeRune (((0 * 16 + 0) * 16 + b.val / 16) * 16 + b.val % 16) = [b] := by
            have e1 : ((0 * 16 + 0) * 16 + b.val / 16) * 16 + b.val % 16 = b.val := by omega
            rw [e1]
            have e2 : b.val ≤ 0x7F := by omega
            simp only [EncodeRune, e2, if_true]
            rw [toByte_eq_of_val _ b rfl]
          rw [hE]
          simp
  · have hb' : 0x80 ≤ b.val := by omega
    have hne : ¬ ((DecodeRune (b :: rest)).1 = RuneError ∧ (DecodeRune (b :: rest)).2 = 1) := by
      intro h
      rw [utf8Valid_cons, if_pos h] at hv
      exact absurd hv (by simp)
    have hrest : utf8Valid ((b :: rest).drop (DecodeRune (b :: rest)).2) = true := by
      rw [utf8Valid_cons, if_neg hne] at hv; exact hv
    obtain ⟨r, t, rest2, hD, hr, hE, hhigh, hval, hlo⟩ := DecodeRune_multi b rest hb' hne
    have hDE := fun X => (DecodeRune_EncodeRune r X).1
    rw [hD] at hrest hne
    have htake : (b :: rest).take (b :: t).length = b :: t := by
      rw [hr]; simp
    have hdrop : ∀ X, List.drop (b :: t).length (b :: t ++ X) = X := by
      intro X; exact List.drop_left (b :: t) X
    by_cases hsep : r = 0x2028 ∨ r = 0x2029
    · have hA : appendStep b rest
          = (ascii "\\u202" ++ [hexLower.getD (r % 16) 0], (b :: t).length) := by
        have hsep' : (DecodeRune (b :: rest)).1 = 0x2028 ∨ (DecodeRune (b :: rest)).1 = 0x2029 := by
          rw [hD]; exact hsep
        rw [appendStep, if_neg hb, if_neg (by rw [hD]; exact hne), if_pos hsep', hD]
      have hlen : (b :: t).length = 3 := by
        rw [← hE]
        rcases hsep with h | h <;> rw [h] <;> rfl
      rw [hA]
      refine ⟨by simp, by rw [hr]; simp, ?_, hrest, ?_, ?_⟩
      · rw [hlen]; simp [ascii]
      · intro X
        rcases hsep with h | h <;> rw [h] <;>
          exact scanString_u 50 48 50 _ X (by decide) (by decide) (by decide) (by decide)
      · intro X fuel
        rw [htake]
        rcases hsep with h | h
        · have := unquoteAux_cons fuel 92 (117 :: 50 :: 48 :: 50 :: 56 :: X) _ _
            (unquoteStep_u 50 48 50 56 2 0 2 8 X (by decide) (by decide) (by decide) (by decide)
              (by decide))
          rw [h]
          rw [show ascii "\\u202" ++ [hexLower.getD (0x2028 % 16) 0] ++ X
              = 92 :: 117 :: 50 :: 48 :: 50 :: 56 :: X from rfl, this, ← hE, h]
          rfl
        · have := unquoteAux_cons fuel 92 (117 :: 50 :: 48 :: 50 :: 57 :: X) _ _
            (unquoteStep_u 50 48 50 57 2 0 2 9 X (by decide) (by decide) (by decide) (by decide)
              (by decide))
          rw [h]
          rw [show ascii "\\u202" ++ [hexLower.getD (0x2029 % 16) 0] ++ X
              = 92 :: 117 :: 50 :: 48 :: 50 :: 57 :: X from rfl, this, ← hE, h]
          rfl
    · have hA : appendStep b rest = (b :: t, (b :: t).length) := by
        have hsep' : ¬ ((DecodeRune (b :: rest)).1 = 0x2028 ∨ (DecodeRune (b :: rest)).1 = 0x2029) := by
          rw [hD]; exact hsep
        rw [appendStep, if_neg hb, if_neg (by rw [hD]; exact hne), if_neg hsep', hD, htake]
      rw [hA]
      refine ⟨by simp, by rw [hr]; simp, le_refl _, hrest, ?_, ?_⟩
      · intro X; exact scanString_high _ X hhigh
      · intro X fuel
        rw [htake]
        have hstep : unquoteStep b (t ++ X) = some (b :: t, (b :: t).length) := by
          rw [unquoteStep_multi b _ hb']
          have := hDE X
          rw [hE, if_neg hval] at this
          rw [← List.cons_append, this, hE]
        rw [List.cons_append, unquoteAux_cons fuel b _ _ _ hstep, ← List.cons_append, List.drop_left]

theorem appendStringAux_nil (fuel : Nat) : appendStringAux fuel [] = [] := by
  cases fuel <;> rfl

theorem appendStringAux_cons (fuel : Nat) (b : Byte) (rest : Bytes) :
    appendStringAux (fuel + 1) (b :: rest)
      = (appendStep b rest).1 ++ appendStringAux fuel ((b :: rest).drop (appendStep b rest).2) := by
  rfl

theorem unquoteAux_nil (fuel : Nat) : unquoteAux fuel [] = some [] := by
  cases fuel <;> simp [unquoteAux]

/-- The scanner reads the text that `appendString` writes up to the closing
quote. -/
theorem appendStringAux_scan (fuel : Nat) : ∀ (s X : Bytes), s.length ≤ fuel →
    utf8Valid s = true →
    scanString (appendStringAux fuel s ++ 34 :: X) = some (appendStringAux fuel s, X) := by
  induction fuel with
  | zero =>
    intro s X h _
    have : s = [] := List.length_eq_zero.mp (by omega)
    subst this
    rw [appendStringAux_nil, List.nil_append, scanString_quote]
  | succ fuel ih =>
    intro s X h hv
    cases s with
    | nil => rw [appendStringAux_nil, List.nil_append, scanString_quote]
    | cons b rest =>
      obtain ⟨h1, h2, _, h4, h5, _⟩ := appendStep_roundtrip b rest hv
      rw [appendStringAux_cons, List.append_assoc, h5, ih _ X _ h4]
      · rfl
      · simp only [List.length_drop, List.length_cons] at h h2 ⊢; omega

/-- The function `unquoteBytes` returns the text that `appendString` was given. -/
theorem appendStringAux_unquote (fuel : Nat) : ∀ (s : Bytes) (fuel2 : Nat), s.length ≤ fuel →
    s.length ≤ fuel2 → utf8Valid s = true →
    unquoteAux fuel2 (appendStringAux fuel s) = some s := by
  induction fuel with
  | zero =>
    intro s fuel2 h _ _
    have : s = [] := List.length_eq_zero.mp (by omega)
    subst this
    rw [appendStringAux_nil, unquoteAux_nil]
  | succ fuel ih =>
    intro s fuel2 h h' hv
    cases s with
    | nil => rw [appendStringAux_nil, unquoteAux_nil]
    | cons b rest =>
      obtain ⟨h1, h2, _, h4, _, h6⟩ := appendStep_roundtrip b rest hv
      cases fuel2 with
      | zero => simp at h'
      | succ g =>
        rw [appendStringAux_cons, h6, ih _ g _ _ h4]
        · simp only [Option.map_some', List.take_append_drop]
        · simp only [List.length_drop, List.length_cons] at h h2 ⊢; omega
        · simp only [List.length_drop, List.length_cons] at h' h2 ⊢; omega

theorem appendStringAux_length (fuel : Nat) : ∀ (s : Bytes), s.length ≤ fuel →
    utf8Valid s = true → s.length ≤ (appendStringAux fuel s).length := by
  induction fuel with
  | zero => intro s h _; omega
  | succ fuel ih =>
    intro s h hv
    cases s with
    | nil => simp
    | cons b rest =>
      obtain ⟨h1, h2, h3, h4, _, _⟩ := appendStep_roundtrip b rest hv
      have := ih _ (by simp only [List.length_drop, List.length_cons] at h h2 ⊢; omega) h4
      rw [appendStringAux_cons, List.length_append]
      simp only [List.length_drop, List.length_cons] at this h2 h ⊢
      omega

theorem unquote_appendStringAux (s : Bytes) (hv : utf8Valid s = true) :
    unquote (appendStringAux s.length s) = some s :=
  appendStringAux_unquote _ s _ (le_refl _) (appendStringAux_length _ s (le_refl _) hv) hv

/-! ## Numbers -/

theorem stops_delim (c : Byte) (Y : Bytes) (h : c = 44 ∨ c = 93 ∨ c = 125) : Stops (c :: Y) := by
  refine Or.inr ⟨c, Y, rfl, ?_⟩
  intro st
  rcases h with h | h | h <;> subst h <;> cases st <;> decide

theorem scanNumber_cons_some (st st2 : NumState) (c : Byte) (rest : Bytes)
    (hs : numStep st c = some st2) :
    scanNumber st (c :: rest) = (scanNumber st2 rest).map (fun p => (c :: p.1, p.2)) := by
  rw [scanNumber]; simp only [hs]

theorem parseDigits_cons (a : Nat) (c : Byte) (s : Bytes) (h : 48 ≤ c.val ∧ c.val ≤ 57) :
    parseDigits a (c :: s) = parseDigits (a * 10 + (c.val - 48)) s := by
  rw [parseDigits, if_pos h]

theorem parseDigits_nil (a : Nat) : parseDigits a [] = some a := by
  rw [parseDigits]

/-- A literal that the scanner accepts on its own is read as that literal in
front of anything that does not continue a number. -/
theorem scanNumber_append (lit : Bytes) : ∀ (st : NumState) (X : Bytes),
    scanNumber st lit = some (lit, []) → Stops X → scanNumber st (lit ++ X) = some (lit, X) := by
  induction lit with
  | nil =>
    intro st X h hX
    simp only [scanNumber] at h
    have hf : numFinal st = true := by
      by_cases hf : numFinal st = true
      · exact hf
      · rw [if_neg hf] at h; simp at h
    rcases hX with rfl | ⟨c, Y, rfl, hc⟩
    · simp [scanNumber, hf]
    · simp [scanNumber, hc st, hf]
  | cons c l ih =>
    intro st X h hX
    simp only [scanNumber] at h
    cases hs : numStep st c with
    | none =>
      rw [hs] at h
      simp only at h
      split at h <;> simp at h
    | some st2 =>
      rw [hs] at h
      simp only at h
      cases hr : scanNumber st2 l with
      | none => rw [hr] at h; simp at h
      | some p =>
        rw [hr] at h
        simp only [Option.map_some', Option.some.injEq, Prod.mk.injEq, List.cons.injEq,
          true_and] at h
        have hp : p = (l, []) := Prod.ext h.1 h.2
        rw [hp] at hr
        rw [List.cons_append, scanNumber_cons_some st st2 c _ hs, ih st2 X hr hX]
        rfl

theorem scanNumber_int_digits (ds : Bytes) (h : ∀ c ∈ ds, isDigit c = true) :
    scanNumber .int ds = some (ds, []) := by
  induction ds with
  | nil => rfl
  | cons c ds ih =>
    have hc : isDigit c = true := h c (by simp)
    rw [scanNumber_cons_some .int .int c ds (by simp only [numStep, hc, if_true]),
      ih (fun x hx => h x (List.mem_cons_of_mem _ hx))]
    rfl

theorem isDigit_iff (c : Byte) : isDigit c = true ↔ 48 ≤ c.val ∧ c.val ≤ 57 := by
  simp [isDigit]

/-- The digits that `formatBits` writes for `n`. -/
theorem formatBits_spec (fuel : Nat) : ∀ (n : Nat), n < fuel →
    ∃ ds : Bytes, (∀ acc, formatBits fuel n acc = ds ++ acc) ∧ ds ≠ []
      ∧ (∀ c ∈ ds, isDigit c = true)
      ∧ (∀ a rest, parseDigits a (ds ++ rest) = parseDigits (a * 10 ^ ds.length + n) rest)
      ∧ (n ≠ 0 → ∀ c ∈ ds.head?, c ≠ 48) ∧ (n = 0 → ds = [48]) := by
  induction fuel with
  | zero => intro n h; omega
  | succ fuel ih =>
    intro n h
    by_cases h10 : n < 10
    · refine ⟨[toByte (48 + n)], ?_, by simp, ?_, ?_, ?_, ?_⟩
      · intro acc; simp [formatBits, h10]
      · intro c hc
        simp only [List.mem_singleton] at hc
        rw [hc, isDigit_iff, toByte_val_of_lt _ (by omega)]; omega
      · intro a rest
        have hv : (toByte (48 + n)).val = 48 + n := toByte_val_of_lt _ (by omega)
        have hd : 48 ≤ (toByte (48 + n)).val ∧ (toByte (48 + n)).val ≤ 57 := by rw [hv]; omega
        rw [List.singleton_append, parseDigits_cons a _ rest hd, hv]
        simp only [List.length_singleton, pow_one, Nat.add_sub_cancel_left]
      · intro hn c hc
        simp only [List.head?_cons, Option.mem_def, Option.some.injEq] at hc
        intro e
        have hv : (toByte (48 + n)).val = 48 + n := toByte_val_of_lt _ (by omega)
        rw [hc, e] at hv
        have : ((48 : Byte).val) = 48 := rfl
        omega
      · intro hn; subst hn; rfl
    · obtain ⟨ds, h1, h2, h3, h4, h5, _⟩ := ih (n / 10) (by omega)
      refine ⟨ds ++ [toByte (48 + n % 10)], ?_, by simp, ?_, ?_, ?_, ?_⟩
      · intro acc
        simp only [formatBits, h10, if_false, h1, List.append_assoc, List.singleton_append]
      · intro c hc
        rcases List.mem_append.mp hc with hc | hc
        · exact h3 c hc
        · simp only [List.mem_singleton] at hc
          rw [hc, isDigit_iff, toByte_val_of_lt _ (by omega)]; omega
      · intro a rest
        have hv : (toByte (48 + n % 10)).val = 48 + n % 10 := toByte_val_of_lt _ (by omega)
        have hd : 48 ≤ (toByte (48 + n % 10)).val ∧ (toByte (48 + n % 10)).val ≤ 57 := by
          rw [hv]; omega
        rw [List.append_assoc, h4, List.singleton_append, parseDigits_cons _ _ rest hd, hv]
        simp only [List.length_append, List.length_singleton, Nat.add_sub_cancel_left]
        congr 1
        have e : n / 10 * 10 + n % 10 = n := by omega
        calc (a * 10 ^ ds.length + n / 10) * 10 + n % 10
            = a * 10 ^ (ds.length + 1) + (n / 10 * 10 + n % 10) := by ring
          _ = a * 10 ^ (ds.length + 1) + n := by rw [e]
      · intro hn c hc
        cases ds with
        | nil => exact absurd rfl h2
        | cons d ds =>
          simp only [List.cons_append, List.head?_cons, Option.mem_def, Option.some.injEq] at hc
          exact h5 (by omega) c (by simp [hc])
      · intro hn; omega

theorem FormatInt_valid (i : Int) : scanNumber .begin (FormatInt i) = some (FormatInt i, []) := by
  obtain ⟨ds, h1, h2, h3, _, h5, h6⟩ := formatBits_spec (i.natAbs + 1) i.natAbs (by omega)
  have key : ∀ st, (st = NumState.begin ∨ st = NumState.neg) →
      scanNumber st ds = some (ds, []) := by
    intro st hst
    cases ds with
    | nil => exact absurd rfl h2
    | cons d ds =>
      have hd : isDigit d = true := h3 d (by simp)
      have hds : ∀ c ∈ ds, isDigit c = true := fun c hc => h3 c (List.mem_cons_of_mem _ hc)
      have hd' := (isDigit_iff d).mp hd
      by_cases hz : i.natAbs = 0
      · have := h6 hz
        simp only [List.cons.injEq] at this
        obtain ⟨rfl, rfl⟩ := this
        rcases hst with rfl | rfl <;> rfl
      · have hne : d ≠ 48 := h5 hz d (by simp)
        have hne45 : d ≠ 45 := by
          intro e; rw [e] at hd; exact absurd hd (by decide)
        rcases hst with rfl | rfl
        · rw [scanNumber_cons_some .begin .int d ds
              (by simp only [numStep, hne45, hne, hd, if_true, if_false]),
            scanNumber_int_digits ds hds]
          rfl
        · rw [scanNumber_cons_some .neg .int d ds
              (by simp only [numStep, hne, hd, if_true, if_false]),
            scanNumber_int_digits ds hds]
          rfl
  unfold FormatInt
  split
  · rw [h1, List.append_nil]
    rw [scanNumber_cons_some .begin .neg 45 ds (by simp only [numStep, if_true]),
      key .neg (Or.inr rfl)]
    rfl
  · rw [h1, List.append_nil]
    exact key .begin (Or.inl rfl)

theorem ParseInt_FormatInt (n : Int64) : ParseInt (FormatInt n.val) = some n := by
  obtain ⟨ds, h1, h2, h3, h4, _, _⟩ := formatBits_spec (n.val.natAbs + 1) n.val.natAbs (by omega)
  have hp : ParseUint ds = some n.val.natAbs := by
    cases ds with
    | nil => exact absurd rfl h2
    | cons d ds =>
      have := h4 0 []
      simp only [List.append_nil, zero_mul, zero_add] at this
      simp only [ParseUint]
      rw [this, parseDigits_nil]
  obtain ⟨v, hv⟩ := n
  unfold FormatInt
  simp only at hp h1 ⊢
  split
  · rename_i hneg
    rw [h1, List.append_nil]
    simp only [ParseInt, decide_True, or_true, if_true, hp]
    have e : -(v.natAbs : Int) = v := by omega
    simp only [e, hv, and_self, dite_true]
  · rename_i hneg
    rw [h1, List.append_nil]
    cases ds with
    | nil => exact absurd rfl h2
    | cons d ds =>
      have hd : isDigit d = true := h3 d (by simp)
      have hne45 : d ≠ 45 := by
        intro e; rw [e] at hd; exact absurd hd (by decide)
      have hne43 : d ≠ 43 := by
        intro e; rw [e] at hd; exact absurd hd (by decide)
      simp only [ParseInt, hne45, hne43, decide_False, or_self, if_false, hp]
      have e : (v.natAbs : Int) = v := by omega
      simp only [Bool.false_eq_true, if_false, e, hv, and_self, dite_true]

/-! ## The scanner on the output of `Marshal` -/

theorem skipSpace_cons (c : Byte) (X : Bytes) (h : isSpace c = false) :
    skipSpace (c :: X) = c :: X := by
  rw [skipSpace]; simp [h]

theorem Enc.skip {venc : Bytes} {v : JSON} {f0 k : Nat} (h : Enc venc v f0 k) (X : Bytes) :
    skipSpace (venc ++ X) = venc ++ X := by
  obtain ⟨⟨c0, t, rfl, hs, _⟩, _⟩ := h
  exact skipSpace_cons c0 _ hs

theorem parseValue_string (f d : Nat) (raw X : Bytes) (Y : Bytes)
    (h : scanString Y = some (raw, X)) :
    parseValue (f + 1) d (34 :: Y) = some (.string raw, X) := by
  rw [parseValue]; simp [h]

theorem parseValue_number (f d : Nat) (c0 : Byte) (t lit X : Bytes)
    (hc : c0 = 45 ∨ isDigit c0 = true)
    (h : scanNumber .begin (c0 :: t) = some (lit, X)) :
    parseValue (f + 1) d (c0 :: t) = some (.number lit, X) := by
  have h1 : c0 ≠ 123 := by
    rcases hc with hc | hc
    · rw [hc]; decide
    · intro e; rw [e] at hc; exact absurd hc (by decide)
  have h2 : c0 ≠ 91 := by
    rcases hc with hc | hc
    · rw [hc]; decide
    · intro e; rw [e] at hc; exact absurd hc (by decide)
  have h3 : c0 ≠ 34 := by
    rcases hc with hc | hc
    · rw [hc]; decide
    · intro e; rw [e] at hc; exact absurd hc (by decide)
  rw [parseValue]; simp [h1, h2, h3, hc, h]

theorem parseValue_null (f d : Nat) (X : Bytes) :
    parseValue (f + 1) d (ascii "null" ++ X) = some (.null, X) := by
  rfl

theorem parseValue_array_nil (f d : Nat) (X : Bytes) (hd : d < maxNestingDepth) :
    parseValue (f + 1) d (91 :: 93 :: X) = some (.array [], X) := by
  rw [parseValue]; simp [hd, skipSpace, isSpace]

theorem parseValue_array (f d : Nat) (c0 : Byte) (Y : Bytes) (vs : List JSON) (X : Bytes)
    (hd : d < maxNestingDepth) (hs : isSpace c0 = false) (hc : c0 ≠ 93)
    (h : parseElems f (d + 1) (c0 :: Y) = some (vs, X)) :
    parseValue (f + 1) d (91 :: c0 :: Y) = some (.array vs, X) := by
  rw [parseValue]; simp [hd, skipSpace_cons c0 Y hs, hc, h]

theorem parseValue_object (f d : Nat) (Y : Bytes) (ms : List (Bytes × JSON)) (X : Bytes)
    (hd : d < maxNestingDepth)
    (h : parseMembers f (d + 1) (34 :: Y) = some (ms, X)) :
    parseValue (f + 1) d (123 :: 34 :: Y) = some (.object ms, X) := by
  rw [parseValue]; simp [hd, skipSpace_cons 34 Y (by decide), h]

theorem parseElems_last (f d : Nat) (s : Bytes) (v : JSON) (X : Bytes)
    (h : parseValue f d s = some (v, 93 :: X)) :
    parseElems (f + 1) d s = some ([v], X) := by
  rw [parseElems]; simp [h, skipSpace_cons 93 X (by decide)]

theorem parseElems_more (f d : Nat) (s : Bytes) (v : JSON) (Y : Bytes)
    (h : parseValue f d s = some (v, 44 :: Y)) :
    parseElems (f + 1) d s
      = (parseElems f d (skipSpace Y)).map (fun p => (v :: p.1, p.2)) := by
  rw [parseElems]; simp [h, skipSpace_cons 44 Y (by decide)]

theorem parseMembers_last (f d : Nat) (key Y Z : Bytes) (v : JSON) (X : Bytes)
    (hk : scanString Y = some (key, 58 :: Z))
    (hz : skipSpace Z = Z)
    (hv : parseValue f d Z = some (v, 125 :: X)) :
    parseMembers (f + 1) d (34 :: Y) = some ([(key, v)], X) := by
  rw [parseMembers]
  simp [hk, skipSpace_cons 58 Z (by decide), hz, hv, skipSpace_cons 125 X (by decide)]

theorem parseMembers_more (f d : Nat) (key Y Z : Bytes) (v : JSON) (W : Bytes)
    (hk : scanString Y = some (key, 58 :: Z))
    (hz : skipSpace Z = Z)
    (hv : parseValue f d Z = some (v, 44 :: W)) :
    parseMembers (f + 1) d (34 :: Y)
      = (parseMembers f d (skipSpace W)).map (fun p => ((key, v) :: p.1, p.2)) := by
  rw [parseMembers]
  simp [hk, skipSpace_cons 58 Z (by decide), hz, hv, skipSpace_cons 44 W (by decide)]

theorem appendString_eq (s X : Bytes) :
    appendString s ++ X = 34 :: (rawString s ++ 34 :: X) := by
  simp [appendString, rawString]

theorem Enc_string (s : Bytes) (hv : utf8Valid s = true) :
    Enc (appendString s) (.string (rawString s)) 1 0 := by
  refine ⟨⟨34, rawString s ++ [34], rfl, by decide, by decide⟩, ?_⟩
  intro f d X hf _ _
  obtain ⟨f, rfl⟩ : ∃ g, f = g + 1 := ⟨f - 1, by omega⟩
  rw [appendString_eq]
  exact parseValue_string f d _ _ _ (appendStringAux_scan _ s _ (le_refl _) hv)

theorem numStep_begin_some (c : Byte) (st : NumState) (h : numStep .begin c = some st) :
    (c = 45 ∨ isDigit c = true) ∧ isSpace c = false ∧ c ≠ 93 := by
  simp only [numStep] at h
  by_cases h1 : c = 45
  · subst h1; exact ⟨Or.inl rfl, by decide, by decide⟩
  · by_cases h2 : c = 48
    · subst h2; exact ⟨Or.inr (by decide), by decide, by decide⟩
    · rw [if_neg h1, if_neg h2] at h
      by_cases h3 : isDigit c = true
      · refine ⟨Or.inr h3, ?_, ?_⟩
        · have := (isDigit_iff c).mp h3
          simp only [isSpace, Bool.or_eq_false_iff, decide_eq_false_iff_not]
          refine ⟨⟨⟨?_, ?_⟩, ?_⟩, ?_⟩ <;> (intro e; rw [e] at this; revert this; decide)
        · intro e; rw [e] at h3; exact absurd h3 (by decide)
      · rw [if_neg h3] at h; simp at h

/-- A number literal that the scanner accepts is read as that literal. -/
theorem Enc_number (lit : Bytes) (hv : scanNumber .begin lit = some (lit, [])) :
    Enc lit (.number lit) 1 0 := by
  cases lit with
  | nil => simp [scanNumber, numFinal] at hv
  | cons c0 t =>
    have hstep : ∃ st, numStep .begin c0 = some st := by
      cases hs : numStep .begin c0 with
      | none =>
        rw [scanNumber, hs] at hv
        simp [numFinal] at hv
      | some st => exact ⟨st, rfl⟩
    obtain ⟨st, hst⟩ := hstep
    obtain ⟨h1, h2, h3⟩ := numStep_begin_some c0 st hst
    refine ⟨⟨c0, t, rfl, h2, h3⟩, ?_⟩
    intro f d X hf _ hc
    obtain ⟨f, rfl⟩ : ∃ g, f = g + 1 := ⟨f - 1, by omega⟩
    exact parseValue_number f d c0 _ _ _ h1 (scanNumber_append (c0 :: t) .begin X hv hc)

theorem Enc_null : Enc (ascii "null") .null 1 0 := by
  refine ⟨⟨110, ascii "ull", rfl, by decide, by decide⟩, ?_⟩
  intro f d X hf _ _
  obtain ⟨f, rfl⟩ : ∃ g, f = g + 1 := ⟨f - 1, by omega⟩
  exact parseValue_null f d _

theorem Enc.mono {venc : Bytes} {v : JSON} {f0 f1 k k1 : Nat} (h : Enc venc v f0 k)
    (hle : f0 ≤ f1) (hk : k ≤ k1) : Enc venc v f1 k1 :=
  ⟨h.1, fun f d X hf hd hc => h.2 f d X (by omega) (by omega) hc⟩

/-- The scanner reads the elements of an array that are written with commas
between them. -/
theorem parseElems_join (f0 k : Nat) (items : List (Bytes × JSON)) :
    items ≠ [] → (∀ p ∈ items, Enc p.1 p.2 f0 k) →
    ∀ (f d : Nat) (X : Bytes), f0 + items.length ≤ f → d + k ≤ 100 →
      parseElems f d (joinComma (items.map Prod.fst) ++ 93 :: X)
        = some (items.map Prod.snd, X) := by
  induction items with
  | nil => intro h; exact absurd rfl h
  | cons p rest ih =>
    intro _ hE f d X hf hd
    obtain ⟨f, rfl⟩ : ∃ g, f = g + 1 := ⟨f - 1, by simp only [List.length_cons] at hf; omega⟩
    have hp := hE p (by simp)
    cases rest with
    | nil =>
      simp only [List.length_cons, List.length_nil] at hf
      simp only [List.map_cons, List.map_nil, joinComma]
      exact parseElems_last f d _ _ X (hp.2 f d (93 :: X) (by omega) hd (stops_delim 93 X (by simp)))
    | cons q rest =>
      simp only [List.length_cons] at hf
      have hq := hE q (by simp)
      have ih' := ih (by simp) (fun x hx => hE x (List.mem_cons_of_mem _ hx)) f d X
        (by simp only [List.length_cons]; omega) hd
      simp only [List.map_cons, joinComma, List.append_assoc, List.cons_append] at ih' ⊢
      rw [parseElems_more f d _ _ _ (hp.2 f d (44 :: _) (by omega) hd (stops_delim 44 _ (by simp)))]
      have hskip : skipSpace (joinComma (q.1 :: List.map Prod.fst rest) ++ 93 :: X)
          = joinComma (q.1 :: List.map Prod.fst rest) ++ 93 :: X := by
        obtain ⟨⟨c0, t, e, hs, _⟩, _⟩ := hq
        cases rest with
        | nil => simp only [List.map_nil, joinComma, e, List.cons_append]; exact skipSpace_cons _ _ hs
        | cons r rest =>
          simp only [List.map_cons, joinComma, e, List.cons_append]
          exact skipSpace_cons _ _ hs
      rw [hskip, ih']
      rfl

theorem joinComma_head (c0 : Byte) (t : Bytes) (rest : List Bytes) :
    ∃ u, joinComma ((c0 :: t) :: rest) = c0 :: u := by
  cases rest with
  | nil => exact ⟨t, rfl⟩
  | cons y rest => exact ⟨_, rfl⟩

/-- The scanner reads an array whose elements it reads. -/
theorem Enc_array (f0 k : Nat) (items : List (Bytes × JSON))
    (hE : ∀ p ∈ items, Enc p.1 p.2 f0 k) :
    Enc (91 :: (joinComma (items.map Prod.fst) ++ [93])) (.array (items.map Prod.snd))
      (f0 + items.length + 1) (k + 1) := by
  refine ⟨⟨91, _, rfl, by decide, by decide⟩, ?_⟩
  intro f d X hf hd _
  obtain ⟨f, rfl⟩ : ∃ g, f = g + 1 := ⟨f - 1, by omega⟩
  have hd' : d < maxNestingDepth := by unfold maxNestingDepth; omega
  cases items with
  | nil => exact parseValue_array_nil f d _ hd'
  | cons p rest =>
    have h := parseElems_join f0 k (p :: rest) (by simp) hE f (d + 1) X (by omega)
      (by omega)
    obtain ⟨⟨c0, t, e, hs, hc⟩, _⟩ := hE p (by simp)
    obtain ⟨u, hu⟩ := joinComma_head c0 t (rest.map Prod.fst)
    simp only [List.map_cons, e, hu, List.cons_append, List.append_assoc,
      List.singleton_append] at h ⊢
    exact parseValue_array f d c0 _ _ _ hd' hs hc h

theorem scanString_safe (l : Bytes) (Y : Bytes) (h : ∀ x ∈ l, htmlSafeSet x = true) :
    scanString (l ++ 34 :: Y) = some (l, Y) := by
  induction l with
  | nil => exact scanString_quote Y
  | cons c l ih =>
    obtain ⟨h1, h2, h3, _⟩ := htmlSafe_table c (h c (by simp))
    rw [List.cons_append, scanString_plain c _ h1 h2 h3,
      ih (fun x hx => h x (List.mem_cons_of_mem _ hx))]
    rfl

theorem parseMembers_step_more (key venc T : Bytes) (v : JSON) (f0 k f d : Nat)
    (hkey : ∀ x ∈ key, htmlSafeSet x = true) (hE : Enc venc v f0 k) (hf : f0 ≤ f)
    (hd : d + k ≤ 100) :
    parseMembers (f + 1) d (memberText key venc (44 :: 34 :: T))
      = (parseMembers f d (34 :: T)).map (fun p => ((key, v) :: p.1, p.2)) := by
  unfold memberText
  rw [parseMembers_more f d key _ (venc ++ 44 :: 34 :: T) v (34 :: T)
    (scanString_safe key _ hkey) (hE.skip _)
    (hE.2 f d _ hf hd (stops_delim 44 _ (by simp))), skipSpace_cons 34 T (by decide)]

theorem parseMembers_step_last (key venc X : Bytes) (v : JSON) (f0 k f d : Nat)
    (hkey : ∀ x ∈ key, htmlSafeSet x = true) (hE : Enc venc v f0 k) (hf : f0 ≤ f)
    (hd : d + k ≤ 100) :
    parseMembers (f + 1) d (memberText key venc (125 :: X)) = some ([(key, v)], X) := by
  unfold memberText
  exact parseMembers_last f d key _ (venc ++ 125 :: X) v X
    (scanString_safe key _ hkey) (hE.skip _)
    (hE.2 f d _ hf hd (stops_delim 125 _ (by simp)))

theorem encodeStrings_eq (xs : List Bytes) : encodeStrings xs = joinComma (xs.map appendString) := by
  induction xs with
  | nil => rfl
  | cons x xs ih =>
    cases xs with
    | nil => rfl
    | cons y ys => simp only [encodeStrings, List.map_cons, joinComma] at ih ⊢; rw [ih]

theorem Enc_stringSlice (xs : Slice Bytes) (hv : ∀ s ∈ xs.getD [], utf8Valid s = true) :
    Enc (encodeStringSlice xs) (astStringSlice xs) ((xs.getD []).length + 2) 1 := by
  cases xs with
  | none => exact Enc_null.mono (by omega) (by omega)
  | some l =>
    have := Enc_array 1 0 (l.map (fun s => (appendString s, JSON.string (rawString s))))
      (by
        intro p hp
        obtain ⟨s, hs, rfl⟩ := List.mem_map.mp hp
        exact Enc_string s (hv s hs))
    simp only [List.map_map, List.length_map] at this
    simp only [encodeStringSlice, astStringSlice, encodeStrings_eq, Option.getD_some]
    have e1 : (Prod.fst ∘ fun s => (appendString s, JSON.string (rawString s))) = appendString := rfl
    have e2 : (Prod.snd ∘ fun s => (appendString s, JSON.string (rawString s)))
        = fun s => JSON.string (rawString s) := rfl
    rw [e1, e2] at this
    exact this.mono (by omega) (by omega)

theorem Enc_float {F : Type} (sc : Strconv F) (hl : sc.Lawful) (x : F) :
    Enc (sc.FormatFloat x) (astFloat sc (.finite x)) 1 0 :=
  Enc_number _ (hl.format_valid x)

theorem encodeStruct_eq {F : Type} (sc : Strconv F) (r : NominatimResponse F) (x : F)
    (hx : r.Importance = .finite x) :
    ∃ b, encodeStruct sc r = .ok b ∧ ∀ X, b ++ X = structText sc r x X := by
  refine ⟨_, by simp only [encodeStruct, hx, floatEncoder]; rfl, ?_⟩
  intro X
  simp only [structText, memberText, List.append_assoc, List.cons_append, List.nil_append]
  rfl

set_option maxRecDepth 100000 in
theorem keys_safe :
    (∀ x ∈ ascii "place_id", htmlSafeSet x = true) ∧ (∀ x ∈ ascii "licence", htmlSafeSet x = true)
    ∧ (∀ x ∈ ascii "osm_type", htmlSafeSet x = true) ∧ (∀ x ∈ ascii "osm_id", htmlSafeSet x = true)
    ∧ (∀ x ∈ ascii "boundingbox", htmlSafeSet x = true) ∧ (∀ x ∈ ascii "lat", htmlSafeSet x = true)
    ∧ (∀ x ∈ ascii "lon", htmlSafeSet x = true)
    ∧ (∀ x ∈ ascii "display_name", htmlSafeSet x = true)
    ∧ (∀ x ∈ ascii "class", htmlSafeSet x = true) ∧ (∀ x ∈ ascii "type", htmlSafeSet x = true)
    ∧ (∀ x ∈ ascii "importance", htmlSafeSet x = true)
    ∧ (∀ x ∈ ascii "icon", htmlSafeSet x = true) := by
  decide

/-- The scanner reads the text of a record as its members. -/
theorem parseValue_structText {F : Type} (sc : Strconv F) (hl : sc.Lawful)
    (r : NominatimResponse F) (x : F) (hx : r.Importance = .finite x) (hu : r.utf8 = true)
    (f d : Nat) (X : Bytes) (hf : (r.Boundingbox.getD []).length + 15 ≤ f) (hd : d + 2 ≤ 100) :
    parseValue f d (structText sc r x X) = some (.object (astMembers sc r), X) := by
  obtain ⟨u1, u2, u3, u4, u5, u6, u7, u8, u9⟩ := (utf8_iff r).mp hu
  obtain ⟨k1, k2, k3, k4, k5, k6, k7, k8, k9, k10, k11, k12⟩ := keys_safe
  obtain ⟨f, rfl⟩ : ∃ g, f = g + 13 := ⟨f - 13, by omega⟩
  have hd' : d < maxNestingDepth := by unfold maxNestingDepth; omega
  unfold structText
  have hm : memberText (ascii "place_id") (FormatInt r.PlaceID.val)
      (44 :: memberText (ascii "licence") (appendString r.Licence)
      (44 :: memberText (ascii "osm_type") (appendString r.OsmType)
      (44 :: memberText (ascii "osm_id") (FormatInt r.OsmID.val)
      (44 :: memberText (ascii "boundingbox") (encodeStringSlice r.Boundingbox)
      (44 :: memberText (ascii "lat") (appendString r.Lat)
      (44 :: memberText (ascii "lon") (appendString r.Lon)
      (44 :: memberText (ascii "display_name") (appendString r.DisplayName)
      (44 :: memberText (ascii "class") (appendString r.Class)
      (44 :: memberText (ascii "type") (appendString r.Type_)
      (44 :: memberText (ascii "importance") (sc.FormatFloat x)
      (44 :: memberText (ascii "icon") (appendString r.Icon) (125 :: X))))))))))))
      = 34 :: (ascii "place_id" ++ 34 :: 58 :: (FormatInt r.PlaceID.val ++
      (44 :: memberText (ascii "licence") (appendString r.Licence)
      (44 :: memberText (ascii "osm_type") (appendString r.OsmType)
      (44 :: memberText (ascii "osm_id") (FormatInt r.OsmID.val)
      (44 :: memberText (ascii "boundingbox") (encodeStringSlice r.Boundingbox)
      (44 :: memberText (ascii "lat") (appendString r.Lat)
      (44 :: memberText (ascii "lon") (appendString r.Lon)
      (44 :: memberText (ascii "display_name") (appendString r.DisplayName)
      (44 :: memberText (ascii "class") (appendString r.Class)
      (44 :: memberText (ascii "type") (appendString r.Type_)
      (44 :: memberText (ascii "importance") (sc.FormatFloat x)
      (44 :: memberText (ascii "icon") (appendString r.Icon) (125 :: X)))))))))))))) := rfl
  have e0 := hm
  rw [hm]
  apply parseValue_object (f + 12) d _ _ X hd'
  rw [← hm]
  have hmt : ∀ key venc tail, memberText key venc tail = 34 :: (key ++ 34 :: 58 :: (venc ++ tail)) :=
    fun _ _ _ => rfl
  rw [hmt (ascii "licence"), parseMembers_step_more _ _ _ _ 1 0 (f + 11) (d + 1) k1
      (Enc_number _ (FormatInt_valid _)) (by omega) (by omega),
    ← hmt (ascii "licence"), hmt (ascii "osm_type"),
    parseMembers_step_more _ _ _ _ 1 0 (f + 10) (d + 1) k2 (Enc_string _ u1) (by omega) (by omega),
    ← hmt (ascii "osm_type"), hmt (ascii "osm_id"),
    parseMembers_step_more _ _ _ _ 1 0 (f + 9) (d + 1) k3 (Enc_string _ u2) (by omega) (by omega),
    ← hmt (ascii "osm_id"), hmt (ascii "boundingbox"),
    parseMembers_step_more _ _ _ _ 1 0 (f + 8) (d + 1) k4
      (Enc_number _ (FormatInt_valid _)) (by omega) (by omega),
    ← hmt (ascii "boundingbox"), hmt (ascii "lat"),
    parseMembers_step_more _ _ _ _ _ 1 (f + 7) (d + 1) k5
      (Enc_stringSlice r.Boundingbox u3) (by omega) (by omega),
    ← hmt (ascii "lat"), hmt (ascii "lon"),
    parseMembers_step_more _ _ _ _ 1 0 (f + 6) (d + 1) k6 (Enc_string _ u4) (by omega) (by omega),
    ← hmt (ascii "lon"), hmt (ascii "display_name"),
    parseMembers_step_more _ _ _ _ 1 0 (f + 5) (d + 1) k7 (Enc_string _ u5) (by omega) (by omega),
    ← hmt (ascii "display_name"), hmt (ascii "class"),
    parseMembers_step_more _ _ _ _ 1 0 (f + 4) (d + 1) k8 (Enc_string _ u6) (by omega) (by omega),
    ← hmt (ascii "class"), hmt (ascii "type"),
    parseMembers_step_more _ _ _ _ 1 0 (f + 3) (d + 1) k9 (Enc_string _ u7) (by omega) (by omega),
    ← hmt (ascii "type"), hmt (ascii "importance"),
    parseMembers_step_more _ _ _ _ 1 0 (f + 2) (d + 1) k10 (Enc_string _ u8) (by omega) (by omega),
    ← hmt (ascii "importance"), hmt (ascii "icon"),
    parseMembers_step_more _ _ _ _ 1 0 (f + 1) (d + 1) k11 (Enc_float sc hl x) (by omega) (by omega),
    ← hmt (ascii "icon"),
    parseMembers_step_last _ _ _ _ 1 0 f (d + 1) k12 (Enc_string _ u9) (by omega) (by omega)]
  simp only [Option.map_some', astMembers, hx, astFloat]

/-! ## The decoder on the tree of an encoded record -/

theorem decodeString_raw (s cur : Bytes) (hv : utf8Valid s = true) :
    decodeString (.string (rawString s)) cur = .ok s := by
  simp only [decodeString, rawString, unquote_appendStringAux s hv]

theorem decodeInt_format (n cur : Int64) : decodeInt (.number (FormatInt n.val)) cur = .ok n := by
  simp only [decodeInt, ParseInt_FormatInt]

theorem decodeFloat_format {F : Type} (sc : Strconv F) (hl : sc.Lawful) (x : F)
    (cur : Float64 F) : decodeFloat sc (astFloat sc (.finite x)) cur = .ok (.finite x) := by
  simp only [decodeFloat, astFloat, hl.parse_format]

theorem decodeStringElems_raw (xs : List Bytes) (hv : ∀ s ∈ xs, utf8Valid s = true) :
    decodeStringElems (xs.map (fun s => JSON.string (rawString s))) [] = .ok (xs, []) := by
  induction xs with
  | nil => rfl
  | cons x xs ih =>
    simp only [List.map_cons, decodeStringElems, List.headD_nil, List.tail_nil,
      decodeString_raw x [] (hv x (by simp)), ih (fun s hs => hv s (List.mem_cons_of_mem _ hs))]

theorem decodeStringSlice_ast (xs : Slice Bytes) (hv : ∀ s ∈ xs.getD [], utf8Valid s = true) :
    decodeStringSlice (astStringSlice xs) ⟨none, []⟩ = .ok ⟨xs, []⟩ := by
  cases xs with
  | none => rfl
  | some l =>
    cases l with
    | nil => rfl
    | cons x l =>
      have := decodeStringElems_raw (x :: l) hv
      simp only [List.map_cons] at this
      simp only [astStringSlice, List.map_cons, decodeStringSlice, Option.getD_none,
        List.append_nil, this]

set_option maxRecDepth 100000 in
theorem keys_unquote :
    unquote (ascii "place_id") = some (ascii "place_id")
    ∧ unquote (ascii "licence") = some (ascii "licence")
    ∧ unquote (ascii "osm_type") = some (ascii "osm_type")
    ∧ unquote (ascii "osm_id") = some (ascii "osm_id")
    ∧ unquote (ascii "boundingbox") = some (ascii "boundingbox")
    ∧ unquote (ascii "lat") = some (ascii "lat")
    ∧ unquote (ascii "lon") = some (ascii "lon")
    ∧ unquote (ascii "display_name") = some (ascii "display_name")
    ∧ unquote (ascii "class") = some (ascii "class")
    ∧ unquote (ascii "type") = some (ascii "type")
    ∧ unquote (ascii "importance") = some (ascii "importance")
    ∧ unquote (ascii "icon") = some (ascii "icon") := by
  decide

set_option maxRecDepth 100000 in
theorem keys_find :
    findField (ascii "place_id") = some .PlaceID
    ∧ findField (ascii "licence") = some .Licence
    ∧ findField (ascii "osm_type") = some .OsmType
    ∧ findField (ascii "osm_id") = some .OsmID
    ∧ findField (ascii "boundingbox") = some .Boundingbox
    ∧ findField (ascii "lat") = some .Lat
    ∧ findField (ascii "lon") = some .Lon
    ∧ findField (ascii "display_name") = some .DisplayName
    ∧ findField (ascii "class") = some .Class
    ∧ findField (ascii "type") = some .Type_
    ∧ findField (ascii "importance") = some .Importance
    ∧ findField (ascii "icon") = some .Icon := by
  decide

/-- Decoding the members read from the encoding of a record into the zero value
gives the record back. -/
theorem decodeMembers_ast {F : Type} (sc : Strconv F) (hl : sc.Lawful)
    (r : NominatimResponse F) (x : F) (hx : r.Importance = .finite x) (hu : r.utf8 = true) :
    decodeMembers sc (astMembers sc r) ⟨NominatimResponse.zero sc, []⟩ = .ok ⟨r, []⟩ := by
  obtain ⟨u1, u2, u3, u4, u5, u6, u7, u8, u9⟩ := (utf8_iff r).mp hu
  obtain ⟨k1, k2, k3, k4, k5, k6, k7, k8, k9, k10, k11, k12⟩ := keys_unquote
  obtain ⟨g1, g2, g3, g4, g5, g6, g7, g8, g9, g10, g11, g12⟩ := keys_find
  obtain ⟨a1, a2, a3, a4, a5, a6, a7, a8, a9, a10, a11, a12⟩ := r
  simp only at hx u1 u2 u3 u4 u5 u6 u7 u8 u9
  subst hx
  simp only [astMembers, decodeMembers, k1, k2, k3, k4, k5, k6, k7, k8, k9, k10, k11, k12,
    g1, g2, g3, g4, g5, g6, g7, g8, g9, g10, g11, g12, decodeField, NominatimResponse.zero,
    decodeInt_format, decodeString_raw _ _ u1, decodeString_raw _ _ u2, decodeString_raw _ _ u4,
    decodeString_raw _ _ u5, decodeString_raw _ _ u6, decodeString_raw _ _ u7,
    decodeString_raw _ _ u8, decodeString_raw _ _ u9, decodeFloat_format sc hl,
    decodeStringSlice_ast _ u3, Except.map]

theorem decodeStruct_ast {F : Type} (sc : Strconv F) (hl : sc.Lawful)
    (r : NominatimResponse F) (hf : r.finite = true) (hu : r.utf8 = true) :
    decodeStruct sc (.object (astMembers sc r)) = .ok r := by
  obtain ⟨x, hx⟩ := (finite_iff r).mp hf
  simp only [decodeStruct, decodeMembers_ast sc hl r x hx hu, Except.map]

theorem decodeStructs_ast {F : Type} (sc : Strconv F) (hl : sc.Lawful)
    (rs : List (NominatimResponse F)) (h : ∀ r ∈ rs, r.utf8 = true ∧ r.finite = true) :
    decodeStructs sc (rs.map (fun r => JSON.object (astMembers sc r))) = .ok rs := by
  induction rs with
  | nil => rfl
  | cons r rs ih =>
    simp only [List.map_cons, decodeStructs,
      decodeStruct_ast sc hl r (h r (by simp)).2 (h r (by simp)).1,
      ih (fun x hx => h x (List.mem_cons_of_mem _ hx))]

/-! ## `Unmarshal` after `Marshal` -/

theorem encodeStruct_finite {F : Type} (sc : Strconv F) (r : NominatimResponse F) (x : F)
    (hx : r.Importance = .finite x) :
    encodeStruct sc r = .ok (encStruct sc r) ∧ ∀ X, encStruct sc r ++ X = structText sc r x X := by
  obtain ⟨b, h1, h2⟩ := encodeStruct_eq sc r x hx
  simp only [encStruct, h1]
  exact ⟨trivial, h2⟩

theorem encodeStruct_ok_finite {F : Type} (sc : Strconv F) (r : NominatimResponse F) (b : Bytes)
    (h : encodeStruct sc r = .ok b) : r.finite = true := by
  unfold encodeStruct floatEncoder at h
  unfold NominatimResponse.finite
  cases hI : r.Importance with
  | finite x => rfl
  | inf n => rw [hI] at h; simp at h
  | nan => rw [hI] at h; simp at h

theorem memberText_length (k v t : Bytes) :
    (memberText k v t).length = k.length + v.length + t.length + 3 := by
  simp only [memberText, List.length_cons, List.length_append]; omega

theorem joinComma_length (l : List Bytes) (hne : ∀ x ∈ l, 1 ≤ x.length) :
    l.length ≤ (joinComma l).length ∧ ∀ x ∈ l, x.length ≤ (joinComma l).length := by
  induction l with
  | nil => simp [joinComma]
  | cons a l ih =>
    cases l with
    | nil =>
      have := hne a (by simp)
      simp only [joinComma, List.length_singleton, List.mem_singleton, forall_eq]
      exact ⟨this, le_refl _⟩
    | cons b l =>
      obtain ⟨i1, i2⟩ := ih (fun x hx => hne x (List.mem_cons_of_mem _ hx))
      have ha := hne a (by simp)
      simp only [joinComma, List.length_append, List.length_cons] at i1 i2 ⊢
      refine ⟨by omega, ?_⟩
      intro x hx
      rcases List.mem_cons.mp hx with rfl | hx
      · omega
      · have := i2 x hx; omega

theorem appendString_length (s : Bytes) : 1 ≤ (appendString s).length := by
  simp [appendString]

theorem encodeStringSlice_length (xs : Slice Bytes) :
    (xs.getD []).length ≤ (encodeStringSlice xs).length := by
  cases xs with
  | none => simp
  | some l =>
    have := (joinComma_length (l.map appendString) (by
      intro x hx
      obtain ⟨s, _, rfl⟩ := List.mem_map.mp hx
      exact appendString_length s)).1
    simp only [List.length_map] at this
    simp only [Option.getD_some, encodeStringSlice, encodeStrings_eq, List.length_cons,
      List.length_append, List.length_nil]
    omega

theorem encStruct_length {F : Type} (sc : Strconv F) (r : NominatimResponse F) (x : F)
    (hx : r.Importance = .finite x) :
    (r.Boundingbox.getD []).length + 15 ≤ (encStruct sc r).length := by
  have h := (encodeStruct_finite sc r x hx).2 []
  have hl := encodeStringSlice_length r.Boundingbox
  rw [List.append_nil] at h
  rw [h]
  simp only [structText, List.length_cons, memberText_length]
  omega

/-- The scanner reads the text of a record as its members. -/
theorem Enc_struct {F : Type} (sc : Strconv F) (hl : sc.Lawful) (r : NominatimResponse F)
    (hf : r.finite = true) (hu : r.utf8 = true) (f0 : Nat)
    (h0 : (encStruct sc r).length ≤ f0) :
    Enc (encStruct sc r) (.object (astMembers sc r)) f0 2 := by
  obtain ⟨x, hx⟩ := (finite_iff r).mp hf
  have hlen := encStruct_length sc r x hx
  have htext := (encodeStruct_finite sc r x hx).2
  refine ⟨⟨123, (structText sc r x []).tail, ?_, by decide, by decide⟩, ?_⟩
  · have := htext []
    rw [List.append_nil] at this
    rw [this]; rfl
  · intro f d X hf' hd _
    rw [htext]
    exact parseValue_structText sc hl r x hx hu f d X (by omega) (by omega)

theorem encodeStructs_eq {F : Type} (sc : Strconv F) (rs : List (NominatimResponse F))
    (h : ∀ r ∈ rs, r.finite = true) :
    encodeStructs sc rs = .ok (joinComma (rs.map (encStruct sc))) := by
  induction rs with
  | nil => rfl
  | cons r rs ih =>
    obtain ⟨x, hx⟩ := (finite_iff r).mp (h r (by simp))
    have h1 := (encodeStruct_finite sc r x hx).1
    cases rs with
    | nil => simp only [encodeStructs, h1, List.map_cons, List.map_nil, joinComma]
    | cons r2 rs =>
      have ih' := ih (fun y hy => h y (List.mem_cons_of_mem _ hy))
      simp only [encodeStructs, h1, ih', List.map_cons, joinComma]

theorem encodeStructs_ok_finite {F : Type} (sc : Strconv F) (rs : List (NominatimResponse F)) :
    ∀ b, encodeStructs sc rs = .ok b → ∀ r ∈ rs, r.finite = true := by
  induction rs with
  | nil => intro b _ r hr; simp at hr
  | cons r rs ih =>
    intro b h
    cases rs with
    | nil =>
      simp only [encodeStructs] at h
      intro y hy
      simp only [List.mem_singleton] at hy
      rw [hy]; exact encodeStruct_ok_finite sc r b h
    | cons r2 rs =>
      simp only [encodeStructs] at h
      cases h1 : encodeStruct sc r with
      | error e => rw [h1] at h; simp at h
      | ok b1 =>
        rw [h1] at h
        simp only at h
        cases h2 : encodeStructs sc (r2 :: rs) with
        | error e => rw [h2] at h; simp at h
        | ok b2 =>
          intro y hy
          rcases List.mem_cons.mp hy with rfl | hy
          · exact encodeStruct_ok_finite sc _ b1 h1
          · exact ih b2 h2 y hy

/-- A sequence that `Marshal` accepts has finite importances only. -/
theorem Marshal_ok_finite {F : Type} (sc : Strconv F) (rs : Slice (NominatimResponse F))
    (b : Bytes) (h : Marshal sc rs = .ok b) : allFinite rs = true := by
  cases rs with
  | none => rfl
  | some l =>
    simp only [Marshal] at h
    cases h1 : encodeStructs sc l with
    | error e => rw [h1] at h; simp at h
    | ok bs =>
      simp only [allFinite, Option.getD_some, List.all_eq_true]
      exact encodeStructs_ok_finite sc l bs h1

/-- The function `Marshal` accepts every sequence with finite importances, and
its output is not the empty string. -/
theorem Marshal_finite {F : Type} (sc : Strconv F) (rs : Slice (NominatimResponse F))
    (h : allFinite rs = true) : ∃ b, Marshal sc rs = .ok b ∧ b ≠ [] := by
  cases rs with
  | none => exact ⟨ascii "null", rfl, by decide⟩
  | some l =>
    simp only [allFinite, Option.getD_some, List.all_eq_true] at h
    exact ⟨91 :: (joinComma (l.map (encStruct sc)) ++ [93]),
      by simp only [Marshal, encodeStructs_eq sc l h], by simp⟩

/-- Decoding the encoding of a sequence of records with well-formed strings and
finite importances gives the sequence back. -/
theorem Unmarshal_Marshal {F : Type} (sc : Strconv F) (hl : sc.Lawful)
    (rs : Slice (NominatimResponse F)) (hu : allUTF8 rs = true) (hf : allFinite rs = true) :
    ∃ b, Marshal sc rs = .ok b ∧ b ≠ [] ∧ Unmarshal sc b = .ok rs := by
  cases rs with
  | none => exact ⟨ascii "null", rfl, by decide, rfl⟩
  | some l =>
    simp only [allFinite, allUTF8, Option.getD_some, List.all_eq_true] at hf hu
    refine ⟨91 :: (joinComma (l.map (encStruct sc)) ++ [93]),
      by simp only [Marshal, encodeStructs_eq sc l hf], by simp, ?_⟩
    have hlenAll : ∀ r ∈ l, 1 ≤ (encStruct sc r).length := by
      intro r hr
      obtain ⟨x, hx⟩ := (finite_iff r).mp (hf r hr)
      have := encStruct_length sc r x hx
      omega
    obtain ⟨j1, j2⟩ := joinComma_length (l.map (encStruct sc)) (by
      intro x hx
      obtain ⟨r, hr, rfl⟩ := List.mem_map.mp hx
      exact hlenAll r hr)
    simp only [List.length_map] at j1
    have hE := Enc_array (joinComma (l.map (encStruct sc))).length 2
      (l.map (fun r => (encStruct sc r, JSON.object (astMembers sc r))))
      (by
        intro p hp
        obtain ⟨r, hr, rfl⟩ := List.mem_map.mp hp
        exact Enc_struct sc hl r (hf r hr) (hu r hr) _
          (j2 _ (List.mem_map.mpr ⟨r, hr, rfl⟩)))
    simp only [List.map_map, List.length_map] at hE
    have e1 : (Prod.fst ∘ fun r => (encStruct sc r, JSON.object (astMembers sc r)))
        = encStruct sc := rfl
    have e2 : (Prod.snd ∘ fun r => (encStruct sc r, JSON.object (astMembers sc r)))
        = fun r => JSON.object (astMembers sc r) := rfl
    rw [e1, e2] at hE
    have hp := hE.2 (2 * (91 :: (joinComma (l.map (encStruct sc)) ++ [93])).length + 2) 0 []
      (by simp only [List.length_cons, List.length_append, List.length_nil]; omega)
      (by omega) (Or.inl rfl)
    rw [List.append_nil] at hp
    unfold Unmarshal scanValue
    rw [skipSpace_cons 91 _ (by decide), hp]
    have hs : skipSpace ([] : Bytes) = [] := rfl
    simp only [hs, if_true, decodeData,
      decodeStructs_ast sc hl l (fun r hr => ⟨hu r hr, hf r hr⟩), Except.map]

theorem bitLen_lt (fuel : Nat) : ∀ n, n < 2 ^ fuel → n < 2 ^ bitLen fuel n := by
  induction fuel with
  | zero => intro n h; simpa [bitLen] using h
  | succ fuel ih =>
    intro n h
    rw [bitLen]
    by_cases h0 : n = 0
    · simp [h0]
    · rw [if_neg h0]
      rw [pow_succ] at h
      have := ih (n / 2) (by omega)
      rw [pow_succ]
      omega

theorem bitLen_le (fuel : Nat) : ∀ n, 0 < n → n < 2 ^ fuel → 2 ^ bitLen fuel n ≤ 2 * n := by
  induction fuel with
  | zero => intro n h0 h; simp at h; omega
  | succ fuel ih =>
    intro n h0 h
    rw [bitLen, if_neg (by omega)]
    rw [pow_succ] at h
    by_cases h1 : n / 2 = 0
    · have hn : n = 1 := by omega
      subst hn
      cases fuel with
      | zero => simp [bitLen]
      | succ f => simp [bitLen]
    · have := ih (n / 2) (by omega) (by omega)
      rw [pow_succ]
      omega

theorem lenWords_lt (fuel : Nat) : ∀ n, n ≤ fuel → n < 2 ^ lenWords fuel n := by
  induction fuel with
  | zero =>
    intro n h
    have : n = 0 := by omega
    subst this
    simp [lenWords, bitLen]
  | succ fuel ih =>
    intro n h
    rw [lenWords]
    by_cases h0 : n < 2 ^ 64
    · rw [if_pos h0]; exact bitLen_lt 64 n h0
    · rw [if_neg h0]
      have hq : n / 2 ^ 64 ≤ fuel := by
        have : n / 2 ^ 64 < n := Nat.div_lt_self (by omega) (by norm_num)
        omega
      have := ih (n / 2 ^ 64) hq
      rw [pow_add]
      have hdm := Nat.div_add_mod n (2 ^ 64)
      have hm := Nat.mod_lt n (show 0 < 2 ^ 64 by norm_num)
      have h1 : n / 2 ^ 64 + 1 ≤ 2 ^ lenWords fuel (n / 2 ^ 64) := this
      have h2 := Nat.mul_le_mul_left (2 ^ 64) h1
      have e : 2 ^ 64 * (n / 2 ^ 64 + 1) = 2 ^ 64 * (n / 2 ^ 64) + 2 ^ 64 := by ring
      have e2 : 2 ^ lenWords fuel (n / 2 ^ 64) * 2 ^ 64 = 2 ^ 64 * 2 ^ lenWords fuel (n / 2 ^ 64) := by
        ring
      omega

theorem lenWords_le (fuel : Nat) : ∀ n, 0 < n → n ≤ fuel → 2 ^ lenWords fuel n ≤ 2 * n := by
  induction fuel with
  | zero => intro n h0 h; omega
  | succ fuel ih =>
    intro n h0 h
    rw [lenWords]
    by_cases h1 : n < 2 ^ 64
    · rw [if_pos h1]; exact bitLen_le 64 n h0 h1
    · rw [if_neg h1]
      have hq : n / 2 ^ 64 ≤ fuel := by
        have : n / 2 ^ 64 < n := Nat.div_lt_self (by omega) (by norm_num)
        omega
      have hq0 : 0 < n / 2 ^ 64 := Nat.div_pos (by omega) (by norm_num)
      have := ih (n / 2 ^ 64) hq0 hq
      rw [pow_add]
      have hdm := Nat.div_add_mod n (2 ^ 64)
      have h2 := Nat.mul_le_mul_left (2 ^ 64) this
      have e : 2 ^ 64 * (2 * (n / 2 ^ 64)) = 2 * (2 ^ 64 * (n / 2 ^ 64)) := by ring
      have e2 : 2 ^ lenWords fuel (n / 2 ^ 64) * 2 ^ 64 = 2 ^ 64 * 2 ^ lenWords fuel (n / 2 ^ 64) := by
        ring
      omega

/-- The number of bits of a number between two powers of two. -/
theorem Len_eq (n k : Nat) (h1 : 2 ^ k ≤ n) (h2 : n < 2 ^ (k + 1)) : Len n = k + 1 := by
  have hpos : 0 < n := lt_of_lt_of_le (by positivity) h1
  have a := lenWords_lt n n (le_refl _)
  have b := lenWords_le n n hpos (le_refl _)
  unfold Len
  have c1 : k < lenWords n n := by
    have : 2 ^ k < 2 ^ lenWords n n := lt_of_le_of_lt h1 a
    exact (Nat.pow_lt_pow_iff_right (by norm_num)).mp this
  have c2 : lenWords n n < k + 2 := by
    have : 2 ^ lenWords n n < 2 ^ (k + 2) := by
      have e : 2 ^ (k + 2) = 2 * 2 ^ (k + 1) := by rw [pow_succ]; ring
      rw [e]; omega
    exact (Nat.pow_lt_pow_iff_right (by norm_num)).mp this
  omega

theorem Len_lt (n k : Nat) (h : n < 2 ^ k) : Len n ≤ k := by
  by_cases h0 : n = 0
  · subst h0
    simp [Len, lenWords, bitLen]
  · have b := lenWords_le n n (by omega) (le_refl _)
    unfold Len
    have : 2 ^ lenWords n n < 2 ^ (k + 1) := by
      rw [pow_succ]; omega
    have := (Nat.pow_lt_pow_iff_right (by norm_num)).mp this
    omega

/-- The integer that `roundHalfEven` returns: the one within one half of the
quotient, a distance of exactly one half allowed for an even integer only. -/
theorem roundHalfEven_eq (a b m : Nat) (hb : 0 < b) (hlo : 2 * m * b ≤ 2 * a + b)
    (hhi : 2 * a ≤ 2 * m * b + b)
    (hodd : m % 2 = 1 → 2 * m * b < 2 * a + b ∧ 2 * a < 2 * m * b + b) :
    roundHalfEven a b = m := by
  have hdm := Nat.div_add_mod a b
  have hr := Nat.mod_lt a hb
  set q := a / b with hq
  set r := a % b with hr'
  have hqm : q ≤ m := by
    by_contra hc
    have h1 : m + 1 ≤ q := by omega
    have h2 : b * (m + 1) ≤ b * q := Nat.mul_le_mul_left b h1
    have e1 : 2 * m * b = 2 * (b * m) := by ring
    have e2 : b * (m + 1) = b * m + b := by ring
    omega
  have hmq : m ≤ q + 1 := by
    by_contra hc
    have h1 : q + 2 ≤ m := by omega
    have h2 : b * (q + 2) ≤ b * m := Nat.mul_le_mul_left b h1
    have e1 : 2 * m * b = 2 * (b * m) := by ring
    have e2 : b * (q + 2) = b * q + 2 * b := by ring
    omega
  have e1 : 2 * m * b = 2 * (b * m) := by ring
  unfold roundHalfEven
  rw [← hq, ← hr']
  rcases Nat.lt_or_ge q m with hlt | hge
  · have hm : m = q + 1 := by omega
    have e2 : b * m = b * q + b := by rw [hm]; ring
    have h2r : b ≤ 2 * r := by omega
    rw [if_neg (by omega)]
    by_cases h3 : b < 2 * r
    · rw [if_pos h3]; omega
    · rw [if_neg h3]
      have heq : 2 * r = b := by omega
      have hev : m % 2 = 0 := by
        by_contra ho
        have := (hodd (by omega)).1
        omega
      rw [if_neg (by omega)]; omega
  · have hm : m = q := by omega
    have e2 : b * m = b * q := by rw [hm]
    have h2r : 2 * r ≤ b := by omega
    by_cases h3 : 2 * r < b
    · rw [if_pos h3]; omega
    · rw [if_neg h3, if_neg (by omega)]
      have hev : m % 2 = 0 := by
        by_contra ho
        have := (hodd (by omega)).2
        omega
      rw [if_pos (by omega)]; omega

theorem Finite64.eq_of (x y : Finite64) (h1 : x.neg = y.neg) (h2 : x.expo = y.expo)
    (h3 : x.frac = y.frac) : x = y := by
  cases x; cases y
  simp only at h1 h2 h3
  subst h1; subst h2; subst h3
  rfl

/-- The value of `floatBits` from the exponent and the rounded mantissa that it
computes. -/
theorem floatBits_eq (x : Finite64) (N M s m : Nat)
    (hs : Len (N * 2 ^ 1074 / M) - 53 = s)
    (hm : roundHalfEven (N * 2 ^ 1074) (M * 2 ^ s) = m)
    (hx : (m < 2 ^ 52 ∧ x.expo = 0 ∧ x.frac = m)
      ∨ (2 ^ 52 ≤ m ∧ m < 2 ^ 53 ∧ x.expo = s + 1 ∧ x.frac + 2 ^ 52 = m)
      ∨ (m = 2 ^ 53 ∧ x.expo = s + 2 ∧ x.frac = 0)) :
    floatBits x.neg N M = some x := by
  have hel := x.expo_lt
  have hfl := x.frac_lt
  unfold floatBits
  simp only [hs, hm]
  rcases hx with ⟨h1, h2, h3⟩ | ⟨h1, h2, h3, h4⟩ | ⟨h1, h2, h3⟩
  · have hne : ¬ m = 2 ^ 53 := by omega
    simp only [if_neg hne]
    rw [dif_pos h1]
    exact congrArg some (Finite64.eq_of _ _ rfl (by simp only; omega) (by simp only; omega))
  · have hne : ¬ m = 2 ^ 53 := by omega
    simp only [if_neg hne]
    rw [dif_neg (by omega), dif_pos ⟨by omega, by omega⟩]
    exact congrArg some (Finite64.eq_of _ _ rfl (by simp only; omega) (by simp only; omega))
  · simp only [if_pos h1]
    rw [dif_neg (by omega), dif_pos ⟨by omega, by omega⟩]
    exact congrArg some (Finite64.eq_of _ _ rfl (by simp only; omega) (by simp only; omega))

theorem pred_mul_add (a M : Nat) (h : 0 < a) : (a - 1) * M + M = a * M := by
  obtain ⟨k, rfl⟩ : ∃ k, a = k + 1 := ⟨a - 1, by omega⟩
  simp only [Nat.add_sub_cancel]
  ring

/-- The exponent and the mantissa that `floatBits` computes for a quotient
`A / M` within half a step of `μ * 2 ^ s`, the step below being half as long
where `μ` is the least mantissa of the exponent. -/
theorem round_interval (μ s A M L : Nat) (hM : 0 < M) (hμ0 : 0 < μ) (hμ1 : μ < 2 ^ 53)
    (hμ2 : 2 ^ 52 ≤ μ ∨ s = 0)
    (hL : L = if 2 ^ 52 < μ ∨ s = 0 then (2 * μ - 1) * 2 ^ s else (4 * μ - 1) * 2 ^ (s - 1))
    (hlo : L * M ≤ 2 * A) (hlo' : μ % 2 = 1 → L * M < 2 * A)
    (hhi : 2 * A ≤ (2 * μ + 1) * 2 ^ s * M) (hhi' : μ % 2 = 1 → 2 * A < (2 * μ + 1) * 2 ^ s * M) :
    ∃ s' m, Len (A / M) - 53 = s' ∧ roundHalfEven A (M * 2 ^ s') = m
      ∧ ((m = μ ∧ s' = s) ∨ (m = 2 ^ 53 ∧ μ = 2 ^ 52 ∧ s' + 1 = s)) := by
  have hP : 0 < 2 ^ s := by positivity
  set P := 2 ^ s with hPdef
  have hb : 0 < M * P := Nat.mul_pos hM hP
  have eU : (2 * μ + 1) * P * M = 2 * μ * (M * P) + M * P := by ring
  rw [eU] at hhi hhi'
  by_cases hbin : 2 ^ 52 * (M * P) ≤ A
  · -- the quotient has the exponent of μ * 2 ^ s, or is denormal
    have hup : A < 2 ^ 53 * (M * P) := by
      have : 2 * μ * (M * P) + M * P ≤ (2 ^ 54 - 1) * (M * P) := by
        have h1 : 2 * μ + 1 ≤ 2 ^ 54 - 1 := by omega
        have := Nat.mul_le_mul_right (M * P) h1
        have e : (2 * μ + 1) * (M * P) = 2 * μ * (M * P) + M * P := by ring
        omega
      have e2 : (2 ^ 54 - 1) * (M * P) + M * P = 2 ^ 54 * (M * P) := pred_mul_add _ _ (by norm_num)
      have e3 : 2 ^ 54 * (M * P) = 2 * (2 ^ 53 * (M * P)) := by ring
      omega
    have hlen : Len (A / M) = 53 + s := by
      have e : 53 + s = (52 + s) + 1 := by omega
      rw [e]
      apply Len_eq
      · rw [Nat.le_div_iff_mul_le hM]
        have : 2 ^ (52 + s) * M = 2 ^ 52 * (M * P) := by rw [pow_add, hPdef]; ring
        omega
      · rw [Nat.div_lt_iff_lt_mul hM]
        have : 2 ^ (52 + s + 1) * M = 2 ^ 53 * (M * P) := by
          rw [show 52 + s + 1 = 53 + s by omega, pow_add, hPdef]; ring
        omega
    refine ⟨s, μ, by omega, ?_, Or.inl ⟨rfl, rfl⟩⟩
    have hLle : 2 * μ * (M * P) ≤ 2 * A + M * P
        ∧ (μ % 2 = 1 → 2 * μ * (M * P) < 2 * A + M * P) := by
      by_cases hc : 2 ^ 52 < μ ∨ s = 0
      · rw [if_pos hc] at hL
        have : (2 * μ - 1) * (M * P) + M * P = 2 * μ * (M * P) := pred_mul_add _ _ (by omega)
        have e : L * M = (2 * μ - 1) * (M * P) := by rw [hL]; ring
        refine ⟨by omega, fun ho => ?_⟩
        have := hlo' ho
        omega
      · have hμ : μ = 2 ^ 52 := by omega
        have e : 2 * μ * (M * P) = 2 * (2 ^ 52 * (M * P)) := by rw [hμ]; ring
        exact ⟨by omega, fun _ => by omega⟩
    apply roundHalfEven_eq A (M * P) μ hb
    · exact hLle.1
    · exact hhi
    · intro ho
      exact ⟨hLle.2 ho, hhi' ho⟩
  · -- the quotient is below the least mantissa of the exponent
    have hbin' : A < 2 ^ 52 * (M * P) := by omega
    by_cases hs0 : s = 0
    · -- no exponent below: the quotient is within half a step of μ
      have hP1 : P = 1 := by rw [hPdef, hs0]; rfl
      rw [if_pos (Or.inr hs0)] at hL
      have e0 : L * M + M * P = 2 * μ * (M * P) := by
        have := pred_mul_add (2 * μ) (M * P) (by omega)
        have e : L * M = (2 * μ - 1) * (M * P) := by rw [hL]; ring
        omega
      have hlen : Len (A / M) ≤ 53 := by
        apply Len_lt
        rw [Nat.div_lt_iff_lt_mul hM]
        have : 2 ^ 53 * M = 2 * (2 ^ 52 * (M * P)) := by rw [hP1]; ring
        omega
      refine ⟨0, μ, by omega, ?_, Or.inl ⟨rfl, hs0.symm⟩⟩
      have e1 : M * 2 ^ 0 = M * P := by rw [hP1]; rfl
      rw [e1]
      apply roundHalfEven_eq A (M * P) μ hb
      · omega
      · exact hhi
      · intro ho
        have := hlo' ho
        exact ⟨by omega, hhi' ho⟩
    · -- the exponent below: the mantissa rounds up to 2 ^ 53
      have hμ : μ = 2 ^ 52 := by
        by_contra hne
        have hgt : 2 ^ 52 < μ := by omega
        rw [if_pos (Or.inl hgt)] at hL
        have e : L * M = (2 * μ - 1) * (M * P) := by rw [hL]; ring
        have h1 : 2 ^ 53 + 1 ≤ 2 * μ - 1 := by omega
        have := Nat.mul_le_mul_right (M * P) h1
        have e2 : (2 ^ 53 + 1) * (M * P) = 2 * (2 ^ 52 * (M * P)) + M * P := by ring
        omega
      obtain ⟨k, hk⟩ : ∃ k, s = k + 1 := ⟨s - 1, by omega⟩
      have hc : ¬ (2 ^ 52 < μ ∨ s = 0) := by omega
      rw [if_neg hc, hk, Nat.add_sub_cancel] at hL
      set Q := 2 ^ k with hQdef
      have hPQ : P = 2 * Q := by rw [hPdef, hk, pow_succ, hQdef]; ring
      have hQ : 0 < M * Q := Nat.mul_pos hM (by positivity)
      have eL : L * M + M * Q = 2 ^ 54 * (M * Q) := by
        have := pred_mul_add (2 ^ 54) (M * Q) (by norm_num)
        have e : L * M = (2 ^ 54 - 1) * (M * Q) := by rw [hL, hμ]; ring
        omega
      have eA : 2 ^ 52 * (M * P) = 2 ^ 53 * (M * Q) := by rw [hPQ]; ring
      have hlen : Len (A / M) = 53 + k := by
        have e : 53 + k = (52 + k) + 1 := by omega
        rw [e]
        apply Len_eq
        · rw [Nat.le_div_iff_mul_le hM]
          have : 2 ^ (52 + k) * M = 2 ^ 52 * (M * Q) := by rw [pow_add, hQdef]; ring
          have e3 : 2 ^ 54 * (M * Q) = 4 * (2 ^ 52 * (M * Q)) := by ring
          omega
        · rw [Nat.div_lt_iff_lt_mul hM]
          have : 2 ^ (52 + k + 1) * M = 2 ^ 53 * (M * Q) := by
            rw [show 52 + k + 1 = 53 + k by omega, pow_add, hQdef]; ring
          omega
      refine ⟨k, 2 ^ 53, by omega, ?_, Or.inr ⟨rfl, hμ, by omega⟩⟩
      apply roundHalfEven_eq A (M * Q) (2 ^ 53) hQ
      · have e3 : 2 * 2 ^ 53 * (M * Q) = 2 ^ 54 * (M * Q) := by ring
        omega
      · have e3 : 2 * 2 ^ 53 * (M * Q) = 2 * (2 ^ 53 * (M * Q)) := by ring
        omega
      · intro ho
        exact absurd ho (by norm_num)

theorem Finite64.mant_lt (x : Finite64) : x.mant < 2 ^ 53 := by
  have := x.frac_lt
  unfold Finite64.mant
  split <;> omega

theorem Finite64.mant_shift (x : Finite64) : 2 ^ 52 ≤ x.mant ∨ x.shift = 0 := by
  unfold Finite64.mant Finite64.shift
  by_cases h : x.expo = 0
  · right; omega
  · left; rw [if_neg h]; omega

/-- A decimal within the bounds of `x` is read as `x`: `floatBits` rounds every
quotient `N / M` that is equal to `c / 10 ^ 1075` for a `c` between
`x.lower` and `x.upper` to `x`.  A bound itself is read as `x` when the mantissa
of `x` is even. -/
theorem floatBits_interval (x : Finite64) (N M c : Nat) (hM : 0 < M) (hx : x.mant ≠ 0)
    (hc : N * 10 ^ 1075 = c * M)
    (hlo : x.lower < c ∨ (x.mant % 2 = 0 ∧ x.lower = c))
    (hhi : c < x.upper ∨ (x.mant % 2 = 0 ∧ c = x.upper)) :
    floatBits x.neg N M = some x := by
  have h5 : 0 < 5 ^ 1075 := by positivity
  have hA : N * 10 ^ 1075 = 2 * (N * 2 ^ 1074) * 5 ^ 1075 := by
    rw [show (10 : Nat) = 2 * 5 by rfl, mul_pow, show 1075 = 1074 + 1 by rfl, pow_succ 2 1074]
    ring
  have hlow : ∃ L, L = (if 2 ^ 52 < x.mant ∨ x.shift = 0 then (2 * x.mant - 1) * 2 ^ x.shift
      else (4 * x.mant - 1) * 2 ^ (x.shift - 1)) ∧ x.lower = L * 5 ^ 1075 := by
    refine ⟨_, rfl, ?_⟩
    unfold Finite64.lower
    split <;> rfl
  obtain ⟨L, hL, hLx⟩ := hlow
  have hU : x.upper = (2 * x.mant + 1) * 2 ^ x.shift * 5 ^ 1075 := rfl
  have key1 : L * M * 5 ^ 1075 = x.lower * M := by rw [hLx]; ring
  have key2 : (2 * x.mant + 1) * 2 ^ x.shift * M * 5 ^ 1075 = x.upper * M := by rw [hU]; ring
  have key3 : 2 * (N * 2 ^ 1074) * 5 ^ 1075 = c * M := by rw [← hA]; exact hc
  have h1 : L * M ≤ 2 * (N * 2 ^ 1074) := by
    apply Nat.le_of_mul_le_mul_right _ h5
    rw [key1, key3]
    apply Nat.mul_le_mul_right
    rcases hlo with h | ⟨_, h⟩ <;> omega
  have h1' : x.mant % 2 = 1 → L * M < 2 * (N * 2 ^ 1074) := by
    intro ho
    apply Nat.lt_of_mul_lt_mul_right (a := 5 ^ 1075)
    rw [key1, key3]
    apply Nat.mul_lt_mul_of_pos_right _ hM
    rcases hlo with h | ⟨h, _⟩
    · exact h
    · omega
  have h2 : 2 * (N * 2 ^ 1074) ≤ (2 * x.mant + 1) * 2 ^ x.shift * M := by
    apply Nat.le_of_mul_le_mul_right _ h5
    rw [key2, key3]
    apply Nat.mul_le_mul_right
    rcases hhi with h | ⟨_, h⟩ <;> omega
  have h2' : x.mant % 2 = 1 → 2 * (N * 2 ^ 1074) < (2 * x.mant + 1) * 2 ^ x.shift * M := by
    intro ho
    apply Nat.lt_of_mul_lt_mul_right (a := 5 ^ 1075)
    rw [key2, key3]
    apply Nat.mul_lt_mul_of_pos_right _ hM
    rcases hhi with h | ⟨h, _⟩
    · exact h
    · omega
  obtain ⟨s', m, e1, e2, e3⟩ := round_interval x.mant x.shift (N * 2 ^ 1074) M L hM
    (by omega) x.mant_lt x.mant_shift hL h1 h1' h2 h2'
  apply floatBits_eq x N M s' m e1 e2
  have hf := x.frac_lt
  have hmant : x.mant = if x.expo = 0 then x.frac else 2 ^ 52 + x.frac := rfl
  have hshift : x.shift = x.expo - 1 := rfl
  by_cases he : x.expo = 0
  · rw [if_pos he] at hmant
    rcases e3 with ⟨h, h'⟩ | ⟨_, h, _⟩
    · left; omega
    · omega
  · rw [if_neg he] at hmant
    rcases e3 with ⟨h, h'⟩ | ⟨h, h', h''⟩
    · right; left; omega
    · right; right; omega

/-- The decimal zero is read as the zero of its sign. -/
theorem floatBits_zero (neg : Bool) (M : Nat) :
    floatBits neg 0 M = some ⟨neg, 0, 0, by decide, by decide⟩ := by
  have h := floatBits_eq ⟨neg, 0, 0, by decide, by decide⟩ 0 M 0 0
    (by rw [Nat.zero_mul, Nat.zero_div]; rfl)
    (by rw [Nat.zero_mul]; unfold roundHalfEven; simp only [Nat.zero_mod, Nat.zero_div]; split <;> simp)
    (Or.inl ⟨by norm_num, rfl, rfl⟩)
  exact h

theorem formatBits_append (fuel n : Nat) (h : n < fuel) (acc : Bytes) :
    formatBits fuel n acc = formatBits fuel n [] ++ acc := by
  obtain ⟨ds, h1, _⟩ := formatBits_spec fuel n h
  rw [h1 acc, h1 [], List.append_nil]

theorem formatBits_pow (fuel : Nat) : ∀ n, n < fuel →
    0 < (formatBits fuel n []).length ∧ n < 10 ^ (formatBits fuel n []).length
      ∧ (0 < n → 10 ^ ((formatBits fuel n []).length - 1) ≤ n) := by
  induction fuel with
  | zero => intro n h; omega
  | succ fuel ih =>
    intro n h
    by_cases h10 : n < 10
    · have e : formatBits (fuel + 1) n [] = [toByte (48 + n)] := by simp [formatBits, h10]
      rw [e]
      simp only [List.length_singleton, pow_one, Nat.sub_self, pow_zero]
      omega
    · have e : formatBits (fuel + 1) n [] = formatBits fuel (n / 10) [] ++ [toByte (48 + n % 10)] := by
        rw [formatBits, if_neg h10, formatBits_append fuel (n / 10) (by omega)]
      obtain ⟨i0, i1, i2⟩ := ih (n / 10) (by omega)
      have i3 := i2 (by omega)
      rw [e]
      simp only [List.length_append, List.length_singleton, Nat.add_sub_cancel]
      refine ⟨by omega, ?_, fun _ => ?_⟩
      · rw [pow_succ]; omega
      · obtain ⟨k, hk⟩ : ∃ k, (formatBits fuel (n / 10) []).length = k + 1 :=
          ⟨(formatBits fuel (n / 10) []).length - 1, by omega⟩
        rw [hk, Nat.add_sub_cancel] at i3
        rw [hk, pow_succ]
        omega

/-- The number of decimal digits of `n` lies between the powers of ten. -/
theorem decimalLen_spec (n : Nat) (h : 0 < n) :
    0 < decimalLen n ∧ 10 ^ (decimalLen n - 1) ≤ n ∧ n < 10 ^ decimalLen n := by
  obtain ⟨a, b, c⟩ := formatBits_pow (n + 1) n (by omega)
  exact ⟨a, c h, b⟩

theorem roundHalfEven_cases (a b : Nat) :
    roundHalfEven a b = a / b ∨ roundHalfEven a b = a / b + 1 := by
  unfold roundHalfEven
  split
  · left; rfl
  · split
    · right; rfl
    · split
      · left; rfl
      · right; rfl

/-- The decimal that `roundShortest` returns lies within the bounds. -/
theorem roundShortest_bounds (lower d upper : Nat) (inclusive : Bool) (h1 : lower < d)
    (h2 : d < upper) : ∀ j,
    (lower < (roundShortest lower d upper inclusive j).1 * 10 ^ (roundShortest lower d upper inclusive j).2
      ∨ (inclusive = true ∧ lower
          = (roundShortest lower d upper inclusive j).1 * 10 ^ (roundShortest lower d upper inclusive j).2))
    ∧ ((roundShortest lower d upper inclusive j).1 * 10 ^ (roundShortest lower d upper inclusive j).2 < upper
      ∨ (inclusive = true ∧
          (roundShortest lower d upper inclusive j).1 * 10 ^ (roundShortest lower d upper inclusive j).2
            = upper)) := by
  intro j
  induction j with
  | zero =>
    simp only [roundShortest, pow_zero, mul_one]
    exact ⟨Or.inl h1, Or.inl h2⟩
  | succ j ih =>
    have hp : 0 < 10 ^ (j + 1) := by positivity
    have hdown : d / 10 ^ (j + 1) * 10 ^ (j + 1) ≤ d := Nat.div_mul_le_self d _
    have hup : d < (d / 10 ^ (j + 1) + 1) * 10 ^ (j + 1) := by
      have := Nat.lt_mul_div_succ d hp
      rw [Nat.mul_comm] at this
      exact this
    rw [roundShortest]
    split
    · rename_i hb
      dsimp only
      rcases roundHalfEven_cases d (10 ^ (j + 1)) with e | e
      · rw [e]
        exact ⟨hb.1, Or.inl (by omega)⟩
      · rw [e]
        exact ⟨Or.inl (by omega), hb.2⟩
    · split
      · rename_i _ hb
        dsimp only
        exact ⟨hb, Or.inl (by omega)⟩
      · split
        · rename_i _ _ hb
          dsimp only
          exact ⟨Or.inl (by omega), hb⟩
        · exact ih

theorem trimZeros_spec (fuel : Nat) : ∀ k,
    (trimZeros fuel k).1 * 10 ^ (trimZeros fuel k).2 = k ∧ (0 < k → 0 < (trimZeros fuel k).1) := by
  induction fuel with
  | zero => intro k; simp [trimZeros]
  | succ fuel ih =>
    intro k
    rw [trimZeros]
    split
    · rename_i h
      obtain ⟨a, b⟩ := ih (k / 10)
      simp only
      refine ⟨?_, fun hk => b (by omega)⟩
      rw [pow_succ, ← Nat.mul_assoc, a]
      omega
    · simp

theorem Finite64.shift_le (x : Finite64) : x.shift ≤ 2045 := by
  have := x.expo_lt
  unfold Finite64.shift
  omega

/-- The value lies strictly between its bounds. -/
theorem Finite64.lower_lt (x : Finite64) (hx : x.mant ≠ 0) :
    x.lower < x.scaled ∧ x.scaled < x.upper := by
  have h5 : 0 < 5 ^ 1075 := by positivity
  have hP : 0 < 2 ^ x.shift := by positivity
  unfold Finite64.lower Finite64.scaled Finite64.upper
  constructor
  · split
    · apply Nat.mul_lt_mul_of_pos_right _ h5
      apply Nat.mul_lt_mul_of_pos_right _ hP
      omega
    · rename_i hc
      obtain ⟨k, hk⟩ : ∃ k, x.shift = k + 1 := ⟨x.shift - 1, by omega⟩
      rw [hk, Nat.add_sub_cancel]
      apply Nat.mul_lt_mul_of_pos_right _ h5
      have hQ : 0 < 2 ^ k := by positivity
      have e : 2 * x.mant * 2 ^ (k + 1) = 4 * x.mant * 2 ^ k := by rw [pow_succ]; ring
      rw [e]
      apply Nat.mul_lt_mul_of_pos_right _ hQ
      omega
  · apply Nat.mul_lt_mul_of_pos_right _ h5
    apply Nat.mul_lt_mul_of_pos_right _ hP
    omega

set_option exponentiation.threshold 3000 in
theorem pow_five_ge : 10 ^ 751 ≤ 5 ^ 1075 := by norm_num

set_option exponentiation.threshold 3000 in
theorem pow_two_lt : 2 ^ 54 * 2 ^ 2045 * 5 ^ 1075 < 10 ^ 1384 := by norm_num

theorem Finite64.lower_ge (x : Finite64) (hx : x.mant ≠ 0) : 10 ^ 751 ≤ x.lower := by
  have h5 : 0 < 5 ^ 1075 := by positivity
  refine le_trans pow_five_ge ?_
  unfold Finite64.lower
  split
  · have h1 : 1 ≤ (2 * x.mant - 1) * 2 ^ x.shift :=
      Nat.mul_pos (by omega) (by positivity)
    calc 5 ^ 1075 = 1 * 5 ^ 1075 := by rw [one_mul]
      _ ≤ _ := Nat.mul_le_mul_right _ h1
  · have h1 : 1 ≤ (4 * x.mant - 1) * 2 ^ (x.shift - 1) :=
      Nat.mul_pos (by omega) (by positivity)
    calc 5 ^ 1075 = 1 * 5 ^ 1075 := by rw [one_mul]
      _ ≤ _ := Nat.mul_le_mul_right _ h1

set_option exponentiation.threshold 3000 in
theorem Finite64.upper_lt (x : Finite64) : x.upper < 10 ^ 1384 := by
  refine lt_of_le_of_lt ?_ pow_two_lt
  unfold Finite64.upper
  apply Nat.mul_le_mul_right
  apply Nat.mul_le_mul
  · have := x.mant_lt; omega
  · exact Nat.pow_le_pow_right (by decide) x.shift_le

/-- What `shortest` returns for a value other than zero: the digits of a number
`k` and the position of the decimal point for the decimal `k * 10 ^ w` in units
of `10 ^ (-1075)`, which lies within the bounds of `x`. -/
theorem shortest_spec (x : Finite64) (hx : x.mant ≠ 0) :
    ∃ k w : Nat, 0 < k ∧ (shortest x).1 = formatBits (k + 1) k []
      ∧ (shortest x).2 = ((decimalLen k + w : Nat) : Int) - 1075
      ∧ (x.lower < k * 10 ^ w ∨ (x.mant % 2 = 0 ∧ x.lower = k * 10 ^ w))
      ∧ (k * 10 ^ w < x.upper ∨ (x.mant % 2 = 0 ∧ k * 10 ^ w = x.upper))
      ∧ 752 ≤ decimalLen k + w ∧ decimalLen k + w ≤ 1384 := by
  obtain ⟨hl, hu⟩ := x.lower_lt hx
  have hb := roundShortest_bounds x.lower x.scaled x.upper (decide (x.mant % 2 = 0)) hl hu
    (Len x.upper / 3 + 1)
  set r := roundShortest x.lower x.scaled x.upper (decide (x.mant % 2 = 0)) (Len x.upper / 3 + 1)
    with hr
  obtain ⟨ht1, ht2⟩ := trimZeros_spec r.1 r.1
  have hlow := x.lower_ge hx
  have hupp := x.upper_lt
  have hc : (trimZeros r.1 r.1).1 * 10 ^ ((trimZeros r.1 r.1).2 + r.2) = r.1 * 10 ^ r.2 := by
    rw [pow_add, ← Nat.mul_assoc, ht1]
  have hpos : 0 < r.1 * 10 ^ r.2 := by
    have : 0 < 10 ^ 751 := by positivity
    rcases hb.1 with h | ⟨_, h⟩ <;> omega
  have hr1 : 0 < r.1 := Nat.pos_of_ne_zero (fun h => by rw [h, Nat.zero_mul] at hpos; omega)
  have hk := ht2 hr1
  simp only [decide_eq_true_eq] at hb
  refine ⟨(trimZeros r.1 r.1).1, (trimZeros r.1 r.1).2 + r.2, hk, ?_, ?_, ?_, ?_, ?_, ?_⟩
  · unfold shortest
    rw [if_neg hx]
  · unfold shortest
    rw [if_neg hx]
    show (((formatBits ((trimZeros r.1 r.1).1 + 1) (trimZeros r.1 r.1).1 []).length
      + (trimZeros r.1 r.1).2 + r.2 : Nat) : Int) - 1075 = _
    rw [Nat.add_assoc]
    rfl
  · rw [hc]; exact hb.1
  · rw [hc]; exact hb.2
  · obtain ⟨_, _, d3⟩ := decimalLen_spec _ hk
    have hlt : 10 ^ 751 < 10 ^ (decimalLen (trimZeros r.1 r.1).1 + ((trimZeros r.1 r.1).2 + r.2)) := by
      rw [pow_add]
      have h1 : (trimZeros r.1 r.1).1 * 10 ^ ((trimZeros r.1 r.1).2 + r.2)
          < 10 ^ decimalLen (trimZeros r.1 r.1).1 * 10 ^ ((trimZeros r.1 r.1).2 + r.2) :=
        Nat.mul_lt_mul_of_pos_right d3 (by positivity)
      rw [hc] at h1
      rcases hb.1 with h | ⟨_, h⟩ <;> omega
    have := (Nat.pow_lt_pow_iff_right (by norm_num)).mp hlt
    omega
  · obtain ⟨d1, d2, _⟩ := decimalLen_spec _ hk
    have hlt : 10 ^ (decimalLen (trimZeros r.1 r.1).1 - 1 + ((trimZeros r.1 r.1).2 + r.2)) < 10 ^ 1384 := by
      rw [pow_add]
      have h1 : 10 ^ (decimalLen (trimZeros r.1 r.1).1 - 1) * 10 ^ ((trimZeros r.1 r.1).2 + r.2)
          ≤ (trimZeros r.1 r.1).1 * 10 ^ ((trimZeros r.1 r.1).2 + r.2) :=
        Nat.mul_le_mul_right _ d2
      rw [hc] at h1
      rcases hb.2 with h | ⟨_, h⟩ <;> omega
    have := (Nat.pow_lt_pow_iff_right (by norm_num)).mp hlt
    omega

theorem digitsVal_append (a b : Bytes) (acc : Nat) :
    digitsVal (a ++ b) acc = digitsVal b (digitsVal a acc) := by
  simp [digitsVal, List.foldl_append]

theorem digitsVal_cons (c : Byte) (ds : Bytes) (acc : Nat) :
    digitsVal (c :: ds) acc = digitsVal ds (acc * 10 + (c.val - 48)) := rfl

theorem digitsVal_zeros (n : Nat) : ∀ acc, digitsVal (List.replicate n 48) acc = acc * 10 ^ n := by
  induction n with
  | zero => intro acc; simp [digitsVal]
  | succ n ih =>
    intro acc
    rw [List.replicate_succ, digitsVal_cons, ih]
    have : ((48 : Byte).val) = 48 := rfl
    rw [this, pow_succ]
    ring

theorem digitsVal_acc (ds : Bytes) : ∀ acc,
    digitsVal ds acc = acc * 10 ^ ds.length + digitsVal ds 0 := by
  induction ds with
  | nil => intro acc; simp [digitsVal]
  | cons c ds ih =>
    intro acc
    rw [digitsVal_cons, digitsVal_cons, ih, ih (0 * 10 + (c.val - 48))]
    simp only [List.length_cons, pow_succ]
    ring

theorem parseDigits_digitsVal (ds : Bytes) (hd : ∀ c ∈ ds, isDigit c = true) : ∀ acc,
    parseDigits acc ds = some (digitsVal ds acc) := by
  induction ds with
  | nil => intro acc; rw [parseDigits_nil]; rfl
  | cons c ds ih =>
    intro acc
    rw [parseDigits_cons acc c ds ((isDigit_iff c).mp (hd c (by simp))), digitsVal_cons]
    exact ih (fun x hx => hd x (List.mem_cons_of_mem _ hx)) _

/-- The digits of `k` denote `k`. -/
theorem digitsVal_format (k : Nat) :
    (∀ c ∈ formatBits (k + 1) k [], isDigit c = true)
      ∧ digitsVal (formatBits (k + 1) k []) 0 = k
      ∧ formatBits (k + 1) k [] ≠ []
      ∧ (k ≠ 0 → ∀ c ∈ (formatBits (k + 1) k []).head?, c ≠ 48)
      ∧ (formatBits (k + 1) k []).length = decimalLen k := by
  obtain ⟨ds, h1, h2, h3, h4, h5, _⟩ := formatBits_spec (k + 1) k (by omega)
  have e : formatBits (k + 1) k [] = ds := by rw [h1 [], List.append_nil]
  rw [e]
  refine ⟨h3, ?_, h2, h5, by rw [decimalLen, e]⟩
  have := h4 0 []
  rw [List.append_nil, parseDigits_digitsVal ds h3, parseDigits_nil] at this
  simp only [zero_mul, zero_add, Option.some.injEq] at this
  exact this

theorem noDigit_nil : NoDigit [] := by
  intro c hc
  simp at hc

theorem noDigit_cons (c : Byte) (r : Bytes) (h : isDigit c = false) : NoDigit (c :: r) := by
  intro x hx
  simp only [List.head?_cons, Option.mem_def, Option.some.injEq] at hx
  rw [← hx]; exact h

theorem readDigits_append (ds : Bytes) (hd : ∀ c ∈ ds, isDigit c = true) (rest : Bytes)
    (hr : NoDigit rest) : ∀ acc n,
    readDigits acc n (ds ++ rest) = (digitsVal ds acc, n + ds.length, rest) := by
  induction ds with
  | nil =>
    intro acc n
    cases rest with
    | nil => rfl
    | cons c r =>
      have : isDigit c = false := hr c (by simp)
      simp [readDigits, this, digitsVal]
  | cons c ds ih =>
    intro acc n
    have hc : isDigit c = true := hd c (by simp)
    rw [List.cons_append, readDigits, if_pos hc, ih (fun x hx => hd x (List.mem_cons_of_mem _ hx)),
      digitsVal_cons, List.length_cons]
    congr 2
    omega

theorem readSign_minus (r : Bytes) : readSign (45 :: r) = (true, r) := rfl

theorem readSign_digit (c : Byte) (r : Bytes) (h : isDigit c = true) :
    readSign (c :: r) = (false, c :: r) := by
  have h2 := (isDigit_iff c).mp h
  have h43 : c ≠ 43 := by intro e; rw [e] at h2; revert h2; decide
  have h45 : c ≠ 45 := by intro e; rw [e] at h2; revert h2; decide
  simp [readSign, h43, h45]

/-- The mantissa of a literal without a fraction. -/
theorem readMantissa_int (I rest : Bytes) (hI : ∀ c ∈ I, isDigit c = true) (hr : NoDigit rest)
    (hp : ∀ c ∈ rest.head?, c ≠ 46) :
    readMantissa (I ++ rest) = (digitsVal I 0, I.length, 0, rest) := by
  unfold readMantissa
  rw [readDigits_append I hI rest hr]
  cases rest with
  | nil => simp
  | cons c r =>
    have : c ≠ 46 := hp c (by simp)
    simp [this]

/-- The mantissa of a literal with a fraction. -/
theorem readMantissa_frac (I F rest : Bytes) (hI : ∀ c ∈ I, isDigit c = true)
    (hF : ∀ c ∈ F, isDigit c = true) (hr : NoDigit rest) :
    readMantissa (I ++ 46 :: (F ++ rest))
      = (digitsVal (I ++ F) 0, I.length + F.length, F.length, rest) := by
  unfold readMantissa
  rw [readDigits_append I hI (46 :: (F ++ rest)) (noDigit_cons 46 _ (by decide))]
  simp only [if_true, zero_add]
  rw [readDigits_append F hF rest hr, digitsVal_append]
  simp

theorem readExponent_expPart (e : Option (Bool × Bytes)) (ev : Int) (h : ExpOK e ev) :
    readExponent (expPart e) = some ev := by
  cases e with
  | none =>
    simp only [ExpOK] at h
    rw [h]; rfl
  | some p =>
    obtain ⟨neg, X⟩ := p
    obtain ⟨h1, h2, v, h3, h4⟩ := h
    cases X with
    | nil => exact absurd rfl h1
    | cons c2 r2 =>
      have hc2 : isDigit c2 = true := h2 c2 (by simp)
      have hs : readSign ((if neg then (45 : Byte) else 43) :: c2 :: r2) = (neg, c2 :: r2) := by
        cases neg <;> rfl
      simp only [expPart, readExponent, true_or, if_true, hs, hc2, h3, h4]

theorem expPart_noDigit (e : Option (Bool × Bytes)) :
    NoDigit (expPart e) ∧ ∀ c ∈ (expPart e).head?, c ≠ 46 := by
  cases e with
  | none => exact ⟨noDigit_nil, fun c hc => by simp [expPart] at hc⟩
  | some p =>
    refine ⟨noDigit_cons 101 _ (by decide), fun c hc => ?_⟩
    simp only [expPart, List.head?_cons, Option.mem_def, Option.some.injEq] at hc
    rw [← hc]; decide

/-- What `readFloat` reads from a literal: the sign, the digits of the integer
part and of the fraction as one number, and the exponent less the number of
digits of the fraction. -/
theorem readFloat_numText (neg : Bool) (I F : Bytes) (e : Option (Bool × Bytes)) (ev : Int)
    (hI : I ≠ []) (hId : ∀ c ∈ I, isDigit c = true) (hFd : ∀ c ∈ F, isDigit c = true)
    (he : ExpOK e ev) :
    readFloat (numText neg I F e) = some (neg, digitsVal (I ++ F) 0, ev - (F.length : Int)) := by
  have hsign : readSign (numText neg I F e) = (neg, I ++ (fracPart F ++ expPart e)) := by
    cases neg with
    | true => rfl
    | false =>
      cases I with
      | nil => exact absurd rfl hI
      | cons c I' => exact readSign_digit c _ (hId c (by simp))
  obtain ⟨hn, hp⟩ := expPart_noDigit e
  have hex := readExponent_expPart e ev he
  have hlen : 0 < I.length := List.length_pos.mpr hI
  unfold readFloat
  rw [hsign]
  by_cases hF : F = []
  · subst hF
    have e1 : fracPart [] ++ expPart e = expPart e := rfl
    rw [e1, readMantissa_int I (expPart e) hId hn hp]
    simp only [hex, List.append_nil, List.length_nil]
    rw [if_neg (by omega)]
  · have e1 : I ++ (fracPart F ++ expPart e) = I ++ 46 :: (F ++ expPart e) := by
      simp [fracPart, hF]
    rw [e1, readMantissa_frac I F (expPart e) hId hFd hn]
    simp only [hex]
    rw [if_neg (by omega)]

theorem scanNumber_digits (st : NumState) (hst : st = .int ∨ st = .frac ∨ st = .exp)
    (ds : Bytes) (hd : ∀ c ∈ ds, isDigit c = true) (rest : Bytes) :
    scanNumber st (ds ++ rest) = (scanNumber st rest).map (fun p => (ds ++ p.1, p.2)) := by
  induction ds with
  | nil => simp
  | cons c ds ih =>
    have hc : isDigit c = true := hd c (by simp)
    have hs : numStep st c = some st := by
      rcases hst with h | h | h <;> subst h <;> simp [numStep, hc]
    rw [List.cons_append, scanNumber_cons_some st st c _ hs,
      ih (fun x hx => hd x (List.mem_cons_of_mem _ hx))]
    cases scanNumber st rest <;> rfl

/-- The scanner accepts the exponent of a literal. -/
theorem scanNumber_expPart (st : NumState) (hst : st = .zero ∨ st = .int ∨ st = .frac)
    (e : Option (Bool × Bytes)) (ev : Int) (he : ExpOK e ev) :
    scanNumber st (expPart e) = some (expPart e, []) := by
  cases e with
  | none => rcases hst with h | h | h <;> subst h <;> rfl
  | some p =>
    obtain ⟨neg, X⟩ := p
    obtain ⟨h1, h2, _⟩ := he
    cases X with
    | nil => exact absurd rfl h1
    | cons c2 r2 =>
      have hc2 : isDigit c2 = true := h2 c2 (by simp)
      have hs1 : numStep st 101 = some .e := by
        rcases hst with h | h | h <;> subst h <;> rfl
      have hs2 : numStep .e (if neg then (45 : Byte) else 43) = some .esign := by
        cases neg <;> rfl
      have hs3 : numStep .esign c2 = some .exp := by simp [numStep, hc2]
      have hd := scanNumber_digits .exp (Or.inr (Or.inr rfl)) r2
        (fun x hx => h2 x (List.mem_cons_of_mem _ hx)) []
      rw [List.append_nil] at hd
      simp only [expPart]
      rw [scanNumber_cons_some st .e _ _ hs1, scanNumber_cons_some .e .esign _ _ hs2,
        scanNumber_cons_some .esign .exp _ _ hs3, hd]
      simp [scanNumber, numFinal]

/-- The scanner accepts the fraction and the exponent of a literal. -/
theorem scanNumber_tail (st : NumState) (hst : st = .zero ∨ st = .int) (F : Bytes)
    (hFd : ∀ c ∈ F, isDigit c = true) (e : Option (Bool × Bytes)) (ev : Int) (he : ExpOK e ev) :
    scanNumber st (fracPart F ++ expPart e) = some (fracPart F ++ expPart e, []) := by
  by_cases hF : F = []
  · subst hF
    exact scanNumber_expPart st (by rcases hst with h | h <;> simp [h]) e ev he
  · cases F with
    | nil => exact absurd rfl hF
    | cons c F' =>
      have hc : isDigit c = true := hFd c (by simp)
      have hs1 : numStep st 46 = some .dot := by
        rcases hst with h | h <;> subst h <;> rfl
      have hs2 : numStep .dot c = some .frac := by simp [numStep, hc]
      have e1 : fracPart (c :: F') ++ expPart e = 46 :: c :: (F' ++ expPart e) := by
        simp [fracPart]
      rw [e1, scanNumber_cons_some st .dot _ _ hs1, scanNumber_cons_some .dot .frac _ _ hs2,
        scanNumber_digits .frac (Or.inr (Or.inl rfl)) F'
          (fun x hx => hFd x (List.mem_cons_of_mem _ hx)),
        scanNumber_expPart .frac (Or.inr (Or.inr rfl)) e ev he]
      rfl

/-- The scanner accepts a literal whose integer part is a single zero or
starts with another digit. -/
theorem scanNumber_numText (neg : Bool) (I F : Bytes) (e : Option (Bool × Bytes)) (ev : Int)
    (hI : I = [48] ∨ (I ≠ [] ∧ ∀ c ∈ I.head?, c ≠ 48)) (hId : ∀ c ∈ I, isDigit c = true)
    (hFd : ∀ c ∈ F, isDigit c = true) (he : ExpOK e ev) :
    scanNumber .begin (numText neg I F e) = some (numText neg I F e, []) := by
  have key : ∀ st, (st = NumState.begin ∨ st = NumState.neg) →
      scanNumber st (I ++ (fracPart F ++ expPart e)) = some (I ++ (fracPart F ++ expPart e), []) := by
    intro st hst
    rcases hI with h | ⟨h1, h2⟩
    · subst h
      have hs : numStep st 48 = some .zero := by
        rcases hst with h | h <;> subst h <;> rfl
      rw [List.singleton_append, scanNumber_cons_some st .zero _ _ hs,
        scanNumber_tail .zero (Or.inl rfl) F hFd e ev he]
      rfl
    · cases I with
      | nil => exact absurd rfl h1
      | cons c I' =>
        have hc : isDigit c = true := hId c (by simp)
        have hc48 : c ≠ 48 := h2 c (by simp)
        have hc45 : c ≠ 45 := by
          intro h; rw [h] at hc; revert hc; decide
        have hs : numStep st c = some .int := by
          rcases hst with h | h <;> subst h <;> simp [numStep, hc, hc48, hc45]
        rw [List.cons_append, scanNumber_cons_some st .int _ _ hs,
          scanNumber_digits .int (Or.inl rfl) I' (fun x hx => hId x (List.mem_cons_of_mem _ hx)),
          scanNumber_tail .int (Or.inr rfl) F hFd e ev he]
        rfl
  cases neg with
  | false => exact key .begin (Or.inl rfl)
  | true =>
    have hs : numStep .begin 45 = some .neg := rfl
    show scanNumber .begin (45 :: (I ++ (fracPart F ++ expPart e))) = _
    rw [scanNumber_cons_some .begin .neg _ _ hs, key .neg (Or.inr rfl)]
    rfl

theorem digit_byte (d : Nat) (h : d < 10) :
    (toByte (d + 48)).val = d + 48 ∧ isDigit (toByte (d + 48)) = true := by
  have hv : (toByte (d + 48)).val = d + 48 := toByte_val_of_lt _ (by omega)
  refine ⟨hv, ?_⟩
  rw [isDigit_iff, hv]; omega

theorem digit_byte_ne (d : Nat) (h : d < 10) (h0 : d ≠ 0) : toByte (d + 48) ≠ 48 := by
  intro e
  have := (digit_byte d h).1
  rw [e] at this
  have h48 : ((48 : Byte).val) = 48 := rfl
  omega

theorem readExp_one (a : Byte) (ha : isDigit a = true) : readExp 0 [a] = (a.val - 48, []) := by
  simp [readExp, ha]

theorem readExp_two (a b : Byte) (ha : isDigit a = true) (hb : isDigit b = true) :
    readExp 0 [a, b] = ((a.val - 48) * 10 + (b.val - 48), []) := by
  have h1 := (isDigit_iff a).mp ha
  have : a.val - 48 < 10000 := by omega
  simp [readExp, ha, hb, this]

theorem readExp_three (a b c : Byte) (ha : isDigit a = true) (hb : isDigit b = true)
    (hc : isDigit c = true) :
    readExp 0 [a, b, c] = (((a.val - 48) * 10 + (b.val - 48)) * 10 + (c.val - 48), []) := by
  have h1 := (isDigit_iff a).mp ha
  have h2 := (isDigit_iff b).mp hb
  have e1 : a.val - 48 < 10000 := by omega
  have e2 : (a.val - 48) * 10 + (b.val - 48) < 10000 := by omega
  simp [readExp, ha, hb, hc, e1, e2]

/-- The digits of an exponent below 1000 after the clean-up are read as it. -/
theorem expClean_ok (e : Nat) (he : e < 1000) :
    expClean e ≠ [] ∧ (∀ c ∈ expClean e, isDigit c = true) ∧ readExp 0 (expClean e) = (e, []) := by
  unfold expClean
  by_cases h1 : e < 10
  · rw [if_pos h1]
    obtain ⟨a, b⟩ := digit_byte e h1
    refine ⟨by simp, ?_, ?_⟩
    · intro c hc
      simp only [List.mem_singleton] at hc
      rw [hc]; exact b
    · rw [readExp_one _ b, a]
      simp
  · rw [if_neg h1]
    unfold expDigits
    rw [if_neg h1]
    by_cases h2 : e < 100
    · rw [if_pos h2]
      obtain ⟨a1, b1⟩ := digit_byte (e / 10) (by omega)
      obtain ⟨a2, b2⟩ := digit_byte (e % 10) (by omega)
      refine ⟨by simp, ?_, ?_⟩
      · intro c hc
        simp only [List.mem_cons, List.mem_singleton, List.not_mem_nil, or_false] at hc
        rcases hc with hc | hc <;> rw [hc] <;> assumption
      · rw [readExp_two _ _ b1 b2, a1, a2]
        simp only [Nat.add_sub_cancel, Prod.mk.injEq, and_true]
        omega
    · rw [if_neg h2]
      have hv : (toByte (e / 10)).val = e / 10 := toByte_val_of_lt _ (by omega)
      rw [hv]
      obtain ⟨a1, b1⟩ := digit_byte (e / 100) (by omega)
      obtain ⟨a2, b2⟩ := digit_byte (e / 10 % 10) (by omega)
      obtain ⟨a3, b3⟩ := digit_byte (e % 10) (by omega)
      refine ⟨by simp, ?_, ?_⟩
      · intro c hc
        simp only [List.mem_cons, List.mem_singleton, List.not_mem_nil, or_false] at hc
        rcases hc with hc | hc | hc <;> rw [hc] <;> assumption
      · rw [readExp_three _ _ _ b1 b2 b3, a1, a2, a3]
        simp only [Nat.add_sub_cancel, Prod.mk.injEq, and_true]
        omega

/-- The clean-up of the exponent that `fmtE` writes. -/
theorem cleanExp_fmt (pre : Bytes) (s : Byte) (hs : s = 45 ∨ s = 43) (e : Nat) (he : e < 1000) :
    cleanExp (pre ++ 101 :: s :: expDigits e) = pre ++ 101 :: s :: expClean e := by
  have hs101 : s ≠ 101 := by rcases hs with h | h <;> rw [h] <;> decide
  unfold expClean expDigits
  by_cases h1 : e < 10
  · simp only [if_pos h1]
    unfold cleanExp
    simp [hs]
  · simp only [if_neg h1]
    by_cases h2 : e < 100
    · simp only [if_pos h2]
      have hne := digit_byte_ne (e / 10) (by omega) (by omega)
      unfold cleanExp
      simp [hne]
    · simp only [if_neg h2]
      unfold cleanExp
      simp [hs101]

theorem pow_split (a b : Nat) (h : b ≤ a) : 10 ^ (a - b) * 10 ^ b = 10 ^ a := by
  rw [← pow_add, Nat.sub_add_cancel h]

/-- A text that denotes a decimal within the bounds of `x` is parsed as `x`. -/
theorem ParseFloat64_of (text : Bytes) (x : Finite64) (k w D : Nat) (E : Int)
    (hx : x.mant ≠ 0) (hr : readFloat text = some (x.neg, D, E)) (hval : Reads D E k w)
    (hlo : x.lower < k * 10 ^ w ∨ (x.mant % 2 = 0 ∧ x.lower = k * 10 ^ w))
    (hhi : k * 10 ^ w < x.upper ∨ (x.mant % 2 = 0 ∧ k * 10 ^ w = x.upper)) :
    ParseFloat64 text = some x := by
  unfold ParseFloat64
  rw [hr]
  simp only
  rcases hval with ⟨hE, hD⟩ | ⟨hE, hw, hD⟩
  · subst hD
    by_cases h0 : 0 ≤ E
    · rw [if_pos h0]
      have hw : 1075 ≤ w := by omega
      have e1 : E.toNat = w - 1075 := by omega
      rw [e1]
      have hc : D * 10 ^ (w - 1075) * 10 ^ 1075 = D * 10 ^ w * 1 := by
        rw [Nat.mul_assoc, pow_split w 1075 hw, Nat.mul_one]
      exact floatBits_interval x _ 1 (D * 10 ^ w) Nat.one_pos hx hc hlo hhi
    · rw [if_neg h0]
      have hw : w ≤ 1075 := by omega
      have e1 : (-E).toNat = 1075 - w := by omega
      rw [e1]
      have hc : D * 10 ^ 1075 = D * 10 ^ w * 10 ^ (1075 - w) := by
        rw [Nat.mul_assoc, Nat.mul_comm (10 ^ w), pow_split 1075 w hw]
      exact floatBits_interval x _ _ (D * 10 ^ w) (by positivity) hx hc hlo hhi
  · have h0 : (0 : Int) ≤ E := by omega
    rw [if_pos h0]
    have e1 : E.toNat = 0 := by omega
    rw [e1, pow_zero, Nat.mul_one, hD]
    have hc : k * 10 ^ (w - 1075) * 10 ^ 1075 = k * 10 ^ w * 1 := by
      rw [Nat.mul_assoc, pow_split w 1075 hw, Nat.mul_one]
    exact floatBits_interval x _ 1 (k * 10 ^ w) Nat.one_pos hx hc hlo hhi

theorem digitsVal_zero_digit : digitsVal [48] 0 = 0 := rfl

/-- The text of `fmtF` as a number literal, and the decimal that it denotes. -/
theorem fmtF_text (neg : Bool) (k w : Nat) (hk : 0 < k) (dp : Int)
    (hdp : dp = ((decimalLen k + w : Nat) : Int) - 1075) :
    ∃ I F, fmtF neg (formatBits (k + 1) k []) dp = numText neg I F none
      ∧ (I = [48] ∨ (I ≠ [] ∧ ∀ c ∈ I.head?, c ≠ 48)) ∧ I ≠ []
      ∧ (∀ c ∈ I, isDigit c = true) ∧ (∀ c ∈ F, isDigit c = true)
      ∧ Reads (digitsVal (I ++ F) 0) (0 - (F.length : Int)) k w := by
  obtain ⟨hd, hv, hne, hh, hl⟩ := digitsVal_format k
  have hh' := hh (by omega)
  set digs := formatBits (k + 1) k [] with hdigs
  have hnd : 0 < digs.length := List.length_pos.mpr hne
  rw [← hl] at hdp
  by_cases h1 : dp ≤ 0
  · -- 0.000ddd
    refine ⟨[48], List.replicate (-dp).toNat 48 ++ digs, ?_, Or.inl rfl, by simp, ?_, ?_, ?_⟩
    · have e0 : dp.toNat = 0 := by omega
      have hF : List.replicate (-dp).toNat 48 ++ digs ≠ [] := by simp [hne]
      have c1 : ¬ (0 < dp) := by omega
      have c2 : 0 < (digs.length : Int) - dp := by omega
      simp only [fmtF, numText, fracPart, expPart, c1, c2, hF, if_false, if_true, e0,
        List.drop_zero, List.append_nil, List.append_assoc, List.singleton_append]
    · intro c hc
      simp only [List.mem_singleton] at hc
      rw [hc]; rfl
    · intro c hc
      rcases List.mem_append.mp hc with h | h
      · rw [List.eq_of_mem_replicate h]; rfl
      · exact hd c h
    · left
      refine ⟨?_, ?_⟩
      · simp only [List.length_append, List.length_replicate]
        omega
      · rw [digitsVal_append, digitsVal_append, digitsVal_zero_digit, digitsVal_zeros, Nat.zero_mul, hv]
  · by_cases h2 : dp < digs.length
    · -- ddd.ddd
      have e0 : (-dp).toNat = 0 := by omega
      have hdrop : digs.drop dp.toNat ≠ [] := by
        intro e
        have := congrArg List.length e
        simp only [List.length_drop, List.length_nil] at this
        omega
      have htake : digs.take dp.toNat ≠ [] := by
        intro e
        have := congrArg List.length e
        simp only [List.length_take, List.length_nil] at this
        omega
      refine ⟨digs.take dp.toNat, digs.drop dp.toNat, ?_, Or.inr ⟨htake, ?_⟩, htake, ?_, ?_, ?_⟩
      · have e1 : dp.toNat - digs.length = 0 := by omega
        have c1 : 0 < dp := by omega
        have c2 : 0 < (digs.length : Int) - dp := by omega
        simp only [fmtF, numText, fracPart, expPart, c1, c2, hdrop, if_false, if_true, e0, e1,
          List.replicate_zero, List.nil_append, List.append_nil, List.append_assoc]
      · intro c hc
        apply hh' c
        cases hdg : digs with
        | nil => exact absurd hdg hne
        | cons d0 tl =>
          rw [hdg] at hc
          obtain ⟨n, hn⟩ : ∃ n, dp.toNat = n + 1 := ⟨dp.toNat - 1, by omega⟩
          rw [hn, List.take_succ_cons] at hc
          simpa using hc
      · intro c hc; exact hd c (List.mem_of_mem_take hc)
      · intro c hc; exact hd c (List.mem_of_mem_drop hc)
      · left
        refine ⟨?_, ?_⟩
        · simp only [List.length_drop]
          omega
        · rw [List.take_append_drop, hv]
    · -- ddd000
      refine ⟨digs ++ List.replicate (dp.toNat - digs.length) 48, [], ?_, Or.inr ⟨by simp [hne], ?_⟩,
        by simp [hne], ?_, by simp, ?_⟩
      · have c1 : 0 < dp := by omega
        have c2 : ¬ (0 < (digs.length : Int) - dp) := by omega
        have c3 : digs.take dp.toNat = digs := List.take_of_length_le (by omega)
        simp only [fmtF, numText, fracPart, expPart, c1, c2, c3, if_false, if_true,
          List.append_nil, List.append_assoc]
      · intro c hc
        apply hh' c
        cases hdg : digs with
        | nil => exact absurd hdg hne
        | cons d0 tl =>
          rw [hdg] at hc
          simpa using hc
      · intro c hc
        rcases List.mem_append.mp hc with h | h
        · exact hd c h
        · rw [List.eq_of_mem_replicate h]; rfl
      · right
        refine ⟨by simp, by omega, ?_⟩
        have e : dp.toNat - digs.length = w - 1075 := by omega
        rw [List.append_nil, digitsVal_append, hv, digitsVal_zeros, e]

/-- The text of `fmtE` after the clean-up as a number literal, and the decimal
that it denotes. -/
theorem fmtE_text (neg : Bool) (k w : Nat) (hk : 0 < k) (dp : Int)
    (hdp : dp = ((decimalLen k + w : Nat) : Int) - 1075) (h1 : 752 ≤ decimalLen k + w)
    (h2 : decimalLen k + w ≤ 1384) :
    ∃ I F e ev, cleanExp (fmtE neg (formatBits (k + 1) k []) dp) = numText neg I F e
      ∧ (I = [48] ∨ (I ≠ [] ∧ ∀ c ∈ I.head?, c ≠ 48)) ∧ I ≠ []
      ∧ (∀ c ∈ I, isDigit c = true) ∧ (∀ c ∈ F, isDigit c = true) ∧ ExpOK e ev
      ∧ Reads (digitsVal (I ++ F) 0) (ev - (F.length : Int)) k w := by
  obtain ⟨hd, hv, hne, hh, hl⟩ := digitsVal_format k
  have hh' := hh (by omega)
  set digs := formatBits (k + 1) k [] with hdigs
  rw [← hl] at hdp h1 h2
  cases hdg : digs with
  | nil => exact absurd hdg hne
  | cons d0 tl =>
    rw [hdg] at hd hv hh' hdp h1 h2
    simp only [List.length_cons] at hdp h1 h2
    have hexp : (dp - 1).natAbs < 1000 := by omega
    obtain ⟨c1, c2, c3⟩ := expClean_ok _ hexp
    refine ⟨[d0], tl, some (decide (dp - 1 < 0), expClean (dp - 1).natAbs), dp - 1, ?_,
      Or.inr ⟨by simp, fun c hc => hh' c (by simpa using hc)⟩, by simp,
      fun c hc => hd c (by simp only [List.mem_singleton] at hc; rw [hc]; simp),
      fun c hc => hd c (List.mem_cons_of_mem _ hc), ?_, ?_⟩
    · have e1 : fmtE neg (d0 :: tl) dp
          = ((if neg then [45] else []) ++ d0 :: fracPart tl)
            ++ 101 :: (if dp - 1 < 0 then (45 : Byte) else 43) :: expDigits (dp - 1).natAbs := by
        unfold fmtE fracPart
        by_cases ht : tl = []
        · subst ht
          by_cases hs : dp - 1 < 0 <;> simp [hs]
        · have : 0 < tl.length := List.length_pos.mpr ht
          by_cases hs : dp - 1 < 0 <;> simp [hs, ht, this]
      rw [e1, cleanExp_fmt _ _ (by by_cases hs : dp - 1 < 0 <;> simp [hs]) _ hexp]
      unfold numText expPart
      by_cases hs : dp - 1 < 0 <;> simp [hs]
    · refine ⟨c1, c2, (dp - 1).natAbs, c3, ?_⟩
      by_cases hs : dp - 1 < 0
      · simp only [hs, decide_True, if_true]; omega
      · simp only [hs, decide_False]
        simp only [Bool.false_eq_true, if_false]; omega
    · left
      refine ⟨by omega, ?_⟩
      rw [List.singleton_append, hv]

theorem Finite64.mant_eq_zero (x : Finite64) (h : x.mant = 0) : x.expo = 0 ∧ x.frac = 0 := by
  unfold Finite64.mant at h
  by_cases he : x.expo = 0
  · rw [if_pos he] at h; exact ⟨he, h⟩
  · rw [if_neg he] at h
    have : 0 < 2 ^ 52 := by norm_num
    omega

/-- The text that `floatEncoder` writes for a finite `float64` is a number
literal of JSON, and `strconv.ParseFloat` reads it back as the same value. -/
theorem FormatFloat64_spec (x : Finite64) :
    scanNumber .begin (FormatFloat64 x) = some (FormatFloat64 x, [])
      ∧ ParseFloat64 (FormatFloat64 x) = some x := by
  by_cases hx : x.mant = 0
  · have hs : shortest x = ([], 0) := by unfold shortest; rw [if_pos hx]
    have ht : FormatFloat64 x = numText x.neg [48] [] none := by
      unfold FormatFloat64
      have c : ¬ (x.mant ≠ 0 ∧ (absLt x float1e_6 = true ∨ ¬ absLt x float1e21 = true)) :=
        fun h => h.1 hx
      rw [if_neg c, hs]
      cases x.neg <;> rfl
    have hd : ∀ c ∈ ([48] : Bytes), isDigit c = true := by
      intro c hc
      simp only [List.mem_singleton] at hc
      rw [hc]; rfl
    have he : ExpOK none 0 := rfl
    rw [ht]
    refine ⟨scanNumber_numText x.neg [48] [] none 0 (Or.inl rfl) hd (by simp) he, ?_⟩
    have hr := readFloat_numText x.neg [48] [] none 0 (by simp) hd (by simp) he
    unfold ParseFloat64
    rw [hr]
    simp only [List.append_nil, digitsVal_zero_digit, List.length_nil]
    rw [if_pos (by decide)]
    rw [Nat.zero_mul, floatBits_zero]
    obtain ⟨h1, h2⟩ := x.mant_eq_zero hx
    exact congrArg some (Finite64.eq_of _ _ rfl h1.symm h2.symm)
  · obtain ⟨k, w, hk, hs1, hs2, hlo, hhi, hb1, hb2⟩ := shortest_spec x hx
    have key : ∀ text, (∃ I F e ev, text = numText x.neg I F e
        ∧ (I = [48] ∨ (I ≠ [] ∧ ∀ c ∈ I.head?, c ≠ 48)) ∧ I ≠ []
        ∧ (∀ c ∈ I, isDigit c = true) ∧ (∀ c ∈ F, isDigit c = true) ∧ ExpOK e ev
        ∧ Reads (digitsVal (I ++ F) 0) (ev - (F.length : Int)) k w) →
        scanNumber .begin text = some (text, []) ∧ ParseFloat64 text = some x := by
      rintro text ⟨I, F, e, ev, rfl, a1, a2, a3, a4, a5, a6⟩
      exact ⟨scanNumber_numText x.neg I F e ev a1 a3 a4 a5,
        ParseFloat64_of _ x k w _ _ hx (readFloat_numText x.neg I F e ev a2 a3 a4 a5) a6 hlo hhi⟩
    unfold FormatFloat64
    rw [hs1, hs2]
    split
    · obtain ⟨I, F, e, ev, h⟩ := fmtE_text x.neg k w hk _ rfl hb1 hb2
      exact key _ ⟨I, F, e, ev, h⟩
    · obtain ⟨I, F, h1, h2, h3, h4, h5, h6⟩ := fmtF_text x.neg k w hk _ rfl
      exact key _ ⟨I, F, none, 0, h1, h2, h3, h4, h5, rfl, h6⟩

/-- The `float64` of Go keeps the contract of strconv. -/
theorem float64_lawful : float64.Lawful :=
  ⟨fun x => (FormatFloat64_spec x).1, fun x => (FormatFloat64_spec x).2⟩

set_option maxRecDepth 100000 in
set_option exponentiation.threshold 3000 in
/-- The function `ParseFloat64` on some literals: a fraction, the integer
`2 ^ 53 + 1` (which rounds to the even neighbour `2 ^ 53`), an exponent, the
zero with a sign, a value below the least `float64` (zero) and one beyond the
largest (the range error), and the two constants of `floatEncoder`. -/
theorem ParseFloat64_values :
    ParseFloat64 (ascii "0.5") = some ⟨false, 1022, 0, by decide, by decide⟩
    ∧ ParseFloat64 (ascii "9007199254740993") = some ⟨false, 1076, 0, by decide, by decide⟩
    ∧ ParseFloat64 (ascii "9007199254740995")
        = some ⟨false, 1076, 2, by decide, by decide⟩
    ∧ ParseFloat64 (ascii "1E+2") = some ⟨false, 1029, 2533274790395904, by decide, by decide⟩
    ∧ ParseFloat64 (ascii "-0") = some ⟨true, 0, 0, by decide, by decide⟩
    ∧ ParseFloat64 (ascii "1e-400") = some ⟨false, 0, 0, by decide, by decide⟩
    ∧ ParseFloat64 (ascii "5e-324") = some ⟨false, 0, 1, by decide, by decide⟩
    ∧ ParseFloat64 (ascii "1.7976931348623157e308")
        = some ⟨false, 2046, 4503599627370495, by decide, by decide⟩
    ∧ ParseFloat64 (ascii "1e309") = none
    ∧ ParseFloat64 (ascii "1e-6") = some float1e_6
    ∧ ParseFloat64 (ascii "1e21") = some float1e21 :=
  ⟨rfl, rfl, rfl, rfl, rfl, rfl, rfl, rfl, rfl, rfl, rfl⟩

set_option maxRecDepth 100000 in
set_option exponentiation.threshold 3000 in
/-- The function `FormatFloat64` on some values: the format `f` from 1e-6 up to
1e21, the format `e` with the exponent cleaned up outside, the least and the
largest finite `float64`. -/
theorem FormatFloat64_values :
    FormatFloat64 ⟨false, 1022, 0, by decide, by decide⟩ = ascii "0.5"
    ∧ FormatFloat64 ⟨false, 1019, 2702159776422298, by decide, by decide⟩ = ascii "0.1"
    ∧ FormatFloat64 ⟨false, 1029, 2533274790395904, by decide, by decide⟩ = ascii "100"
    ∧ FormatFloat64 ⟨true, 0, 0, by decide, by decide⟩ = ascii "-0"
    ∧ FormatFloat64 float1e_6 = ascii "0.000001"
    ∧ FormatFloat64 ⟨false, 999, 3052186745220936, by decide, by decide⟩ = ascii "1e-7"
    ∧ FormatFloat64 float1e21 = ascii "1e+21"
    ∧ FormatFloat64 ⟨false, 0, 1, by decide, by decide⟩ = ascii "5e-324"
    ∧ FormatFloat64 ⟨false, 2046, 4503599627370495, by decide, by decide⟩
        = ascii "1.7976931348623157e+308" :=
  ⟨rfl, rfl, rfl, rfl, rfl, rfl, rfl, rfl, rfl⟩

/-! ## Concrete inputs -/

/-! ## Shared facts about `getData` -/

theorem parseUint_format (n : Nat) :
    ParseUint (formatBits (n + 1) n []) = some n ∧ ∀ c ∈ (formatBits (n + 1) n []).head?, isDigit c = true := by
  obtain ⟨ds, h1, h2, h3, h4, _, _⟩ := formatBits_spec (n + 1) n (by omega)
  rw [h1, List.append_nil]
  cases ds with
  | nil => exact absurd rfl h2
  | cons d ds =>
    have := h4 0 []
    simp only [List.append_nil, zero_mul, zero_add] at this
    refine ⟨by simp only [ParseUint]; rw [this, parseDigits_nil], ?_⟩
    intro c hc
    simp only [List.head?_cons, Option.mem_def, Option.some.injEq] at hc
    rw [← hc]; exact h3 d (by simp)

theorem Marshal_ne_nil {F : Type} (sc : Strconv F) (rs : Slice (NominatimResponse F)) (b : Bytes)
    (h : Marshal sc rs = .ok b) : b ≠ [] := by
  cases rs with
  | none => simp only [Marshal, Except.ok.injEq] at h; rw [← h]; decide
  | some l =>
    simp only [Marshal] at h
    cases h1 : encodeStructs sc l with
    | error e => rw [h1] at h; simp at h
    | ok bs => rw [h1] at h; simp only [Except.ok.injEq] at h; rw [← h]; simp

/-- The path of `getData` on which the cache gives a value. -/
theorem getData_of_cached {F : Type} (sc : Strconv F) (w : World) (q : Bytes)
    (h : GetCachedData w (PathEscape q) ≠ []) :
    getData sc w q =
      match Unmarshal sc (GetCachedData w (PathEscape q)) with
      | .error e => ⟨none, false, some e, w, [.cacheGet (PathEscape q)]⟩
      | .ok data => ⟨data, true, none, w, [.cacheGet (PathEscape q)]⟩ := by
  unfold getData
  simp only [h, ne_eq, not_false_eq_true, if_true]

/-- The path of `getData` on which the cache gives no value. -/
theorem getData_of_miss {F : Type} (sc : Strconv F) (w : World) (q : Bytes)
    (h : GetCachedData w (PathEscape q) = []) :
    getData sc w q =
      match w.upstream (address (PathEscape q)) with
      | .error e =>
        ⟨none, false, some e, w, [.cacheGet (PathEscape q), .httpGet (address (PathEscape q))]⟩
      | .ok body =>
        match Decode sc body with
        | .error e =>
          ⟨none, false, some e, w, [.cacheGet (PathEscape q), .httpGet (address (PathEscape q))]⟩
        | .ok data =>
          match Marshal sc data with
          | .error e =>
            ⟨none, false, some e, w,
              [.cacheGet (PathEscape q), .httpGet (address (PathEscape q))]⟩
          | .ok b =>
            match w.Set (PathEscape q) b (Second * 15) with
            | .error e =>
              ⟨none, false, some e, w,
                [.cacheGet (PathEscape q), .httpGet (address (PathEscape q)),
                  .cacheSet (PathEscape q) b (Second * 15)]⟩
            | .ok w2 =>
              ⟨data, false, none, w2,
                [.cacheGet (PathEscape q), .httpGet (address (PathEscape q)),
                  .cacheSet (PathEscape q) b (Second * 15)]⟩ := by
  unfold getData
  simp only [h, ne_eq, not_true_eq_false, if_false]

/-- On a miss with a successful fetch and decode, `getData` reaches the cache
write with the encoding of the decoded records. -/
theorem getData_miss_decoded {F : Type} (sc : Strconv F) (w : World) (q : Bytes) (body : Body)
    (rs : Slice (NominatimResponse F))
    (hmiss : GetCachedData w (PathEscape q) = [])
    (hget : w.upstream (address (PathEscape q)) = .ok body)
    (hdec : Decode sc body = .ok rs) :
    ∃ b, Marshal sc rs = .ok b ∧ b ≠ [] ∧
      getData sc w q =
        match w.Set (PathEscape q) b (Second * 15) with
        | .error e =>
          ⟨none, false, some e, w,
            [.cacheGet (PathEscape q), .httpGet (address (PathEscape q)),
              .cacheSet (PathEscape q) b (Second * 15)]⟩
        | .ok w2 =>
          ⟨rs, false, none, w2,
            [.cacheGet (PathEscape q), .httpGet (address (PathEscape q)),
              .cacheSet (PathEscape q) b (Second * 15)]⟩ := by
  obtain ⟨b, hb, hne⟩ := Marshal_finite sc rs (Decode_clean sc body rs hdec).2
  refine ⟨b, hb, hne, ?_⟩
  rw [getData_of_miss sc w q hmiss, hget]
  simp only [hdec, hb]

theorem GetCachedData_of_val (w : World) (key v : Bytes) (h : w.Get key = .val v) :
    GetCachedData w key = v := by
  simp only [GetCachedData, h]

/-! ## The claims -/

/-- C1, the cache-miss path: when the lookup for the escaped query gives no
value, the GET succeeds with a body that decodes to `rs` and the cache write
succeeds, `getData` returns `(rs, false, nil)`; its calls are the lookup, one GET
to the search address for the escaped query, and one write that stores the JSON
encoding of `rs` under the escaped query for 15 seconds, after which the server
holds that encoding under that key until 15 seconds after the call. -/
theorem getData_miss_path {F : Type} (sc : Strconv F) (w : World) (q : Bytes) (body : Body)
    (rs : Slice (NominatimResponse F))
    (hmiss : GetCachedData w (PathEscape q) = [])
    (hget : w.upstream (address (PathEscape q)) = .ok body)
    (hdec : Decode sc body = .ok rs)
    (hset : w.setFails = false) :
    ∃ b, Marshal sc rs = .ok b
      ∧ (getData sc w q).data = rs ∧ (getData sc w q).isCached = false
      ∧ (getData sc w q).err = none
      ∧ (getData sc w q).calls =
          [.cacheGet (PathEscape q),
           .httpGet (ascii "https://nominatim.openstreetmap.org/search?q=" ++ PathEscape q
              ++ ascii "&format=json"),
           .cacheSet (PathEscape q) b (15 * Second)]
      ∧ httpCalls (getData sc w q).calls
          = [ascii "https://nominatim.openstreetmap.org/search?q=" ++ PathEscape q
              ++ ascii "&format=json"]
      ∧ cacheWrites (getData sc w q).calls = [(PathEscape q, b, 15000000000)]
      ∧ (getData sc w q).world.store (PathEscape q) = some ⟨b, some (w.now + 15 * Second)⟩ := by
  obtain ⟨b, hb, _, hg⟩ := getData_miss_decoded sc w q body rs hmiss hget hdec
  have hS : w.Set (PathEscape q) b (Second * 15)
      = .ok { w with
          store := fun k =>
            if k = PathEscape q then some ⟨b, if Second * 15 = 0 then none else some (w.now + Second * 15)⟩
            else w.store k } := by
    simp only [World.Set, hset, Bool.false_eq_true, if_false]
  rw [hS] at hg
  refine ⟨b, hb, ?_⟩
  rw [hg]
  refine ⟨rfl, rfl, rfl, rfl, rfl, rfl, ?_⟩
  simp only [if_true]
  rfl

set_option maxRecDepth 100000 in
theorem getData_miss_path_witness :
    GetCachedData (emptyWorld (.ok parisBody)) (PathEscape (ascii "Paris")) = []
    ∧ ∃ b, Marshal float64 (some [parisRecord]) = .ok b
      ∧ (getData float64 (emptyWorld (.ok parisBody)) (ascii "Paris")).data
          = some [parisRecord]
      ∧ cacheWrites (getData float64 (emptyWorld (.ok parisBody)) (ascii "Paris")).calls
          = [(ascii "Paris", b, 15000000000)] := by
  refine ⟨rfl, ?_⟩
  obtain ⟨b, h1, h2, _, _, _, _, h7, _⟩ :=
    getData_miss_path float64 (emptyWorld (.ok parisBody)) (ascii "Paris") parisBody
      (some [parisRecord]) rfl rfl rfl rfl
  exact ⟨b, h1, h2, h7⟩

/-- C5, a failure of the provider leaves the cache alone: on the miss path, when
the GET returns an error or the body does not decode, `getData` returns an
error with nil records and the flag false, makes no cache write, and the world,
the Redis server with all its keys included, is as before the call. -/
theorem getData_upstream_failure {F : Type} (sc : Strconv F) (w : World) (q : Bytes)
    (hmiss : GetCachedData w (PathEscape q) = [])
    (hfail : (∃ e, w.upstream (address (PathEscape q)) = .error e)
      ∨ (∃ body e, w.upstream (address (PathEscape q)) = .ok body ∧ Decode sc body = .error e)) :
    (getData sc w q).err ≠ none ∧ (getData sc w q).data = none
      ∧ (getData sc w q).isCached = false
      ∧ cacheWrites (getData sc w q).calls = []
      ∧ (getData sc w q).world = w
      ∧ ∀ k, (getData sc w q).world.store k = w.store k := by
  rw [getData_of_miss sc w q hmiss]
  rcases hfail with ⟨e, he⟩ | ⟨body, e, hb, he⟩
  · rw [he]
    exact ⟨by simp, rfl, rfl, rfl, rfl, fun _ => rfl⟩
  · rw [hb]
    simp [he, cacheWrites]

set_option maxRecDepth 100000 in
theorem getData_upstream_failure_witness :
    (getData float64 (emptyWorld (.ok ⟨ascii "<html>", false⟩)) (ascii "Paris")).err
        = some .syntaxError
    ∧ (getData float64 (emptyWorld (.ok ⟨ascii "<html>", false⟩)) (ascii "Paris")).world
        = emptyWorld (.ok ⟨ascii "<html>", false⟩) :=
  ⟨rfl,
    (getData_upstream_failure float64 (emptyWorld (.ok ⟨ascii "<html>", false⟩))
      (ascii "Paris") rfl (Or.inr ⟨⟨ascii "<html>", false⟩, .syntaxError, rfl, rfl⟩)).2.2.2.2.1⟩

/-- C6, a lookup that fails is a miss: the run of `getData` in the world where
the `GET` meets a transport error and its run in the world where the server
answers that the key does not exist return the same records, flag and error and
make the same calls, the cache write included; and when the first run fails,
the GET, the decoding or the cache write failed. -/
theorem getData_lookup_error {F : Type} (sc : Strconv F) (w : World) (q : Bytes) :
    (w.getError).Get (PathEscape q) = .err ∧ (w.without (PathEscape q)).Get (PathEscape q) = .nil
    ∧ (getData sc w.getError q).data = (getData sc (w.without (PathEscape q)) q).data
    ∧ (getData sc w.getError q).isCached = (getData sc (w.without (PathEscape q)) q).isCached
    ∧ (getData sc w.getError q).err = (getData sc (w.without (PathEscape q)) q).err
    ∧ (getData sc w.getError q).calls = (getData sc (w.without (PathEscape q)) q).calls
    ∧ ((getData sc w.getError q).err ≠ none →
        (∃ e, w.upstream (address (PathEscape q)) = .error e)
        ∨ (∃ body e, w.upstream (address (PathEscape q)) = .ok body ∧ Decode sc body = .error e)
        ∨ w.setFails = true) := by
  have g1 : (w.getError).Get (PathEscape q) = .err := by
    simp only [World.Get, World.getError, if_true]
  have g2 : (w.without (PathEscape q)).Get (PathEscape q) = .nil := by
    simp only [World.Get, World.without, Bool.false_eq_true, if_false, if_true]
  have m1 : GetCachedData w.getError (PathEscape q) = [] := by simp only [GetCachedData, g1]
  have m2 : GetCachedData (w.without (PathEscape q)) (PathEscape q) = [] := by
    simp only [GetCachedData, g2]
  refine ⟨g1, g2, ?_⟩
  rw [getData_of_miss sc _ q m1, getData_of_miss sc _ q m2]
  have u1 : w.getError.upstream = w.upstream := rfl
  have u2 : (w.without (PathEscape q)).upstream = w.upstream := rfl
  rw [u1, u2]
  cases hU : w.upstream (address (PathEscape q)) with
  | error e => exact ⟨rfl, rfl, rfl, rfl, fun _ => Or.inl ⟨e, rfl⟩⟩
  | ok body =>
    simp only
    cases hD : Decode sc body with
    | error e => exact ⟨rfl, rfl, rfl, rfl, fun _ => Or.inr (Or.inl ⟨body, e, rfl, hD⟩)⟩
    | ok data =>
      obtain ⟨b, hb, _⟩ := Marshal_finite sc data (Decode_clean sc body data hD).2
      simp only [hb]
      cases hF : w.setFails with
      | true =>
        have s1 : w.getError.Set (PathEscape q) b (Second * 15) = .error .redis := by
          simp only [World.Set, World.getError, hF, if_true]
        have s2 : (w.without (PathEscape q)).Set (PathEscape q) b (Second * 15)
            = .error .redis := by
          simp only [World.Set, World.without, hF, if_true]
        rw [s1, s2]
        exact ⟨rfl, rfl, rfl, rfl, fun _ => Or.inr (Or.inr rfl)⟩
      | false =>
        have s1 : ∃ w2, w.getError.Set (PathEscape q) b (Second * 15) = .ok w2 := by
          simp only [World.Set, World.getError, hF, Bool.false_eq_true, if_false]
          exact ⟨_, rfl⟩
        have s2 : ∃ w2, (w.without (PathEscape q)).Set (PathEscape q) b (Second * 15)
            = .ok w2 := by
          simp only [World.Set, World.without, hF, Bool.false_eq_true, if_false]
          exact ⟨_, rfl⟩
        obtain ⟨w1, s1⟩ := s1
        obtain ⟨w2, s2⟩ := s2
        rw [s1, s2]
        exact ⟨rfl, rfl, rfl, rfl, fun h => absurd rfl h⟩

/-- C7, a failed cache write is fatal: on the miss path, when the GET and the
decoding succeed with records `rs` and the `SET` fails, `getData` returns the
error of the `SET` with nil records and the flag false. -/
theorem getData_write_failure {F : Type} (sc : Strconv F) (w : World) (q : Bytes) (body : Body)
    (rs : Slice (NominatimResponse F))
    (hmiss : GetCachedData w (PathEscape q) = [])
    (hget : w.upstream (address (PathEscape q)) = .ok body)
    (hdec : Decode sc body = .ok rs)
    (hset : w.setFails = true) :
    (getData sc w q).err = some .redis ∧ (getData sc w q).data = none
      ∧ (getData sc w q).isCached = false
      ∧ ∃ b, Marshal sc rs = .ok b
          ∧ cacheWrites (getData sc w q).calls = [(PathEscape q, b, 15 * Second)] := by
  obtain ⟨b, hb, _, hg⟩ := getData_miss_decoded sc w q body rs hmiss hget hdec
  have hS : w.Set (PathEscape q) b (Second * 15) = .error .redis := by
    simp only [World.Set, hset, if_true]
  rw [hS] at hg
  rw [hg]
  exact ⟨rfl, rfl, rfl, b, hb, rfl⟩

set_option maxRecDepth 100000 in
theorem getData_write_failure_witness :
    Decode float64 parisBody = .ok (some [parisRecord])
    ∧ (getData float64 (emptyWorld (.ok parisBody)).setError (ascii "Paris")).err
        = some .redis
    ∧ (getData float64 (emptyWorld (.ok parisBody)).setError (ascii "Paris")).data
        = none :=
  ⟨rfl,
    (getData_write_failure float64 (emptyWorld (.ok parisBody)).setError (ascii "Paris")
      parisBody (some [parisRecord]) rfl rfl rfl rfl).1,
    (getData_write_failure float64 (emptyWorld (.ok parisBody)).setError (ascii "Paris")
      parisBody (some [parisRecord]) rfl rfl rfl rfl).2.1⟩

/-- C8, a corrupt cache entry is fatal: when the lookup gives a non-empty value
that does not decode, `getData` returns the decoding error with nil records and
the flag false, its only call is the lookup (no GET, no cache write), and the
world, the bad entry included, is as before. -/
theorem getData_corrupt_entry {F : Type} (sc : Strconv F) (w : World) (q : Bytes) (v : Bytes)
    (e : GoError)
    (hval : w.Get (PathEscape q) = .val v) (hne : v ≠ [])
    (hbad : Unmarshal sc v = .error e) :
    (getData sc w q).err = some e ∧ (getData sc w q).data = none
      ∧ (getData sc w q).isCached = false
      ∧ (getData sc w q).calls = [.cacheGet (PathEscape q)]
      ∧ httpCalls (getData sc w q).calls = [] ∧ cacheWrites (getData sc w q).calls = []
      ∧ (getData sc w q).world = w
      ∧ (getData sc w q).world.Get (PathEscape q) = .val v := by
  have hc := GetCachedData_of_val w _ v hval
  rw [getData_of_cached sc w q (by rw [hc]; exact hne), hc, hbad]
  exact ⟨rfl, rfl, rfl, rfl, rfl, rfl, rfl, hval⟩

set_option maxRecDepth 100000 in
theorem getData_corrupt_entry_witness :
    (getData float64 ((emptyWorld (.ok parisBody)).holding (ascii "Paris") (ascii "oops"))
        (ascii "Paris")).err = some .syntaxError
    ∧ (getData float64
        ((emptyWorld (.ok parisBody)).holding (ascii "Paris") (ascii "oops"))
        (ascii "Paris")).calls = [.cacheGet (ascii "Paris")] :=
  ⟨(getData_corrupt_entry float64
      ((emptyWorld (.ok parisBody)).holding (ascii "Paris") (ascii "oops")) (ascii "Paris")
      (ascii "oops") .syntaxError rfl (by decide) rfl).1,
    (getData_corrupt_entry float64
      ((emptyWorld (.ok parisBody)).holding (ascii "Paris") (ascii "oops")) (ascii "Paris")
      (ascii "oops") .syntaxError rfl (by decide) rfl).2.2.2.1⟩

set_option maxRecDepth 100000 in
set_option exponentiation.threshold 3000 in
/-- C2 as stated fails: the server holds the JSON encoding of a sequence whose
latitude is the byte 0xFF, and `getData` returns another sequence, with the
latitude U+FFFD. -/
theorem getData_hit_counterexample :
    Marshal float64 (some [badLatRecord])
        = .ok (marshalled float64 (some [badLatRecord]))
    ∧ badLatWorld.Get (PathEscape (ascii "x"))
        = .val (marshalled float64 (some [badLatRecord]))
    ∧ (getData float64 badLatWorld (ascii "x")).data = some [coercedLatRecord]
    ∧ (getData float64 badLatWorld (ascii "x")).data ≠ some [badLatRecord] := by
  refine ⟨rfl, rfl, rfl, ?_⟩
  have e : (getData float64 badLatWorld (ascii "x")).data = some [coercedLatRecord] := rfl
  rw [e]
  decide

/-- C2, amended, the cache-hit path: when the server holds under the escaped
query the JSON encoding of a sequence `rs` whose strings are well-formed UTF-8,
`getData` returns `(rs, true, nil)`, its only call is the lookup (no GET, no cache
write), and the world is as before.  The encoding of no sequence is the empty
string. -/
theorem getData_hit_path (w : World) (q : Bytes)
    (rs : Slice (NominatimResponse Finite64)) (b : Bytes)
    (hu : allUTF8 rs = true) (hm : Marshal float64 rs = .ok b)
    (hval : w.Get (PathEscape q) = .val b) :
    (getData float64 w q).data = rs ∧ (getData float64 w q).isCached = true
      ∧ (getData float64 w q).err = none
      ∧ (getData float64 w q).calls = [.cacheGet (PathEscape q)]
      ∧ httpCalls (getData float64 w q).calls = [] ∧ cacheWrites (getData float64 w q).calls = []
      ∧ (getData float64 w q).world = w
      ∧ (∀ (rs2 : Slice (NominatimResponse Finite64)) b2, Marshal float64 rs2 = .ok b2 → b2 ≠ []) := by
  obtain ⟨b2, h1, hne, h3⟩ :=
    Unmarshal_Marshal float64 float64_lawful rs hu (Marshal_ok_finite float64 rs b hm)
  rw [hm] at h1
  simp only [Except.ok.injEq] at h1
  subst h1
  have hc := GetCachedData_of_val w _ b hval
  rw [getData_of_cached float64 w q (by rw [hc]; exact hne), hc, h3]
  exact ⟨rfl, rfl, rfl, rfl, rfl, rfl, rfl, fun rs2 b2 h => Marshal_ne_nil float64 rs2 b2 h⟩

set_option maxRecDepth 100000 in
set_option exponentiation.threshold 3000 in
theorem getData_hit_path_witness :
    allUTF8 (some [louvreRecord]) = true
    ∧ Marshal float64 (some [louvreRecord]) = .ok louvreBody.bytes
    ∧ (getData float64
        ((emptyWorld (.error .http)).holding (PathEscape (ascii "Paris")) louvreBody.bytes)
        (ascii "Paris")).data = some [louvreRecord]
    ∧ (getData float64
        ((emptyWorld (.error .http)).holding (PathEscape (ascii "Paris")) louvreBody.bytes)
        (ascii "Paris")).isCached = true := by
  have h := getData_hit_path
    ((emptyWorld (.error .http)).holding (PathEscape (ascii "Paris")) louvreBody.bytes)
    (ascii "Paris") (some [louvreRecord]) louvreBody.bytes rfl rfl rfl
  exact ⟨rfl, rfl, h.1, h.2.1⟩

/-- C3, a miss and then a hit: starting from a reachable cache with no entry for
the escaped query, when the GET succeeds with a body that decodes to `rs` and
the cache write succeeds, the first `getData` returns `rs` with the flag false,
and a second `getData` for the same query less than 15 seconds later returns the
same `rs` with the flag true and no error, its only call being the lookup. -/
theorem getData_miss_then_hit (w : World)
    (q : Bytes) (body : Body) (rs : Slice (NominatimResponse Finite64)) (dt : Nanos)
    (hempty : w.store (PathEscape q) = none) (hup : w.getFails = false)
    (hget : w.upstream (address (PathEscape q)) = .ok body)
    (hdec : Decode float64 body = .ok rs)
    (hset : w.setFails = false)
    (hdt : dt < 15 * Second) :
    (getData float64 w q).data = rs ∧ (getData float64 w q).isCached = false
      ∧ (getData float64 w q).err = none
      ∧ (getData float64 ((getData float64 w q).world.advance dt) q).data = rs
      ∧ (getData float64 ((getData float64 w q).world.advance dt) q).isCached = true
      ∧ (getData float64 ((getData float64 w q).world.advance dt) q).err = none
      ∧ (getData float64 ((getData float64 w q).world.advance dt) q).calls = [.cacheGet (PathEscape q)]
      ∧ httpCalls (getData float64 ((getData float64 w q).world.advance dt) q).calls = [] := by
  have hmiss : GetCachedData w (PathEscape q) = [] := by
    simp only [GetCachedData, World.Get, hup, hempty, Bool.false_eq_true, if_false]
  obtain ⟨b, hb, hne, hg⟩ := getData_miss_decoded float64 w q body rs hmiss hget hdec
  have hS : w.Set (PathEscape q) b (Second * 15)
      = .ok { w with
          store := fun k =>
            if k = PathEscape q then
              some ⟨b, if Second * 15 = 0 then none else some (w.now + Second * 15)⟩
            else w.store k } := by
    simp only [World.Set, hset, Bool.false_eq_true, if_false]
  rw [hS] at hg
  simp only at hg
  rw [hg]
  refine ⟨rfl, rfl, rfl, ?_⟩
  simp only
  have hval : (World.advance { w with
          store := fun k =>
            if k = PathEscape q then
              some ⟨b, if Second * 15 = 0 then none else some (w.now + Second * 15)⟩
            else w.store k } dt).Get (PathEscape q) = .val b := by
    have h15 : ¬ (Second * 15 = 0) := by decide
    have hlt : w.now + dt < w.now + Second * 15 := by
      have h1 : dt < Second * 15 := hdt
      exact Nat.add_lt_add_left h1 w.now
    simp only [World.Get, World.advance, hup, Bool.false_eq_true, if_false, if_true, h15,
      Entry.alive, hlt, decide_True]
  obtain ⟨hu, hf⟩ := Decode_clean float64 body rs hdec
  obtain ⟨b2, h1, _, h3⟩ := Unmarshal_Marshal float64 float64_lawful rs hu hf
  rw [hb] at h1
  simp only [Except.ok.injEq] at h1
  subst h1
  have hc := GetCachedData_of_val _ _ b hval
  rw [getData_of_cached float64 _ q (by rw [hc]; exact hne), hc, h3]
  exact ⟨rfl, rfl, rfl, rfl, rfl⟩

set_option maxRecDepth 100000 in
set_option exponentiation.threshold 3000 in
theorem getData_miss_then_hit_witness :
    Decode float64 louvreBody = .ok (some [louvreRecord])
    ∧ (getData float64 (emptyWorld (.ok louvreBody)) (ascii "Paris")).data = some [louvreRecord]
    ∧ (getData float64 (emptyWorld (.ok louvreBody)) (ascii "Paris")).isCached = false
    ∧ (getData float64
        ((getData float64 (emptyWorld (.ok louvreBody)) (ascii "Paris")).world.advance
          14999999999) (ascii "Paris")).data = some [louvreRecord]
    ∧ (getData float64
        ((getData float64 (emptyWorld (.ok louvreBody)) (ascii "Paris")).world.advance
          14999999999) (ascii "Paris")).isCached = true := by
  have h := getData_miss_then_hit
    (emptyWorld (.ok louvreBody)) (ascii "Paris") louvreBody (some [louvreRecord]) 14999999999
    rfl rfl rfl rfl rfl (by decide)
  exact ⟨rfl, h.1, h.2.1, h.2.2.2.1, h.2.2.2.2.1⟩

set_option maxRecDepth 100000 in
set_option exponentiation.threshold 3000 in
/-- C4 as stated fails: `Marshal` rejects a record whose importance is a NaN, and
a latitude that is the byte 0xFF comes back from `Unmarshal` after `Marshal` as
U+FFFD. -/
theorem marshal_roundtrip_counterexample :
    Marshal float64 (some [nanRecord]) = .error .unsupportedValue
    ∧ Marshal float64 (some [badLatRecord])
        = .ok (marshalled float64 (some [badLatRecord]))
    ∧ Unmarshal float64 (marshalled float64 (some [badLatRecord]))
        = .ok (some [coercedLatRecord])
    ∧ coercedLatRecord.Lat ≠ badLatRecord.Lat := by
  refine ⟨rfl, rfl, rfl, ?_⟩
  decide

/-- C4, amended, the serialization round trip: for every sequence `rs` of
records whose strings are well-formed UTF-8 and whose importances are finite,
`Marshal` succeeds and `Unmarshal` of its output succeeds and yields `rs`, equal
in every field and in order, the strings byte for byte.  Every sequence that
`Unmarshal` or the stream decoder returns is such a sequence. -/
theorem marshal_roundtrip
    (rs : Slice (NominatimResponse Finite64)) (hu : allUTF8 rs = true) (hf : allFinite rs = true) :
    (∃ b, Marshal float64 rs = .ok b ∧ Unmarshal float64 b = .ok rs)
    ∧ (∀ data rs2, Unmarshal float64 data = .ok rs2 → allUTF8 rs2 = true ∧ allFinite rs2 = true)
    ∧ (∀ body rs2, Decode float64 body = .ok rs2 → allUTF8 rs2 = true ∧ allFinite rs2 = true) := by
  obtain ⟨b, h1, _, h3⟩ := Unmarshal_Marshal float64 float64_lawful rs hu hf
  exact ⟨⟨b, h1, h3⟩, fun data rs2 h => Unmarshal_clean float64 data rs2 h,
    fun body rs2 h => Decode_clean float64 body rs2 h⟩

set_option maxRecDepth 100000 in
set_option exponentiation.threshold 3000 in
theorem marshal_roundtrip_witness :
    allUTF8 (some [louvreRecord]) = true ∧ allFinite (some [louvreRecord]) = true
    ∧ Marshal float64 (some [louvreRecord]) = .ok louvreBody.bytes
    ∧ ∃ b, Marshal float64 (some [louvreRecord]) = .ok b
        ∧ Unmarshal float64 b = .ok (some [louvreRecord]) :=
  ⟨rfl, rfl, rfl, (marshal_roundtrip (some [louvreRecord]) rfl rfl).1⟩

/-- The world after `getData` differs from the world before at most in the entry
under the escaped query, and every cache call of `getData` is for that key. -/
theorem getData_footprint {F : Type} (sc : Strconv F) (w : World) (q : Bytes) :
    (∀ k ∈ cacheKeys (getData sc w q).calls, k = PathEscape q)
    ∧ (∀ k, k ≠ PathEscape q → (getData sc w q).world.Get k = w.Get k) := by
  by_cases h : GetCachedData w (PathEscape q) = []
  · rw [getData_of_miss sc w q h]
    cases w.upstream (address (PathEscape q)) with
    | error e => exact ⟨by simp [cacheKeys], fun _ _ => rfl⟩
    | ok body =>
      simp only
      cases Decode sc body with
      | error e => exact ⟨by simp [cacheKeys], fun _ _ => rfl⟩
      | ok data =>
        simp only
        cases Marshal sc data with
        | error e => exact ⟨by simp [cacheKeys], fun _ _ => rfl⟩
        | ok b =>
          simp only
          cases hF : w.setFails with
          | true =>
            have s1 : w.Set (PathEscape q) b (Second * 15) = .error .redis := by
              simp only [World.Set, hF, if_true]
            rw [s1]
            exact ⟨by simp [cacheKeys], fun _ _ => rfl⟩
          | false =>
            have s1 : w.Set (PathEscape q) b (Second * 15)
                = .ok { w with
                    store := fun k =>
                      if k = PathEscape q then
                        some ⟨b, if Second * 15 = 0 then none else some (w.now + Second * 15)⟩
                      else w.store k } := by
              simp only [World.Set, hF, Bool.false_eq_true, if_false]
            rw [s1]
            refine ⟨by simp [cacheKeys], ?_⟩
            intro k hk
            simp only [World.Get, hk, if_false]
  · rw [getData_of_cached sc w q h]
    cases Unmarshal sc (GetCachedData w (PathEscape q)) with
    | error e => exact ⟨by simp [cacheKeys], fun _ _ => rfl⟩
    | ok data => exact ⟨by simp [cacheKeys], fun _ _ => rfl⟩

/-- C10, cache keys never collide: `PathEscape` is injective, so for two
different queries the escaped queries differ, every key that `getData` reads or
writes for the one differs from every key that it reads or writes for the
other, and what a lookup for the one finds in the cache is not changed by a call
of `getData` for the other. -/
theorem cache_keys_never_collide {F : Type} (sc : Strconv F) (q1 q2 : Bytes) (hne : q1 ≠ q2) :
    Function.Injective PathEscape
    ∧ PathEscape q1 ≠ PathEscape q2
    ∧ (∀ (w1 w2 : World) (k1 k2 : Bytes), k1 ∈ cacheKeys (getData sc w1 q1).calls →
        k2 ∈ cacheKeys (getData sc w2 q2).calls → k1 ≠ k2)
    ∧ (∀ w : World, (getData sc w q1).world.Get (PathEscape q2) = w.Get (PathEscape q2))
    ∧ (∀ w : World, GetCachedData (getData sc w q1).world (PathEscape q2)
        = GetCachedData w (PathEscape q2)) := by
  have hk : PathEscape q1 ≠ PathEscape q2 := fun h => hne (PathEscape_injective h)
  refine ⟨PathEscape_injective, hk, ?_, ?_, ?_⟩
  · intro w1 w2 k1 k2 h1 h2
    rw [(getData_footprint sc w1 q1).1 k1 h1, (getData_footprint sc w2 q2).1 k2 h2]
    exact hk
  · intro w
    exact (getData_footprint sc w q1).2 _ (fun h => hk h.symm)
  · intro w
    simp only [GetCachedData, (getData_footprint sc w q1).2 _ (fun h => hk h.symm)]

set_option maxRecDepth 100000 in
theorem cache_keys_never_collide_witness :
    ascii "a/b" ≠ ascii "a%2Fb"
    ∧ PathEscape (ascii "a/b") = ascii "a%2Fb"
    ∧ PathEscape (ascii "a%2Fb") = ascii "a%252Fb"
    ∧ PathEscape (ascii "a/b") ≠ PathEscape (ascii "a%2Fb") :=
  ⟨by decide, rfl, rfl,
    (cache_keys_never_collide float64 (ascii "a/b") (ascii "a%2Fb") (by decide)).2.1⟩

set_option maxRecDepth 100000 in
/-- C9 at the queries `a&b` and `1+1`: on a miss `getData` requests the address
with the query string `q=a&b&format=json`, which has the three parameters
`q = a`, `b` (empty) and `format = json`, not the two that the claim states; for
`1+1` the provider reads `q` as `1 1`.  For `Paris` the parameters are the two
of the claim. -/
theorem provider_query_ampersand :
    httpCalls (getData float64 (emptyWorld (.ok parisBody)) (ascii "a&b")).calls
        = [ascii "https://nominatim.openstreetmap.org/search?q=a&b&format=json"]
    ∧ queryParams (rawQuery (ascii "https://nominatim.openstreetmap.org/search?q=a&b&format=json"))
        = some [(ascii "q", ascii "a"), (ascii "b", []), (ascii "format", ascii "json")]
    ∧ queryParams (rawQuery (ascii "https://nominatim.openstreetmap.org/search?q=a&b&format=json"))
        ≠ some [(ascii "q", ascii "a&b"), (ascii "format", ascii "json")]
    ∧ httpCalls (getData float64 (emptyWorld (.ok parisBody)) (ascii "1+1")).calls
        = [ascii "https://nominatim.openstreetmap.org/search?q=1+1&format=json"]
    ∧ queryParams (rawQuery (ascii "https://nominatim.openstreetmap.org/search?q=1+1&format=json"))
        = some [(ascii "q", ascii "1 1"), (ascii "format", ascii "json")]
    ∧ queryParams (rawQuery (address (PathEscape (ascii "Paris"))))
        = some [(ascii "q", ascii "Paris"), (ascii "format", ascii "json")] := by
  refine ⟨rfl, rfl, ?_, rfl, rfl, rfl⟩
  decide

/-! ## The fuel of the scanner -/

theorem skipSpace_length (s : Bytes) : (skipSpace s).length ≤ s.length := by
  induction s with
  | nil => simp [skipSpace]
  | cons c s ih =>
    rw [skipSpace]
    split
    · simp only [List.length_cons]; omega
    · exact le_refl _

theorem option_map_some {α β : Type} {f : α → β} {o : Option α} {b : β}
    (h : o.map f = some b) : ∃ a, o = some a ∧ f a = b := by
  cases o with
  | none => simp at h
  | some a => exact ⟨a, rfl, by simpa using h⟩

theorem scanString_length (n : Nat) : ∀ (Y raw X : Bytes), Y.length ≤ n →
    scanString Y = some (raw, X) → X.length < Y.length := by
  induction n with
  | zero =>
    intro Y raw X hn h
    have : Y = [] := List.length_eq_zero.mp (by omega)
    subst this
    rw [scanString.eq_def] at h; simp at h
  | succ n ih =>
    intro Y raw X hn h
    rw [scanString.eq_def] at h
    cases Y with
    | nil => simp at h
    | cons c rest =>
      simp only at h
      simp only [List.length_cons] at hn ⊢
      by_cases h1 : c = 34
      · rw [if_pos h1] at h
        simp only [Option.some.injEq, Prod.mk.injEq] at h
        rw [← h.2]; omega
      rw [if_neg h1] at h
      by_cases h2 : c = 92
      · rw [if_pos h2] at h
        cases rest with
        | nil => simp at h
        | cons e rest1 =>
          simp only at h
          simp only [List.length_cons] at hn ⊢
          by_cases h3 : e = 98 ∨ e = 102 ∨ e = 110 ∨ e = 114 ∨ e = 116 ∨ e = 92 ∨ e = 47 ∨ e = 34
          · rw [if_pos h3] at h
            obtain ⟨p, hp, he⟩ := option_map_some h
            obtain ⟨p1, p2⟩ := p
            simp only [Prod.mk.injEq] at he
            have := ih rest1 p1 p2 (by omega) hp
            rw [← he.2]; omega
          rw [if_neg h3] at h
          by_cases h4 : e = 117
          · rw [if_pos h4] at h
            cases rest1 with
            | nil => simp at h
            | cons a1 r1 =>
              cases r1 with
              | nil => simp at h
              | cons a2 r2 =>
                cases r2 with
                | nil => simp at h
                | cons a3 r3 =>
                  cases r3 with
                  | nil => simp at h
                  | cons a4 r4 =>
                    simp only at h
                    simp only [List.length_cons] at hn ⊢
                    split at h
                    · obtain ⟨p, hp, he⟩ := option_map_some h
                      obtain ⟨p1, p2⟩ := p
                      simp only [Prod.mk.injEq] at he
                      have := ih r4 p1 p2 (by omega) hp
                      rw [← he.2]; omega
                    · simp at h
          · rw [if_neg h4] at h; simp at h
      rw [if_neg h2] at h
      by_cases h5 : c.val < 0x20
      · rw [if_pos h5] at h; simp at h
      rw [if_neg h5] at h
      obtain ⟨p, hp, he⟩ := option_map_some h
      obtain ⟨p1, p2⟩ := p
      simp only [Prod.mk.injEq] at he
      have := ih rest p1 p2 (by omega) hp
      rw [← he.2]; omega

theorem scanNumber_length (Y : Bytes) : ∀ (st : NumState) (lit X : Bytes),
    scanNumber st Y = some (lit, X) → X.length ≤ Y.length := by
  induction Y with
  | nil =>
    intro st lit X h
    rw [scanNumber] at h
    split at h
    · simp only [Option.some.injEq, Prod.mk.injEq] at h; rw [← h.2]
    · simp at h
  | cons c rest ih =>
    intro st lit X h
    rw [scanNumber] at h
    cases hs : numStep st c with
    | none =>
      rw [hs] at h
      simp only at h
      split at h
      · simp only [Option.some.injEq, Prod.mk.injEq] at h; rw [← h.2]
      · simp at h
    | some st2 =>
      rw [hs] at h
      simp only at h
      obtain ⟨p, hp, he⟩ := option_map_some h
      obtain ⟨p1, p2⟩ := p
      simp only [Prod.mk.injEq] at he
      have := ih st2 p1 p2 hp
      rw [← he.2]; simp only [List.length_cons]; omega

theorem scanNumber_begin_length (c : Byte) (rest lit X : Bytes)
    (hc : c = 45 ∨ isDigit c = true)
    (h : scanNumber .begin (c :: rest) = some (lit, X)) : X.length < (c :: rest).length := by
  have hstep : ∃ st, numStep .begin c = some st := by
    rcases hc with hc | hc
    · exact ⟨.neg, by simp [numStep, hc]⟩
    · by_cases h45 : c = 45
      · exact ⟨.neg, by simp [numStep, h45]⟩
      · by_cases h48 : c = 48
        · exact ⟨.zero, by simp [numStep, h48]⟩
        · exact ⟨.int, by simp [numStep, h45, h48, hc]⟩
  obtain ⟨st, hst⟩ := hstep
  rw [scanNumber_cons_some .begin st c rest hst] at h
  obtain ⟨p, hp, he⟩ := option_map_some h
  obtain ⟨p1, p2⟩ := p
  simp only [Prod.mk.injEq] at he
  have := scanNumber_length rest st p1 p2 hp
  rw [← he.2]; simp only [List.length_cons]; omega

theorem scanLiteral_length (lit s r : Bytes) (h : scanLiteral lit s = some r) :
    r.length ≤ s.length := by
  unfold scanLiteral at h
  split at h
  · simp only [Option.some.injEq] at h; rw [← h]; simp
  · simp at h

/-- Every successful call of the reader consumes at least one byte. -/
theorem parse_progress (f : Nat) :
    (∀ d s v rest, parseValue f d s = some (v, rest) → rest.length < s.length)
    ∧ (∀ d s vs rest, parseElems f d s = some (vs, rest) → rest.length < s.length)
    ∧ (∀ d s ms rest, parseMembers f d s = some (ms, rest) → rest.length < s.length) := by
  induction f with
  | zero =>
    refine ⟨?_, ?_, ?_⟩ <;> intro d s v rest h
    · rw [parseValue] at h; simp at h
    · rw [parseElems] at h; simp at h
    · rw [parseMembers] at h; simp at h
  | succ f ih =>
    obtain ⟨ihV, ihE, ihM⟩ := ih
    refine ⟨?_, ?_, ?_⟩
    · intro d s v X h
      cases s with
      | nil => rw [parseValue] at h; simp at h
      | cons c rest =>
        rw [parseValue] at h
        simp only [List.length_cons]
        by_cases h1 : c = 123
        · rw [if_pos h1] at h
          split at h
          · have hsk := skipSpace_length rest
            cases hs : skipSpace rest with
            | nil => rw [hs] at h; simp at h
            | cons c2 rest2 =>
              rw [hs] at h hsk
              simp only at h
              simp only [List.length_cons] at hsk
              split at h
              · simp only [Option.some.injEq, Prod.mk.injEq] at h
                rw [← h.2]; omega
              · obtain ⟨p, hp, he⟩ := option_map_some h
                obtain ⟨p1, p2⟩ := p
                simp only [Prod.mk.injEq] at he
                have := ihM _ _ _ _ hp
                simp only [List.length_cons] at this
                rw [← he.2]; omega
          · simp at h
        rw [if_neg h1] at h
        by_cases h2 : c = 91
        · rw [if_pos h2] at h
          split at h
          · have hsk := skipSpace_length rest
            cases hs : skipSpace rest with
            | nil => rw [hs] at h; simp at h
            | cons c2 rest2 =>
              rw [hs] at h hsk
              simp only at h
              simp only [List.length_cons] at hsk
              split at h
              · simp only [Option.some.injEq, Prod.mk.injEq] at h
                rw [← h.2]; omega
              · obtain ⟨p, hp, he⟩ := option_map_some h
                obtain ⟨p1, p2⟩ := p
                simp only [Prod.mk.injEq] at he
                have := ihE _ _ _ _ hp
                simp only [List.length_cons] at this
                rw [← he.2]; omega
          · simp at h
        rw [if_neg h2] at h
        by_cases h3 : c = 34
        · rw [if_pos h3] at h
          obtain ⟨p, hp, he⟩ := option_map_some h
          obtain ⟨p1, p2⟩ := p
          simp only [Prod.mk.injEq] at he
          have := scanString_length _ _ _ _ (le_refl _) hp
          rw [← he.2]; omega
        rw [if_neg h3] at h
        by_cases h4 : c = 45 ∨ isDigit c = true
        · rw [if_pos h4] at h
          obtain ⟨p, hp, he⟩ := option_map_some h
          obtain ⟨p1, p2⟩ := p
          simp only [Prod.mk.injEq] at he
          have := scanNumber_begin_length c rest p1 p2 h4 hp
          simp only [List.length_cons] at this
          rw [← he.2]; omega
        rw [if_neg h4] at h
        by_cases h5 : c = 116
        · rw [if_pos h5] at h
          obtain ⟨r, hr, he⟩ := option_map_some h
          simp only [Prod.mk.injEq] at he
          have := scanLiteral_length _ _ _ hr
          rw [← he.2]; omega
        rw [if_neg h5] at h
        by_cases h6 : c = 102
        · rw [if_pos h6] at h
          obtain ⟨r, hr, he⟩ := option_map_some h
          simp only [Prod.mk.injEq] at he
          have := scanLiteral_length _ _ _ hr
          rw [← he.2]; omega
        rw [if_neg h6] at h
        by_cases h7 : c = 110
        · rw [if_pos h7] at h
          obtain ⟨r, hr, he⟩ := option_map_some h
          simp only [Prod.mk.injEq] at he
          have := scanLiteral_length _ _ _ hr
          rw [← he.2]; omega
        rw [if_neg h7] at h
        simp at h
    · intro d s vs X h
      rw [parseElems] at h
      cases hv : parseValue f d s with
      | none => rw [hv] at h; simp at h
      | some p =>
        obtain ⟨v, rest⟩ := p
        rw [hv] at h
        simp only at h
        have hp := ihV _ _ _ _ hv
        have hsk := skipSpace_length rest
        cases hs : skipSpace rest with
        | nil => rw [hs] at h; simp at h
        | cons c rest2 =>
          rw [hs] at h hsk
          simp only at h
          simp only [List.length_cons] at hsk
          split at h
          · obtain ⟨p, hp2, he⟩ := option_map_some h
            obtain ⟨p1, p2⟩ := p
            simp only [Prod.mk.injEq] at he
            have := ihE _ _ _ _ hp2
            have := skipSpace_length rest2
            rw [← he.2]; omega
          · split at h
            · simp only [Option.some.injEq, Prod.mk.injEq] at h
              rw [← h.2]; omega
            · simp at h
    · intro d s ms X h
      cases s with
      | nil => rw [parseMembers] at h; simp at h
      | cons c rest =>
        rw [parseMembers] at h
        simp only [List.length_cons]
        split at h
        · cases hk : scanString rest with
          | none => rw [hk] at h; simp at h
          | some p =>
            obtain ⟨key, rest1⟩ := p
            rw [hk] at h
            simp only at h
            have hkl := scanString_length _ _ _ _ (le_refl _) hk
            have hsk1 := skipSpace_length rest1
            cases hs1 : skipSpace rest1 with
            | nil => rw [hs1] at h; simp at h
            | cons c2 rest2 =>
              rw [hs1] at h hsk1
              simp only at h
              simp only [List.length_cons] at hsk1
              split at h
              · have hsk2 := skipSpace_length rest2
                cases hv : parseValue f d (skipSpace rest2) with
                | none => rw [hv] at h; simp at h
                | some p =>
                  obtain ⟨v, rest3⟩ := p
                  rw [hv] at h
                  simp only at h
                  have hp := ihV _ _ _ _ hv
                  have hsk3 := skipSpace_length rest3
                  cases hs3 : skipSpace rest3 with
                  | nil => rw [hs3] at h; simp at h
                  | cons c3 rest4 =>
                    rw [hs3] at h hsk3
                    simp only at h
                    simp only [List.length_cons] at hsk3
                    split at h
                    · obtain ⟨p, hp2, he⟩ := option_map_some h
                      obtain ⟨p1, p2⟩ := p
                      simp only [Prod.mk.injEq] at he
                      have := ihM _ _ _ _ hp2
                      have := skipSpace_length rest4
                      rw [← he.2]; omega
                    · split at h
                      · simp only [Option.some.injEq, Prod.mk.injEq] at h
                        rw [← h.2]; omega
                      · simp at h
              · simp at h
        · simp at h

/-- The result of the reader does not depend on the fuel once the fuel is twice
the length of the input plus two (plus three for the elements of an array and
the members of an object): the fuel of `scanValue` never runs out. -/
theorem parse_fuel (f : Nat) :
    (∀ d s g, 2 * s.length + 2 ≤ f → 2 * s.length + 2 ≤ g → parseValue f d s = parseValue g d s)
    ∧ (∀ d s g, 2 * s.length + 3 ≤ f → 2 * s.length + 3 ≤ g →
        parseElems f d s = parseElems g d s)
    ∧ (∀ d s g, 2 * s.length + 3 ≤ f → 2 * s.length + 3 ≤ g →
        parseMembers f d s = parseMembers g d s) := by
  induction f with
  | zero =>
    refine ⟨?_, ?_, ?_⟩ <;> intro d s g hf _ <;> omega
  | succ f ih =>
    obtain ⟨ihV, ihE, ihM⟩ := ih
    refine ⟨?_, ?_, ?_⟩
    · intro d s g hf hg
      obtain ⟨g, rfl⟩ : ∃ g2, g = g2 + 1 := ⟨g - 1, by omega⟩
      cases s with
      | nil => rw [parseValue, parseValue]
      | cons c rest =>
        simp only [List.length_cons] at hf hg
        rw [parseValue, parseValue]
        by_cases h1 : c = 123
        · rw [if_pos h1, if_pos h1]
          have hsk := skipSpace_length rest
          cases hs : skipSpace rest with
          | nil => rfl
          | cons c2 rest2 =>
            rw [hs] at hsk
            simp only [List.length_cons] at hsk
            simp only
            rw [ihM (d + 1) (c2 :: rest2) g (by simp only [List.length_cons]; omega)
              (by simp only [List.length_cons]; omega)]
        rw [if_neg h1, if_neg h1]
        by_cases h2 : c = 91
        · rw [if_pos h2, if_pos h2]
          have hsk := skipSpace_length rest
          cases hs : skipSpace rest with
          | nil => rfl
          | cons c2 rest2 =>
            rw [hs] at hsk
            simp only [List.length_cons] at hsk
            simp only
            rw [ihE (d + 1) (c2 :: rest2) g (by simp only [List.length_cons]; omega)
              (by simp only [List.length_cons]; omega)]
        rw [if_neg h2, if_neg h2]
    · intro d s g hf hg
      obtain ⟨g, rfl⟩ : ∃ g2, g = g2 + 1 := ⟨g - 1, by omega⟩
      rw [parseElems, parseElems, ihV d s g (by omega) (by omega)]
      cases hv : parseValue g d s with
      | none => rfl
      | some p =>
        obtain ⟨v, rest⟩ := p
        simp only
        have hp := (parse_progress g).1 _ _ _ _ hv
        have hsk := skipSpace_length rest
        cases hs : skipSpace rest with
        | nil => rfl
        | cons c rest2 =>
          rw [hs] at hsk
          simp only [List.length_cons] at hsk
          simp only
          have hsk2 := skipSpace_length rest2
          rw [ihE d (skipSpace rest2) g (by omega) (by omega)]
    · intro d s g hf hg
      obtain ⟨g, rfl⟩ : ∃ g2, g = g2 + 1 := ⟨g - 1, by omega⟩
      cases s with
      | nil => rw [parseMembers, parseMembers]
      | cons c rest =>
        simp only [List.length_cons] at hf hg
        rw [parseMembers, parseMembers]
        by_cases h1 : c = 34
        · rw [if_pos h1, if_pos h1]
          cases hk : scanString rest with
          | none => rfl
          | some p =>
            obtain ⟨key, rest1⟩ := p
            simp only
            have hkl := scanString_length _ _ _ _ (le_refl _) hk
            have hsk1 := skipSpace_length rest1
            cases hs1 : skipSpace rest1 with
            | nil => rfl
            | cons c2 rest2 =>
              rw [hs1] at hsk1
              simp only [List.length_cons] at hsk1
              simp only
              by_cases h2 : c2 = 58
              · rw [if_pos h2, if_pos h2]
                have hsk2 := skipSpace_length rest2
                rw [ihV d (skipSpace rest2) g (by omega) (by omega)]
                cases hv : parseValue g d (skipSpace rest2) with
                | none => rfl
                | some p =>
                  obtain ⟨v, rest3⟩ := p
                  simp only
                  have hp := (parse_progress g).1 _ _ _ _ hv
                  have hsk3 := skipSpace_length rest3
                  cases hs3 : skipSpace rest3 with
                  | nil => rfl
                  | cons c3 rest4 =>
                    rw [hs3] at hsk3
                    simp only [List.length_cons] at hsk3
                    simp only
                    have hsk4 := skipSpace_length rest4
                    rw [ihM d (skipSpace rest4) g (by omega) (by omega)]
              · rw [if_neg h2, if_neg h2]
        · rw [if_neg h1, if_neg h1]

/-- The value that `scanValue` reads is the value read with any larger fuel. -/
theorem scanValue_fuel (s : Bytes) (g : Nat) (hg : 2 * s.length + 2 ≤ g) :
    parseValue g 0 (skipSpace s) = scanValue s := by
  have hsk := skipSpace_length s
  unfold scanValue
  by_cases h : 2 * (skipSpace s).length + 2 ≤ 2 * s.length + 2
  · rw [(parse_fuel g).1 0 (skipSpace s) (2 * s.length + 2) (by omega) h]
  · omega

/-! ## The fuel of the string loops -/

/-- An iteration of `unquoteBytes` consumes at least one byte. -/
theorem unquoteStep_pos (c : Byte) (rest out : Bytes) (n : Nat)
    (h : unquoteStep c rest = some (out, n)) : 1 ≤ n := by
  rw [unquoteStep] at h
  have fin : ∀ (o : Bytes) (k : Nat), 1 ≤ k → some (o, k) = some (out, n) → 1 ≤ n := by
    intro o k hk hh
    simp only [Option.some.injEq, Prod.mk.injEq] at hh
    omega
  by_cases hc : c = 92
  · rw [if_pos hc] at h
    by_cases h1 : rest = []
    · rw [if_pos h1] at h; simp at h
    rw [if_neg h1] at h
    by_cases h2 : rest.headD 0 = 34 ∨ rest.headD 0 = 92 ∨ rest.headD 0 = 47 ∨ rest.headD 0 = 39
    · rw [if_pos h2] at h; exact fin _ _ (by omega) h
    rw [if_neg h2] at h
    by_cases h3 : rest.headD 0 = 98
    · rw [if_pos h3] at h; exact fin _ _ (by omega) h
    rw [if_neg h3] at h
    by_cases h4 : rest.headD 0 = 102
    · rw [if_pos h4] at h; exact fin _ _ (by omega) h
    rw [if_neg h4] at h
    by_cases h5 : rest.headD 0 = 110
    · rw [if_pos h5] at h; exact fin _ _ (by omega) h
    rw [if_neg h5] at h
    by_cases h6 : rest.headD 0 = 114
    · rw [if_pos h6] at h; exact fin _ _ (by omega) h
    rw [if_neg h6] at h
    by_cases h7 : rest.headD 0 = 116
    · rw [if_pos h7] at h; exact fin _ _ (by omega) h
    rw [if_neg h7] at h
    by_cases h8 : rest.headD 0 = 117
    · rw [if_pos h8] at h
      cases hg : getu4 (c :: rest) with
      | none => rw [hg] at h; simp at h
      | some rr =>
        rw [hg] at h
        simp only at h
        by_cases h9 : isSurrogate rr = true
        · rw [if_pos h9] at h
          by_cases h10 : utf16DecodeRune rr (getu4 (rest.drop 5)) ≠ 0xFFFD
          · rw [if_pos h10] at h; exact fin _ _ (by omega) h
          · rw [if_neg h10] at h; exact fin _ _ (by omega) h
        · rw [if_neg h9] at h; exact fin _ _ (by omega) h
    · rw [if_neg h8] at h; simp at h
  · rw [if_neg hc] at h
    by_cases h1 : c = 34 ∨ c.val < 0x20
    · rw [if_pos h1] at h; simp at h
    rw [if_neg h1] at h
    by_cases h2 : c.val < 0x80
    · rw [if_pos h2] at h; exact fin _ _ (by omega) h
    · rw [if_neg h2] at h; exact fin _ _ (DecodeRune_size_pos c rest) h

/-- The result of `unquoteBytes` does not depend on the fuel once the fuel is the
length of the text: the fuel of `unquote` never runs out. -/
theorem unquoteAux_fuel (n : Nat) : ∀ (m : Nat) (s : Bytes), s.length ≤ n → s.length ≤ m →
    unquoteAux n s = unquoteAux m s := by
  induction n with
  | zero =>
    intro m s h _
    have : s = [] := List.length_eq_zero.mp (by omega)
    subst this
    rw [unquoteAux_nil, unquoteAux_nil]
  | succ n ih =>
    intro m s h hm
    cases s with
    | nil => rw [unquoteAux_nil, unquoteAux_nil]
    | cons c rest =>
      cases m with
      | zero => simp at hm
      | succ m =>
        simp only [List.length_cons] at h hm
        cases hstep : unquoteStep c rest with
        | none => simp only [unquoteAux, hstep]
        | some p =>
          obtain ⟨out, k⟩ := p
          have hk := unquoteStep_pos c rest out k hstep
          rw [unquoteAux_cons n c rest out k hstep, unquoteAux_cons m c rest out k hstep,
            ih m _ (by simp only [List.length_drop, List.length_cons]; omega)
              (by simp only [List.length_drop, List.length_cons]; omega)]

/-- An iteration of `appendString` consumes at least one byte. -/
theorem appendStep_pos (b : Byte) (rest : Bytes) : 1 ≤ (appendStep b rest).2 := by
  have hpos := DecodeRune_size_pos b rest
  unfold appendStep
  split
  · split <;> exact le_refl _
  · split
    · exact le_refl _
    · split <;> exact hpos

/-- The output of `appendString` does not depend on the fuel once the fuel is the
length of the text: the fuel of `appendString` never runs out. -/
theorem appendStringAux_fuel (n : Nat) : ∀ (m : Nat) (s : Bytes), s.length ≤ n →
    s.length ≤ m → appendStringAux n s = appendStringAux m s := by
  induction n with
  | zero =>
    intro m s h _
    have : s = [] := List.length_eq_zero.mp (by omega)
    subst this
    rw [appendStringAux_nil, appendStringAux_nil]
  | succ n ih =>
    intro m s h hm
    cases s with
    | nil => rw [appendStringAux_nil, appendStringAux_nil]
    | cons b rest =>
      cases m with
      | zero => simp at hm
      | succ m =>
        simp only [List.length_cons] at h hm
        have hk := appendStep_pos b rest
        rw [appendStringAux_cons, appendStringAux_cons,
          ih m _ (by simp only [List.length_drop, List.length_cons]; omega)
            (by simp only [List.length_drop, List.length_cons]; omega)]

/-- What the scanner returns as the text of a string literal is such a text. -/
theorem scanString_rawOK (n : Nat) : ∀ (Y raw X : Bytes), Y.length ≤ n →
    scanString Y = some (raw, X) → RawOK raw := by
  induction n with
  | zero =>
    intro Y raw X hn h
    have : Y = [] := List.length_eq_zero.mp (by omega)
    subst this
    rw [scanString.eq_def] at h; simp at h
  | succ n ih =>
    intro Y raw X hn h
    rw [scanString.eq_def] at h
    cases Y with
    | nil => simp at h
    | cons c rest =>
      simp only at h
      simp only [List.length_cons] at hn
      by_cases h1 : c = 34
      · rw [if_pos h1] at h
        simp only [Option.some.injEq, Prod.mk.injEq] at h
        rw [← h.1]; exact RawOK.nil
      rw [if_neg h1] at h
      by_cases h2 : c = 92
      · rw [if_pos h2] at h
        cases rest with
        | nil => simp at h
        | cons e rest1 =>
          simp only at h
          simp only [List.length_cons] at hn
          by_cases h3 : e = 98 ∨ e = 102 ∨ e = 110 ∨ e = 114 ∨ e = 116 ∨ e = 92 ∨ e = 47 ∨ e = 34
          · rw [if_pos h3] at h
            obtain ⟨p, hp, he⟩ := option_map_some h
            obtain ⟨p1, p2⟩ := p
            simp only [Prod.mk.injEq] at he
            rw [← he.1, h2]
            exact RawOK.esc e p1 h3 (ih rest1 p1 p2 (by omega) hp)
          rw [if_neg h3] at h
          by_cases h4 : e = 117
          · rw [if_pos h4] at h
            cases rest1 with
            | nil => simp at h
            | cons a1 r1 =>
              cases r1 with
              | nil => simp at h
              | cons a2 r2 =>
                cases r2 with
                | nil => simp at h
                | cons a3 r3 =>
                  cases r3 with
                  | nil => simp at h
                  | cons a4 r4 =>
                    simp only at h
                    simp only [List.length_cons] at hn
                    by_cases hx : (isHex a1 && isHex a2 && isHex a3 && isHex a4) = true
                    · rw [if_pos hx] at h
                      obtain ⟨p, hp, he⟩ := option_map_some h
                      obtain ⟨p1, p2⟩ := p
                      simp only [Prod.mk.injEq] at he
                      simp only [Bool.and_eq_true] at hx
                      rw [← he.1, h2, h4]
                      exact RawOK.u a1 a2 a3 a4 p1 hx.1.1.1 hx.1.1.2 hx.1.2 hx.2
                        (ih r4 p1 p2 (by omega) hp)
                    · rw [if_neg hx] at h; simp at h
          · rw [if_neg h4] at h; simp at h
      rw [if_neg h2] at h
      by_cases h5 : c.val < 0x20
      · rw [if_pos h5] at h; simp at h
      rw [if_neg h5] at h
      obtain ⟨p, hp, he⟩ := option_map_some h
      obtain ⟨p1, p2⟩ := p
      simp only [Prod.mk.injEq] at he
      rw [← he.1]
      exact RawOK.plain c p1 h1 h2 h5 (ih rest p1 p2 (by omega) hp)

theorem RawOK_tail_high (c : Byte) (t : Bytes) (hc : 0x80 ≤ c.val) (h : RawOK (c :: t)) :
    RawOK t := by
  cases h with
  | plain _ _ _ _ _ ht => exact ht
  | esc e t' _ _ => exact absurd hc (by decide)
  | u _ _ _ _ _ _ _ _ _ _ => exact absurd hc (by decide)

theorem RawOK_drop_high (l : Bytes) : ∀ (r : Bytes), (∀ x ∈ l, 0x80 ≤ x.val) →
    RawOK (l ++ r) → RawOK r := by
  induction l with
  | nil => intro r _ h; exact h
  | cons c l ih =>
    intro r hl h
    exact ih r (fun x hx => hl x (List.mem_cons_of_mem _ hx))
      (RawOK_tail_high c _ (hl c (by simp)) h)

set_option maxRecDepth 100000 in
theorem isHex_hexVal_isSome : ∀ c : Byte, isHex c = true → (hexVal c).isSome = true := by
  decide

theorem isHex_hexVal (c : Byte) (h : isHex c = true) : ∃ v, hexVal c = some v :=
  Option.isSome_iff_exists.mp (isHex_hexVal_isSome c h)

theorem getu4_some (s : Bytes) (r : Nat) (h : getu4 s = some r) :
    ∃ h1 h2 h3 h4 t, s = 92 :: 117 :: h1 :: h2 :: h3 :: h4 :: t := by
  unfold getu4 at h
  split at h
  · rename_i c e h1 h2 h3 h4 t
    by_cases hc : c = 92 ∧ e = 117
    · exact ⟨h1, h2, h3, h4, t, by rw [hc.1, hc.2]⟩
    · rw [if_neg hc] at h; simp at h
  · simp at h

/-- One iteration of `unquoteBytes` succeeds on a text that the scanner accepted,
and what it leaves is such a text again. -/
theorem unquoteStep_rawOK (c : Byte) (rest : Bytes) (h : RawOK (c :: rest)) :
    ∃ out n, unquoteStep c rest = some (out, n) ∧ RawOK ((c :: rest).drop n) := by
  by_cases hc : c = 92
  · subst hc
    cases h with
    | plain _ _ _ h2 _ _ => exact absurd rfl h2
    | esc e t he ht =>
      rcases he with he | he | he | he | he | he | he | he <;> subst he
      · exact ⟨_, _, unquoteStep_esc_b t, ht⟩
      · exact ⟨_, _, unquoteStep_esc_f t, ht⟩
      · exact ⟨_, _, unquoteStep_esc_n t, ht⟩
      · exact ⟨_, _, unquoteStep_esc_r t, ht⟩
      · exact ⟨_, _, unquoteStep_esc_t t, ht⟩
      · exact ⟨_, _, unquoteStep_esc_self 92 t (Or.inr rfl), ht⟩
      · exact ⟨[47], 2, by rw [unquoteStep]; simp, ht⟩
      · exact ⟨_, _, unquoteStep_esc_self 34 t (Or.inl rfl), ht⟩
    | u h1 h2 h3 h4 t x1 x2 x3 x4 ht =>
      obtain ⟨a, e1⟩ := isHex_hexVal h1 x1
      obtain ⟨b, e2⟩ := isHex_hexVal h2 x2
      obtain ⟨c, e3⟩ := isHex_hexVal h3 x3
      obtain ⟨d, e4⟩ := isHex_hexVal h4 x4
      have hg : getu4 (92 :: 117 :: h1 :: h2 :: h3 :: h4 :: t)
          = some (((a * 16 + b) * 16 + c) * 16 + d) := by
        simp [getu4, e1, e2, e3, e4]
      by_cases hs : isSurrogate (((a * 16 + b) * 16 + c) * 16 + d) = true
      · by_cases hp : utf16DecodeRune (((a * 16 + b) * 16 + c) * 16 + d) (getu4 t) ≠ 0xFFFD
        · refine ⟨EncodeRune (utf16DecodeRune (((a * 16 + b) * 16 + c) * 16 + d) (getu4 t)), 12,
            by rw [unquoteStep]; simp [hg, hs, hp], ?_⟩
          cases hg2 : getu4 t with
          | none => rw [hg2] at hp; simp [utf16DecodeRune] at hp
          | some r2 =>
            obtain ⟨k1, k2, k3, k4, t2, rfl⟩ := getu4_some t r2 hg2
            cases ht with
            | plain _ _ _ h2 _ _ => exact absurd rfl h2
            | esc e t' he _ =>
              have hf : ¬ ((117 : Byte) = 98 ∨ (117 : Byte) = 102 ∨ (117 : Byte) = 110
                  ∨ (117 : Byte) = 114 ∨ (117 : Byte) = 116 ∨ (117 : Byte) = 92
                  ∨ (117 : Byte) = 47 ∨ (117 : Byte) = 34) := by decide
              exact absurd he hf
            | u _ _ _ _ _ _ _ _ _ ht2 => exact ht2
        · refine ⟨EncodeRune 0xFFFD, 6, by rw [unquoteStep]; simp [hg, hs, hp], ht⟩
      · refine ⟨EncodeRune (((a * 16 + b) * 16 + c) * 16 + d), 6,
          by rw [unquoteStep]; simp [hg, hs], ht⟩
  · cases h with
    | plain _ _ h1 h2 h3 ht =>
      by_cases h4 : c.val < 0x80
      · exact ⟨[c], 1, unquoteStep_plain c rest h1 h2 h3 h4, ht⟩
      · have hb : 0x80 ≤ c.val := by omega
        refine ⟨_, _, unquoteStep_multi c rest hb, ?_⟩
        rcases DecodeRune_cases c rest with ⟨h, _⟩ | ⟨_, h⟩
          | ⟨_, b1, rest1, r, e, g1, hD, _⟩
          | ⟨_, b1, b2, rest2, r, e, g1, g2, hD, _⟩
          | ⟨_, b1, b2, b3, rest3, r, e, g1, g2, g3, hD, _⟩
        · omega
        · rw [h]; exact ht
        · rw [hD, e]
          subst e
          exact RawOK_tail_high b1 _ g1 ht
        · rw [hD, e]
          subst e
          exact RawOK_tail_high b2 _ g2 (RawOK_tail_high b1 _ g1 ht)
        · rw [hD, e]
          subst e
          exact RawOK_tail_high b3 _ g3 (RawOK_tail_high b2 _ g2 (RawOK_tail_high b1 _ g1 ht))
    | esc _ _ _ _ => exact absurd rfl hc
    | u _ _ _ _ _ _ _ _ _ _ => exact absurd rfl hc

/-- The function `unquoteBytes` succeeds on every text that the scanner accepted
as a string literal: the decoder never meets its `ok = false`. -/
theorem unquoteAux_rawOK (fuel : Nat) : ∀ (raw : Bytes), raw.length ≤ fuel → RawOK raw →
    ∃ s, unquoteAux fuel raw = some s := by
  induction fuel with
  | zero =>
    intro raw h _
    have : raw = [] := List.length_eq_zero.mp (by omega)
    subst this
    exact ⟨[], unquoteAux_nil 0⟩
  | succ fuel ih =>
    intro raw h hr
    cases raw with
    | nil => exact ⟨[], unquoteAux_nil _⟩
    | cons c rest =>
      obtain ⟨out, n, hstep, hrest⟩ := unquoteStep_rawOK c rest hr
      have hn := unquoteStep_pos c rest out n hstep
      simp only [List.length_cons] at h
      obtain ⟨s, hs⟩ := ih _ (by simp only [List.length_drop, List.length_cons]; omega) hrest
      exact ⟨out ++ s, by rw [unquoteAux_cons fuel c rest out n hstep, hs]; rfl⟩

theorem unquote_scanned (Y raw X : Bytes) (h : scanString Y = some (raw, X)) :
    ∃ s, unquote raw = some s :=
  unquoteAux_rawOK _ raw (le_refl _) (scanString_rawOK _ Y raw X (le_refl _) h)

end GeoCache
